import Mathlib

/-!
# Verification of the Structural JSON Navigator & Localized Mutator

This file embeds, in Lean 4, the core of `src/components/tools/JsonEditor.tsx`
(the second, authoritative component in that file, lines 441-1485): the path
string codec (`parsePathString` and the path-string construction inside
`buildAccuratePath`), the value-graph walker (`getNestedValue`), the structural
path resolver (`getAccurateKeyPath`), the span-exact splice
(`applyValueReplace`) and the two mutations (`handleExpandField`,
`handleCompressField`).

Modelling conventions:

* JS strings are modelled as `List Char` (or Lean `String` wrappers around
  them).  Offsets are `Nat` indices into the character list; the Monaco
  position/offset conversion (`getOffsetAt`/`getPositionAt`) is the identity
  on offsets, and `executeEdits` with a `[start, end)` range is the splice
  `take start ++ replacement ++ drop end`.
* The JSON machinery used by the source is the JS builtin `JSON` object
  (`JSON.parse`, `JSON.stringify`) together with the `jsonc-parser` npm
  library (`parseTree`, `findNodeAtOffset`, `findNodeAtLocation`), which are
  dependencies, not part of the repository.  They are embedded here by
  faithful executable models: a span-carrying recursive-descent parser
  (strict JSON; every call site of `parseTree` in the component is guarded
  by a successful `JSON.parse` of the same text, on which the lenient
  `jsonc-parser` grammar coincides with strict JSON), the standard
  serializer with its two modes (compact and indented), and the exact
  node-walking algorithms of `findNodeAtOffset` / `findNodeAtLocation`.
* JSON numbers are modelled as exact integers (`Int`).  The source works
  with JS binary64 numbers; fractional and exponent literals are outside
  this embedding, which is irrelevant to the claims at hand (none depends
  on non-integer numerics).
* Recursions are structural (lists, or an explicit fuel counter), so that
  every definition evaluates inside the kernel (`decide` / `rfl`); each
  fuel-based function comes with a fuel-irrelevance lemma and a wrapper
  applying a canonical, provably sufficient fuel.
-/

/-! ## Path segments and the path-string codec -/

/-- A path segment as used by the component: JS `(string | number)[]`.
Indices are `Int` because JS `parseInt` can produce negative numbers. -/
inductive Seg where
  | key (s : String)
  | idx (n : Int)
deriving DecidableEq, Repr

/-- JS whitespace accepted by `parseInt` before the number. -/
def isJsSpace (c : Char) : Bool :=
  c = ' ' || c = '\t' || c = '\n' || c = '\r' || c = '\x0b' || c = '\x0c'

/-- Decimal digit test. -/
def isDigitC (c : Char) : Bool := '0' ≤ c && c ≤ '9'

/-- Digit-run phase of JS `parseInt`: the maximal run of leading decimal
digits (at least one required, trailing junk ignored); `none` models `NaN`. -/
def parseIntDigits (cs : List Char) : Option Nat :=
  let ds := cs.takeWhile isDigitC
  if ds.isEmpty then none
  else some (ds.foldl (fun a c => a * 10 + (c.toNat - 48)) 0)

/-- Sign phase of JS `parseInt`. -/
def parseIntSigned : List Char → Option Int
  | [] => none
  | c :: r =>
    if c = '-' then (parseIntDigits r).map (fun v => -(v : Int))
    else if c = '+' then (parseIntDigits r).map (fun v => (v : Int))
    else (parseIntDigits (c :: r)).map (fun v => (v : Int))

/-- Model of the JS builtin `parseInt(str, 10)`: skip leading whitespace, an
optional sign, then the maximal run of leading decimal digits. -/
def parseIntJS (cs : List Char) : Option Int :=
  parseIntSigned (cs.dropWhile isJsSpace)

/-- Split at the first `]` (JS `path.indexOf(']', i)` searching from the
character after the `[`): the characters strictly before it and those after. -/
def splitClose : List Char → Option (List Char × List Char)
  | [] => none
  | c :: rest =>
    if c = ']' then some ([], rest)
    else
      match splitClose rest with
      | some (ins, after) => some (c :: ins, after)
      | none => none

theorem splitClose_length {cs ins after : List Char}
    (h : splitClose cs = some (ins, after)) : after.length < cs.length := by
  induction cs generalizing ins after with
  | nil => simp [splitClose] at h
  | cons c rest ih =>
    simp only [splitClose] at h
    split at h
    · obtain ⟨rfl, rfl⟩ := by simpa using h
      simp
    · split at h
      · rename_i ins' after' heq
        obtain ⟨rfl, rfl⟩ := by simpa using h
        have := ih heq
        simp only [List.length_cons]
        omega
      · exact absurd h (by simp)

/-- The segment contributed by a bracket group: the parsed index if
`parseInt` succeeded, nothing otherwise. -/
def brSeg : Option Int → List Seg
  | some n => [Seg.idx n]
  | none => []

/-- The scanning loop of `parsePathString` (JsonEditor.tsx, lines 683-719),
on the remaining characters with the reversed current-segment accumulator,
structural on a fuel counter (one unit per consumed character).
A `.` flushes the accumulator (if nonempty); a `[` flushes it, then looks for
the matching `]`: if found, the bracket content goes through `parseInt` and is
kept only when that yields a number; if there is no `]` in the rest of the
string, scanning simply continues after the `[` (the JS loop leaves `i` on the
`[` and then increments it). -/
def parseSegsAux (fuel : Nat) (cs : List Char) (cur : List Char) : List Seg :=
  match cs, fuel with
  | [], _ => if cur.isEmpty then [] else [.key (String.mk cur.reverse)]
  | _ :: _, 0 => []
  | c :: rest, fuel + 1 =>
    if c = '.' then
      (if cur.isEmpty then [] else [.key (String.mk cur.reverse)]) ++
        parseSegsAux fuel rest []
    else if c = '[' then
      (if cur.isEmpty then [] else [.key (String.mk cur.reverse)]) ++
        match splitClose rest with
        | some (ins, after) => brSeg (parseIntJS ins) ++ parseSegsAux fuel after []
        | none => parseSegsAux fuel rest []
    else
      parseSegsAux fuel rest (c :: cur)

theorem parseSegsAux_fuel :
    ∀ (fuel : Nat) (cs cur : List Char), cs.length ≤ fuel →
      parseSegsAux fuel cs cur = parseSegsAux cs.length cs cur := by
  intro fuel
  induction fuel using Nat.strong_induction_on with
  | _ fuel ih =>
    intro cs cur h
    cases cs with
    | nil => cases fuel <;> rfl
    | cons c rest =>
      cases fuel with
      | zero => simp at h
      | succ fuel =>
        simp only [List.length_cons] at h ⊢
        have hr : rest.length ≤ fuel := by omega
        simp only [parseSegsAux]
        by_cases hc : c = '.'
        · simp only [if_pos hc]
          rw [ih fuel (by omega) rest [] hr,
            ih rest.length (by omega) rest [] (le_refl _)]
        · by_cases hb : c = '['
          · simp only [if_neg hc, if_pos hb]
            congr 1
            split
            · rename_i ins after hsp
              have hlt := splitClose_length hsp
              congr 1
              rw [ih fuel (by omega) after [] (by omega),
                ih rest.length (by omega) after [] (by omega)]
            · rw [ih fuel (by omega) rest [] hr,
                ih rest.length (by omega) rest [] (le_refl _)]
          · simp only [if_neg hc, if_neg hb]
            rw [ih fuel (by omega) rest (c :: cur) hr,
              ih rest.length (by omega) rest (c :: cur) (le_refl _)]

/-- Model of `parsePathString` (JsonEditor.tsx, lines 683-719). -/
def parsePathSegs (path : List Char) : List Seg :=
  parseSegsAux path.length path []

/-- Base-10 digits of a natural number, most significant first
(fuel-structural; `fuel ≥ n` always suffices since `n / 10 < n`). -/
def natDigitsAux (fuel : Nat) (n : Nat) : List Char :=
  match fuel with
  | 0 => [Char.ofNat (48 + n % 10)]
  | fuel + 1 =>
    if n < 10 then [Char.ofNat (48 + n)]
    else natDigitsAux fuel (n / 10) ++ [Char.ofNat (48 + n % 10)]

theorem natDigitsAux_fuel :
    ∀ (fuel n : Nat), n ≤ fuel → natDigitsAux fuel n = natDigitsAux n n := by
  intro fuel
  induction fuel using Nat.strong_induction_on with
  | _ fuel ih =>
    intro n h
    match fuel with
    | 0 =>
      have : n = 0 := by omega
      subst this
      rfl
    | fuel + 1 =>
      by_cases h10 : n < 10
      · simp only [natDigitsAux, if_pos h10]
        interval_cases n <;> rfl
      · have hd : n / 10 < n := Nat.div_lt_self (by omega) (by norm_num)
        obtain ⟨m, rfl⟩ : ∃ m, n = m + 1 := ⟨n - 1, by omega⟩
        simp only [natDigitsAux, if_neg h10]
        rw [ih fuel (by omega) ((m + 1) / 10) (by omega),
          ih m (by omega) ((m + 1) / 10) (by omega)]

/-- Base-10 character representation of a natural number. -/
def natChars (n : Nat) : List Char := natDigitsAux n n

/-- Model of the JS number-to-string conversion used in template literals
(`[${segment}]`) and in `JSON.stringify` for integer values. -/
def intChars (n : Int) : List Char :=
  if n < 0 then '-' :: natChars n.natAbs else natChars n.natAbs

example : natChars 1230 = ['1', '2', '3', '0'] := by decide
example : intChars (-45) = ['-', '4', '5'] := by decide

/-- JS `String.prototype.split('.')` on a character list. -/
def splitDot : List Char → List (List Char)
  | [] => [[]]
  | c :: rest =>
    if c = '.' then [] :: splitDot rest
    else
      match splitDot rest with
      | g :: gs => (c :: g) :: gs
      | [] => [[c]]

/-- JS `Array.prototype.join('.')` on character-list pieces. -/
def joinDot : List (List Char) → List Char
  | [] => []
  | [g] => g
  | g :: gs => g ++ '.' :: joinDot gs

/-- JS `parts.pop() || ''`: the last piece (empty for an empty array). -/
def lastPiece : List (List Char) → List Char
  | [] => []
  | [g] => g
  | _ :: gs => lastPiece gs

/-- One step of the path-string construction of `buildAccuratePath`
(JsonEditor.tsx, lines 829-846): append a segment to the accumulated path
string, given the previous segment (JS peeks at `pathSegments[i-1]`).  For an
index after a string segment the source splits the accumulator on `.`,
re-joins all but the last piece (`prevPath`), and re-attaches the last piece
with the bracket suffix. -/
def fmtStep (acc : List Char) (prev : Option Seg) : Seg → List Char
  | .idx n =>
    if (match prev with | some (.key _) => true | _ => false) then
      if joinDot (splitDot acc).dropLast ≠ [] then
        joinDot (splitDot acc).dropLast ++
          '.' :: lastPiece (splitDot acc) ++ '[' :: intChars n ++ [']']
      else lastPiece (splitDot acc) ++ '[' :: intChars n ++ [']']
    else acc ++ '[' :: intChars n ++ [']']
  | .key s => if acc = [] then s.data else acc ++ '.' :: s.data

/-- The path-string construction loop of `buildAccuratePath`
(JsonEditor.tsx, lines 829-846). -/
def fmtSegsAux (acc : List Char) (prev : Option Seg) : List Seg → List Char
  | [] => acc
  | s :: rest => fmtSegsAux (fmtStep acc prev s) (some s) rest

/-- Path-string form of a segment list, as `buildAccuratePath` constructs it. -/
def fmtSegs (segs : List Seg) : List Char := fmtSegsAux [] none segs

example : parsePathSegs "a[1][0].data".data =
    [.key "a", .idx 1, .idx 0, .key "data"] := by decide

example : parsePathSegs "a[x]".data = [.key "a"] := by decide

example : fmtSegs [.key "a", .idx 1, .idx 0, .key "data"] =
    "a[1][0].data".data := by decide

example : fmtSegs [.key "a.b"] = "a.b".data := by decide

example : parsePathSegs "a[1".data = [.key "a", .key "1"] := by decide

/-! ### Equational theory of the path-string scanner -/

/-- The segment flushed from a (reversed) accumulator. -/
def flushCur (cur : List Char) : List Seg :=
  if cur.isEmpty then [] else [.key (String.mk cur.reverse)]

theorem parseSegsAux_nil (fuel : Nat) (cur : List Char) :
    parseSegsAux fuel [] cur = flushCur cur := by
  cases fuel <;> rfl

/-- Canonical-fuel unfolding of the scanner at a dot. -/
theorem parseSegsAux_cons_dot (rest cur : List Char) :
    parseSegsAux (rest.length + 1) ('.' :: rest) cur =
      flushCur cur ++ parseSegsAux rest.length rest [] := by
  simp only [parseSegsAux, flushCur, if_true]

/-- Canonical-fuel unfolding of the scanner at an ordinary character. -/
theorem parseSegsAux_cons_other (c : Char) (rest cur : List Char)
    (h1 : ¬c = '.') (h2 : ¬c = '[') :
    parseSegsAux (rest.length + 1) (c :: rest) cur =
      parseSegsAux rest.length rest (c :: cur) := by
  simp only [parseSegsAux]
  rw [if_neg h1, if_neg h2]

/-- Canonical-fuel unfolding of the scanner at a `[` with a matching `]`. -/
theorem parseSegsAux_cons_bracket_some (rest cur ins after : List Char)
    (hsp : splitClose rest = some (ins, after)) :
    parseSegsAux (rest.length + 1) ('[' :: rest) cur =
      flushCur cur ++
        (brSeg (parseIntJS ins) ++ parseSegsAux after.length after []) := by
  simp only [parseSegsAux, flushCur]
  rw [if_neg (show ¬('[' = '.') by decide), hsp,
    ← parseSegsAux_fuel rest.length after []
      (by have := splitClose_length hsp; omega)]
  exact rfl

/-- Canonical-fuel unfolding of the scanner at a `[` with no matching `]`. -/
theorem parseSegsAux_cons_bracket_none (rest cur : List Char)
    (hsp : splitClose rest = none) :
    parseSegsAux (rest.length + 1) ('[' :: rest) cur =
      flushCur cur ++ parseSegsAux rest.length rest [] := by
  simp only [parseSegsAux, flushCur]
  rw [if_neg (show ¬('[' = '.') by decide), hsp]
  exact rfl

/-- Scanning ordinary characters (not `.` and not `[`) accumulates them into
the current segment. -/
theorem parseSegsAux_accum (ds : List Char)
    (h : ∀ c ∈ ds, ¬c = '.' ∧ ¬c = '[') (tail cur : List Char) :
    parseSegsAux (ds ++ tail).length (ds ++ tail) cur =
      parseSegsAux tail.length tail (ds.reverse ++ cur) := by
  induction ds generalizing cur with
  | nil => simp
  | cons d ds ih =>
    have hd := h d (by simp)
    have hds : ∀ c ∈ ds, ¬c = '.' ∧ ¬c = '[' := fun c hc => h c (by simp [hc])
    rw [List.cons_append]
    simp only [List.length_cons]
    rw [parseSegsAux_cons_other d (ds ++ tail) cur hd.1 hd.2, ih hds]
    simp

/-- Splitting a bracket body: the first `]` after digit-only content. -/
theorem splitClose_append (ins tail : List Char) (h : ']' ∉ ins) :
    splitClose (ins ++ ']' :: tail) = some (ins, tail) := by
  induction ins with
  | nil => simp [splitClose]
  | cons c ins ih =>
    have hc : ¬c = ']' := by
      simp only [List.mem_cons, not_or] at h
      intro hh
      exact h.1 hh.symm
    have hins : ']' ∉ ins := by
      simp only [List.mem_cons, not_or] at h
      exact h.2
    rw [List.cons_append]
    simp only [splitClose, if_neg hc]
    rw [ih hins]

theorem digitChar_isDigit (d : Nat) (h : d < 10) :
    isDigitC (Char.ofNat (48 + d)) = true := by
  interval_cases d <;> decide

theorem digitChar_toNat (d : Nat) (h : d < 10) :
    (Char.ofNat (48 + d)).toNat = 48 + d := by
  interval_cases d <;> decide

theorem natDigitsAux_digits (fuel n : Nat) :
    ∀ c ∈ natDigitsAux fuel n, isDigitC c = true := by
  induction fuel generalizing n with
  | zero =>
    intro c hc
    simp only [natDigitsAux, List.mem_singleton] at hc
    subst hc
    exact digitChar_isDigit _ (Nat.mod_lt _ (by norm_num))
  | succ fuel ih =>
    intro c hc
    simp only [natDigitsAux] at hc
    split at hc
    · rename_i h10
      simp only [List.mem_singleton] at hc
      subst hc
      exact digitChar_isDigit _ h10
    · rw [List.mem_append] at hc
      rcases hc with hc | hc
      · exact ih _ c hc
      · simp only [List.mem_singleton] at hc
        subst hc
        exact digitChar_isDigit _ (Nat.mod_lt _ (by norm_num))

theorem natChars_digits (n : Nat) : ∀ c ∈ natChars n, isDigitC c = true :=
  natDigitsAux_digits n n

theorem digit_not_ws {c : Char} (h : isDigitC c = true) : isJsSpace c = false := by
  cases hws : isJsSpace c
  · rfl
  · exfalso
    simp only [isJsSpace, Bool.or_eq_true, decide_eq_true_eq] at hws
    rcases hws with ((((h1 | h1) | h1) | h1) | h1) | h1 <;>
      · subst h1
        exact absurd h (by decide)

theorem digit_ne_rbracket {c : Char} (h : isDigitC c = true) : ¬c = ']' := by
  intro hh
  subst hh
  exact absurd h (by decide)

theorem digit_ne_minus {c : Char} (h : isDigitC c = true) : ¬c = '-' := by
  intro hh
  subst hh
  exact absurd h (by decide)

theorem digit_ne_plus {c : Char} (h : isDigitC c = true) : ¬c = '+' := by
  intro hh
  subst hh
  exact absurd h (by decide)

theorem natDigitsAux_value (fuel n : Nat) (h : n ≤ fuel) :
    (natDigitsAux fuel n).foldl (fun a c => a * 10 + (c.toNat - 48)) 0 = n := by
  induction fuel generalizing n with
  | zero =>
    have : n = 0 := by omega
    subst this
    rfl
  | succ fuel ih =>
    simp only [natDigitsAux]
    by_cases h10 : n < 10
    · rw [if_pos h10]
      simp only [List.foldl_cons, List.foldl_nil]
      rw [digitChar_toNat _ h10]
      omega
    · rw [if_neg h10]
      have hd : n / 10 < n := Nat.div_lt_self (by omega) (by norm_num)
      rw [List.foldl_append, ih (n / 10) (by omega)]
      simp only [List.foldl_cons, List.foldl_nil]
      rw [digitChar_toNat _ (Nat.mod_lt _ (by norm_num))]
      omega

theorem natChars_ne_nil (n : Nat) : natChars n ≠ [] := by
  unfold natChars
  cases n with
  | zero => simp [natDigitsAux]
  | succ m =>
    simp only [natDigitsAux]
    split <;> simp

theorem takeWhile_all {p : Char → Bool} :
    ∀ l : List Char, (∀ c ∈ l, p c = true) → l.takeWhile p = l := by
  intro l h
  induction l with
  | nil => rfl
  | cons c rest ih =>
    rw [List.takeWhile_cons, if_pos (h c (by simp))]
    rw [ih (fun x hx => h x (by simp [hx]))]

/-- `parseInt` inverts the decimal rendering of a natural number. -/
theorem parseIntJS_natChars (n : Nat) :
    parseIntJS (natChars n) = some (n : Int) := by
  obtain ⟨c, rest, hcs⟩ : ∃ c rest, natChars n = c :: rest := by
    cases hcs : natChars n with
    | nil => exact absurd hcs (natChars_ne_nil n)
    | cons c rest => exact ⟨c, rest, rfl⟩
  have hall : ∀ x ∈ c :: rest, isDigitC x = true := hcs ▸ natChars_digits n
  have hc := hall c (by simp)
  unfold parseIntJS
  rw [hcs, List.dropWhile_cons, digit_not_ws hc]
  simp only [Bool.false_eq_true, if_false, parseIntSigned,
    if_neg (digit_ne_minus hc), if_neg (digit_ne_plus hc), parseIntDigits]
  rw [takeWhile_all _ hall]
  rw [if_neg (by simp)]
  have hv : (c :: rest).foldl (fun a c => a * 10 + (c.toNat - 48)) 0 = n := by
    rw [← hcs]
    exact natDigitsAux_value n n (le_refl n)
  simp [hv]

/-! ### Hygienic segments and the format/parse round trip -/

/-- A segment that survives the path-string round trip: a nonempty key free of
the two metacharacters `.` and `[`, or a nonnegative index. -/
def segOk : Seg → Bool
  | .key s => decide (s.data ≠ [] ∧ '.' ∉ s.data ∧ '[' ∉ s.data)
  | .idx n => decide (0 ≤ n)

/-- Canonical rendering of a segment-list tail; the flag records whether the
accumulated string is nonempty (so a key needs a leading dot). -/
def renderTail : Bool → List Seg → List Char
  | _, [] => []
  | _, .idx n :: rest => '[' :: (intChars n ++ ']' :: renderTail true rest)
  | ne, .key s :: rest => (if ne then '.' :: s.data else s.data) ++ renderTail true rest

theorem splitDot_ne_nil (cs : List Char) : splitDot cs ≠ [] := by
  cases cs with
  | nil => simp [splitDot]
  | cons c rest =>
    simp only [splitDot]
    split
    · simp
    · split <;> simp

theorem joinDot_cons_cons (g : List Char) (p : List Char) (gs : List (List Char)) :
    joinDot (g :: p :: gs) = g ++ '.' :: joinDot (p :: gs) := rfl

theorem joinDot_splitDot (cs : List Char) : joinDot (splitDot cs) = cs := by
  induction cs with
  | nil => rfl
  | cons c rest ih =>
    obtain ⟨p, gs, hp⟩ : ∃ p gs, splitDot rest = p :: gs := by
      cases hsp : splitDot rest with
      | nil => exact absurd hsp (splitDot_ne_nil rest)
      | cons p gs => exact ⟨p, gs, rfl⟩
    simp only [splitDot]
    by_cases hc : c = '.'
    · rw [if_pos hc, hp, joinDot_cons_cons, ← hp, ih, hc]
      rfl
    · rw [if_neg hc, hp]
      show joinDot ((c :: p) :: gs) = c :: rest
      cases gs with
      | nil =>
        rw [hp] at ih
        show c :: p = c :: rest
        exact congrArg (List.cons c) ih
      | cons q gs' =>
        rw [joinDot_cons_cons, List.cons_append, ← joinDot_cons_cons, ← hp, ih]

theorem joinDot_dropLast_append :
    ∀ (ps : List (List Char)) (last : List Char), ps ≠ [] →
      joinDot (ps ++ [last]) = joinDot ps ++ '.' :: last
  | [], _, h => absurd rfl h
  | [p], _, _ => rfl
  | p :: q :: ps', last, _ => by
    have hrec : joinDot (q :: (ps' ++ [last])) = joinDot (q :: ps') ++ '.' :: last :=
      joinDot_dropLast_append (q :: ps') last (by simp)
    show joinDot (p :: q :: (ps' ++ [last])) = joinDot (p :: q :: ps') ++ '.' :: last
    rw [joinDot_cons_cons p q (ps' ++ [last]), hrec, joinDot_cons_cons p q ps']
    simp

theorem lastPiece_concat : ∀ (ps : List (List Char)) (last : List Char),
    lastPiece (ps ++ [last]) = last
  | [], _ => rfl
  | [_], _ => rfl
  | _ :: q :: ps', last => by
    show lastPiece ((q :: ps') ++ [last]) = last
    exact lastPiece_concat (q :: ps') last

theorem isEmpty_false_of_ne {α : Type} {l : List α} (h : l ≠ []) :
    l.isEmpty = false := by
  cases l with
  | nil => exact absurd rfl h
  | cons a as => rfl

/-- With an accumulator that does not start with a dot, the split/rejoin dance
in the index branch of the formatter is just an append. -/
theorem fmtStep_idx_append (acc : List Char) (prev : Option Seg) (n : Int)
    (h : acc.head? ≠ some '.') :
    fmtStep acc prev (.idx n) = acc ++ '[' :: intChars n ++ [']'] := by
  simp only [fmtStep]
  split
  · obtain ⟨ps, last, hps⟩ : ∃ ps last, splitDot acc = ps ++ [last] := by
      cases hrev : (splitDot acc).reverse with
      | nil =>
        exfalso
        exact splitDot_ne_nil acc (by simpa using congrArg List.reverse hrev)
      | cons p gs => exact ⟨gs.reverse, p, by simpa using congrArg List.reverse hrev⟩
    cases hps' : ps with
    | nil =>
      rw [hps'] at hps
      simp only [List.nil_append] at hps
      have haccl : acc = last := by
        have hj := joinDot_splitDot acc
        rw [hps] at hj
        exact hj.symm
      rw [hps]
      rw [show ([last] : List (List Char)).dropLast = [] from rfl]
      rw [if_neg (by simp [joinDot])]
      show last ++ '[' :: intChars n ++ [']'] = acc ++ '[' :: intChars n ++ [']']
      rw [haccl]
    | cons p ps' =>
      rw [hps'] at hps
      have hdl : (splitDot acc).dropLast = p :: ps' := by
        rw [hps, List.dropLast_concat]
      have hlast : lastPiece (splitDot acc) = last := by
        rw [hps]
        exact lastPiece_concat _ _
      have hp_ne : p ≠ [] := by
        intro hpe
        subst hpe
        cases hacc2 : acc with
        | nil =>
          rw [hacc2] at hps
          simp [splitDot] at hps
        | cons a as =>
          rw [hacc2] at hps h
          simp only [List.head?_cons, ne_eq, Option.some.injEq] at h
          simp only [splitDot] at hps
          by_cases ha : a = '.'
          · exact h ha
          · rw [if_neg ha] at hps
            obtain ⟨g, gs, hg⟩ : ∃ g gs, splitDot as = g :: gs := by
              cases hsp : splitDot as with
              | nil => exact absurd hsp (splitDot_ne_nil as)
              | cons g gs => exact ⟨g, gs, rfl⟩
            rw [hg] at hps
            simp at hps
      have hjoin_ne : joinDot (p :: ps') ≠ [] := by
        cases ps' with
        | nil => exact hp_ne
        | cons q ps'' =>
          rw [joinDot_cons_cons]
          simp [hp_ne]
      rw [hdl, hlast, if_pos hjoin_ne]
      have hjoin : joinDot (p :: ps') ++ '.' :: last = acc := by
        rw [← joinDot_dropLast_append (p :: ps') last (by simp), ← hps,
          joinDot_splitDot]
      rw [← hjoin]
  · rfl

/-- The formatter is plain concatenation of rendered segments, provided the
keys are hygienic. -/
theorem fmtSegsAux_renderTail (segs : List Seg) (h : ∀ s ∈ segs, segOk s = true) :
    ∀ (acc : List Char) (prev : Option Seg), acc.head? ≠ some '.' →
      fmtSegsAux acc prev segs = acc ++ renderTail (!acc.isEmpty) segs := by
  induction segs with
  | nil => intro acc prev _; simp [fmtSegsAux, renderTail]
  | cons s rest ih =>
    intro acc prev hacc
    have hs := h s (by simp)
    have hrest : ∀ x ∈ rest, segOk x = true := fun x hx => h x (by simp [hx])
    cases s with
    | key k =>
      have hk : k.data ≠ [] ∧ '.' ∉ k.data ∧ '[' ∉ k.data := by
        simpa [segOk] using hs
      simp only [fmtSegsAux, fmtStep]
      by_cases haccnil : acc = []
      · subst haccnil
        rw [if_pos rfl]
        have hhead : k.data.head? ≠ some '.' := by
          cases hd : k.data with
          | nil => simp
          | cons c cs =>
            simp only [List.head?_cons, ne_eq, Option.some.injEq]
            intro hc
            exact hk.2.1 (by rw [hd, hc]; simp)
        rw [ih hrest k.data (some (.key k)) hhead, isEmpty_false_of_ne hk.1]
        simp [renderTail]
      · rw [if_neg haccnil]
        have hhead : (acc ++ '.' :: k.data).head? ≠ some '.' := by
          cases hacc2 : acc with
          | nil => exact absurd hacc2 haccnil
          | cons a as =>
            rw [hacc2] at hacc
            simpa using hacc
        rw [ih hrest _ (some (.key k)) hhead,
          isEmpty_false_of_ne (show acc ++ '.' :: k.data ≠ [] by simp),
          isEmpty_false_of_ne haccnil]
        simp [renderTail]
    | idx n =>
      simp only [fmtSegsAux]
      rw [fmtStep_idx_append acc prev n hacc]
      have hhead : (acc ++ '[' :: intChars n ++ [']']).head? ≠ some '.' := by
        cases hacc2 : acc with
        | nil => simp
        | cons a as =>
          rw [hacc2] at hacc
          simpa using hacc
      rw [ih hrest _ (some (.idx n)) hhead,
        isEmpty_false_of_ne (show acc ++ '[' :: intChars n ++ [']'] ≠ [] by simp)]
      simp [renderTail]

theorem fmtSegs_renderTail (segs : List Seg) (h : ∀ s ∈ segs, segOk s = true) :
    fmtSegs segs = renderTail false segs := by
  unfold fmtSegs
  rw [fmtSegsAux_renderTail segs h [] none (by simp)]
  rfl

/-- Parsing the canonical rendering of hygienic segments (in tail position:
every key preceded by a dot) recovers exactly those segments, after flushing
whatever partial key is pending. -/
theorem parse_renderTail (segs : List Seg) (h : ∀ s ∈ segs, segOk s = true) :
    ∀ cur : List Char,
      parseSegsAux (renderTail true segs).length (renderTail true segs) cur =
        flushCur cur ++ segs := by
  induction segs with
  | nil =>
    intro cur
    rw [show renderTail true [] = [] from rfl, parseSegsAux_nil]
    simp
  | cons s rest ih =>
    intro cur
    have hs := h s (by simp)
    have hrest : ∀ x ∈ rest, segOk x = true := fun x hx => h x (by simp [hx])
    cases s with
    | key k =>
      have hk : k.data ≠ [] ∧ '.' ∉ k.data ∧ '[' ∉ k.data := by
        simpa [segOk] using hs
      have hchars : ∀ c ∈ k.data, ¬c = '.' ∧ ¬c = '[' := fun c hc =>
        ⟨fun e => hk.2.1 (e ▸ hc), fun e => hk.2.2 (e ▸ hc)⟩
      show parseSegsAux ('.' :: (k.data ++ renderTail true rest)).length
          ('.' :: (k.data ++ renderTail true rest)) cur = flushCur cur ++ (.key k :: rest)
      rw [List.length_cons, parseSegsAux_cons_dot,
        parseSegsAux_accum k.data hchars (renderTail true rest) [],
        ih hrest (k.data.reverse ++ [])]
      have hfl : flushCur (k.data.reverse ++ []) = [Seg.key k] := by
        unfold flushCur
        rw [if_neg]
        · rw [List.append_nil, List.reverse_reverse]
        · rw [List.append_nil,
            isEmpty_false_of_ne (by simpa using hk.1 : k.data.reverse ≠ [])]
          simp
      rw [hfl]
      simp
    | idx n =>
      have hn : 0 ≤ n := by simpa [segOk] using hs
      have hic : intChars n = natChars n.natAbs := by
        unfold intChars
        rw [if_neg (by omega)]
      have hnb : ']' ∉ intChars n := by
        rw [hic]
        intro hmem
        exact digit_ne_rbracket (natChars_digits _ _ hmem) rfl
      show parseSegsAux ('[' :: (intChars n ++ ']' :: renderTail true rest)).length
          ('[' :: (intChars n ++ ']' :: renderTail true rest)) cur =
          flushCur cur ++ (.idx n :: rest)
      rw [List.length_cons,
        parseSegsAux_cons_bracket_some _ cur (intChars n) (renderTail true rest)
          (splitClose_append (intChars n) (renderTail true rest) hnb)]
      rw [show parseIntJS (intChars n) = some n by
        rw [hic, parseIntJS_natChars]
        congr 1
        omega]
      rw [ih hrest []]
      simp [flushCur, brSeg]

/-- Plain membership fact: the scanner never emits an empty key segment. -/
theorem flushCur_no_empty (cur : List Char) : Seg.key "" ∉ flushCur cur := by
  unfold flushCur
  split
  · simp
  · rename_i hne
    simp only [List.mem_singleton]
    intro hq
    injection hq with hq'
    have h2 : ([] : List Char) = cur.reverse := congrArg String.data hq'
    have h3 : cur = [] := by simpa using h2.symm
    subst h3
    exact hne rfl

theorem parseSegsAux_no_empty_key :
    ∀ (fuel : Nat) (cs cur : List Char), Seg.key "" ∉ parseSegsAux fuel cs cur := by
  intro fuel
  induction fuel using Nat.strong_induction_on with
  | _ fuel ih =>
    intro cs cur
    cases cs with
    | nil =>
      rw [parseSegsAux_nil]
      exact flushCur_no_empty cur
    | cons c rest =>
      cases fuel with
      | zero => simp [parseSegsAux]
      | succ fuel =>
        simp only [parseSegsAux]
        by_cases hc : c = '.'
        · rw [if_pos hc]
          intro hmem
          rcases List.mem_append.mp hmem with hm | hm
          · exact flushCur_no_empty cur (by simpa [flushCur] using hm)
          · exact ih fuel (by omega) rest [] hm
        · by_cases hb : c = '['
          · rw [if_neg hc, if_pos hb]
            intro hmem
            rcases List.mem_append.mp hmem with hm | hm
            · exact flushCur_no_empty cur (by simpa [flushCur] using hm)
            · revert hm
              split
              · rename_i ins after hsp
                intro hm
                rcases List.mem_append.mp hm with hm2 | hm2
                · revert hm2
                  unfold brSeg
                  split <;> simp
                · exact ih fuel (by omega) after [] hm2
              · intro hm
                exact ih fuel (by omega) rest [] hm
          · rw [if_neg hc, if_neg hb]
            exact ih fuel (by omega) rest (c :: cur)

/-! ### Claims C2 and C10 -/

/-- Claim C2, counterexample: the round trip `parsePath (formatPath p) = p`
fails for the producible path whose single key is `a.b` (derived from the
parse tree of the document with that object key): formatting yields the text
`a.b`, which re-parses as two keys. -/
theorem claim_C2_counterexample :
    ¬parsePathSegs (fmtSegs [Seg.key "a.b"]) = [Seg.key "a.b"] ∧
      parsePathSegs (fmtSegs [Seg.key "a.b"]) = [Seg.key "a", Seg.key "b"] := by
  constructor
  · decide
  · decide

/-- The format/parse round trip for hygienic segment lists. -/
theorem fmt_parse_roundtrip (segs : List Seg) (h : ∀ s ∈ segs, segOk s = true) :
    parsePathSegs (fmtSegs segs) = segs := by
  rw [fmtSegs_renderTail segs h]
  cases segs with
  | nil => rfl
  | cons s rest =>
    have hrest : ∀ x ∈ rest, segOk x = true := fun x hx => h x (by simp [hx])
    cases s with
    | idx n =>
      show parsePathSegs (renderTail true (.idx n :: rest)) = .idx n :: rest
      unfold parsePathSegs
      rw [parse_renderTail _ h []]
      rfl
    | key k =>
      have hk : k.data ≠ [] ∧ '.' ∉ k.data ∧ '[' ∉ k.data := by
        simpa [segOk] using h (.key k) (by simp)
      have hchars : ∀ c ∈ k.data, ¬c = '.' ∧ ¬c = '[' := fun c hc =>
        ⟨fun e => hk.2.1 (e ▸ hc), fun e => hk.2.2 (e ▸ hc)⟩
      show parseSegsAux (k.data ++ renderTail true rest).length
          (k.data ++ renderTail true rest) [] = .key k :: rest
      rw [parseSegsAux_accum k.data hchars (renderTail true rest) [],
        parse_renderTail rest hrest (k.data.reverse ++ [])]
      have hfl : flushCur (k.data.reverse ++ []) = [Seg.key k] := by
        unfold flushCur
        rw [if_neg]
        · rw [List.append_nil, List.reverse_reverse]
        · rw [List.append_nil,
            isEmpty_false_of_ne (by simpa using hk.1 : k.data.reverse ≠ [])]
          simp
      rw [hfl]
      rfl

/-- Claim C2, amended: `parsePath (formatPath p) = p` holds for every segment
list whose keys are nonempty and free of the metacharacters `.` and `[`, and
whose indices are nonnegative (every index the resolver can produce is a child
ordinal, hence nonnegative). -/
theorem claim_C2_theorem (segs : List Seg) (h : ∀ s ∈ segs, segOk s = true) :
    parsePathSegs (fmtSegs segs) = segs :=
  fmt_parse_roundtrip segs h

/-- Claim C2, witness for the amended theorem at the path `a[1][0].data`. -/
theorem claim_C2_witness :
    (∀ s ∈ [Seg.key "a", Seg.idx 1, Seg.idx 0, Seg.key "data"], segOk s = true) ∧
      parsePathSegs (fmtSegs [Seg.key "a", Seg.idx 1, Seg.idx 0, Seg.key "data"]) =
        [Seg.key "a", Seg.idx 1, Seg.idx 0, Seg.key "data"] :=
  ⟨by decide, claim_C2_theorem _ (by decide)⟩

/-- Claim C10, counterexample: an unterminated bracket group is not discarded;
on `a[1` the scanner keeps scanning after the `[`, producing the extra key
segment `1` instead of dropping the rest conservatively. -/
theorem claim_C10_counterexample :
    parsePathSegs "a[1".data = [Seg.key "a", Seg.key "1"] ∧
      ¬parsePathSegs "a[1".data = [Seg.key "a"] := by
  constructor
  · decide
  · decide

/-- Claim C10, amended: path-string parsing is total and lenient — every input
yields a segment list; empty segments are omitted (no empty `Key` is ever
produced); a bracket group whose content is not an integer is silently dropped
(`a[x]` parses to the single key `a`); and an unterminated bracket group does
not discard the rest: the `[` is skipped and scanning continues over the
remaining characters as ordinary segment text. -/
theorem claim_C10_theorem :
    (∀ path : List Char, Seg.key "" ∉ parsePathSegs path) ∧
      parsePathSegs "a[x]".data = [Seg.key "a"] ∧
      (∀ rest : List Char, splitClose rest = none →
        parsePathSegs ('[' :: rest) = parsePathSegs rest) := by
  refine ⟨fun path => parseSegsAux_no_empty_key path.length path [], by decide,
    fun rest hsp => ?_⟩
  show parseSegsAux (rest.length + 1) ('[' :: rest) [] = parsePathSegs rest
  rw [parseSegsAux_cons_bracket_none rest [] hsp]
  rfl

/-- Claim C10, witness: the amended theorem applied at the inputs `a[1` (no
empty key in the output) and `[1` (unterminated bracket: scanning continues). -/
theorem claim_C10_witness :
    Seg.key "" ∉ parsePathSegs "a[1".data ∧
      parsePathSegs ('[' :: "1".data) = parsePathSegs "1".data :=
  ⟨claim_C10_theorem.1 "a[1".data, claim_C10_theorem.2.2 "1".data (by decide)⟩

/-! ## The JSON data model: decoded values and span-carrying parse trees -/

/-- The decoded semantic value produced by `JSON.parse` (objects keep key
insertion order; numbers are modelled as exact integers). -/
inductive JVal where
  | jnull
  | jbool (b : Bool)
  | jnum (v : Int)
  | jstr (s : String)
  | jarr (elems : List JVal)
  | jobj (props : List (String × JVal))

/-- A `jsonc-parser` tree node with its source span `[off, off + len)`.
A property node spans from its key to the following separator (`,` or `}`),
and its children are the key node and the value node, as in `jsonc-parser`. -/
inductive Node where
  | nstr (off len : Nat) (s : String)
  | nnum (off len : Nat) (v : Int)
  | nbool (off len : Nat) (b : Bool)
  | nnull (off len : Nat)
  | narr (off len : Nat) (elems : List Node)
  | nobj (off len : Nat) (props : List Node)
  | nprop (off len : Nat) (kn vn : Node)

/-- Start offset of a node's span. -/
def Node.off : Node → Nat
  | .nstr o _ _ => o
  | .nnum o _ _ => o
  | .nbool o _ _ => o
  | .nnull o _ => o
  | .narr o _ _ => o
  | .nobj o _ _ => o
  | .nprop o _ _ _ => o

/-- Length of a node's span. -/
def Node.len : Node → Nat
  | .nstr _ l _ => l
  | .nnum _ l _ => l
  | .nbool _ l _ => l
  | .nnull _ l => l
  | .narr _ l _ => l
  | .nobj _ l _ => l
  | .nprop _ l _ _ => l

/-- The ordered children, as `jsonc-parser` exposes them: array elements,
object properties, and for a property its key node then its value node. -/
def Node.children : Node → List Node
  | .narr _ _ es => es
  | .nobj _ _ ps => ps
  | .nprop _ _ kn vn => [kn, vn]
  | _ => []

mutual

/-- Boolean structural equality on decoded values. -/
def jvalBEq : JVal → JVal → Bool
  | .jnull, .jnull => true
  | .jbool a, .jbool b => a == b
  | .jnum a, .jnum b => a == b
  | .jstr a, .jstr b => a == b
  | .jarr a, .jarr b => jvalListBEq a b
  | .jobj a, .jobj b => jvalPropsBEq a b
  | _, _ => false

def jvalListBEq : List JVal → List JVal → Bool
  | [], [] => true
  | a :: as, b :: bs => jvalBEq a b && jvalListBEq as bs
  | _, _ => false

def jvalPropsBEq : List (String × JVal) → List (String × JVal) → Bool
  | [], [] => true
  | (k, v) :: as, (k2, v2) :: bs => k == k2 && jvalBEq v v2 && jvalPropsBEq as bs
  | _, _ => false

end

mutual

theorem jvalBEq_sound : ∀ a b : JVal, jvalBEq a b = true → a = b
  | .jnull, .jnull, _ => rfl
  | .jbool a, .jbool b, h => by
    simp only [jvalBEq, beq_iff_eq] at h
    rw [h]
  | .jnum a, .jnum b, h => by
    simp only [jvalBEq, beq_iff_eq] at h
    rw [h]
  | .jstr a, .jstr b, h => by
    simp only [jvalBEq, beq_iff_eq] at h
    rw [h]
  | .jarr a, .jarr b, h => by
    simp only [jvalBEq] at h
    rw [jvalListBEq_sound a b h]
  | .jobj a, .jobj b, h => by
    simp only [jvalBEq] at h
    rw [jvalPropsBEq_sound a b h]

theorem jvalListBEq_sound : ∀ a b : List JVal, jvalListBEq a b = true → a = b
  | [], [], _ => rfl
  | x :: xs, y :: ys, h => by
    simp only [jvalListBEq, Bool.and_eq_true] at h
    rw [jvalBEq_sound x y h.1, jvalListBEq_sound xs ys h.2]

theorem jvalPropsBEq_sound :
    ∀ a b : List (String × JVal), jvalPropsBEq a b = true → a = b
  | [], [], _ => rfl
  | (k, v) :: xs, (k2, v2) :: ys, h => by
    simp only [jvalPropsBEq, Bool.and_eq_true, beq_iff_eq] at h
    rw [h.1.1, jvalBEq_sound v v2 h.1.2, jvalPropsBEq_sound xs ys h.2]

end

mutual

theorem jvalBEq_rfl : ∀ a : JVal, jvalBEq a a = true
  | .jnull => rfl
  | .jbool a => by simp [jvalBEq]
  | .jnum a => by simp [jvalBEq]
  | .jstr a => by simp [jvalBEq]
  | .jarr a => by simp only [jvalBEq]; exact jvalListBEq_rfl a
  | .jobj a => by simp only [jvalBEq]; exact jvalPropsBEq_rfl a

theorem jvalListBEq_rfl : ∀ a : List JVal, jvalListBEq a a = true
  | [] => rfl
  | x :: xs => by
    simp only [jvalListBEq, Bool.and_eq_true]
    exact ⟨jvalBEq_rfl x, jvalListBEq_rfl xs⟩

theorem jvalPropsBEq_rfl : ∀ a : List (String × JVal), jvalPropsBEq a a = true
  | [] => rfl
  | (k, v) :: xs => by
    simp only [jvalPropsBEq, Bool.and_eq_true, beq_self_eq_true]
    exact ⟨⟨trivial, jvalBEq_rfl v⟩, jvalPropsBEq_rfl xs⟩

end

instance : DecidableEq JVal := fun a b =>
  if h : jvalBEq a b = true then isTrue (jvalBEq_sound a b h)
  else isFalse (fun e => h (e ▸ jvalBEq_rfl a))

/-! ## Executable model of JSON parsing (strict grammar, integer numerals) -/

/-- The four JSON whitespace characters. -/
def isWsJ (c : Char) : Bool := c = ' ' || c = '\t' || c = '\n' || c = '\r'

/-- Number of leading whitespace characters. -/
def wsCount : List Char → Nat
  | [] => 0
  | c :: r => if isWsJ c then wsCount r + 1 else 0

/-- First non-whitespace position at or after `i`. -/
def skipWs (cs : List Char) (i : Nat) : Nat := i + wsCount (cs.drop i)

/-- Hexadecimal digit value. -/
def hexVal (c : Char) : Option Nat :=
  if '0' ≤ c ∧ c ≤ '9' then some (c.toNat - 48)
  else if 'a' ≤ c ∧ c ≤ 'f' then some (c.toNat - 87)
  else if 'A' ≤ c ∧ c ≤ 'F' then some (c.toNat - 55)
  else none

/-- Four hexadecimal digits. -/
def hex4 (a b c d : Char) : Option Nat :=
  match hexVal a, hexVal b, hexVal c, hexVal d with
  | some x, some y, some z, some w => some (((x * 16 + y) * 16 + z) * 16 + w)
  | _, _, _, _ => none

/-- Single-character string escapes of JSON. -/
def escChar (c : Char) : Option Char :=
  if c = '"' then some '"'
  else if c = '\\' then some '\\'
  else if c = '/' then some '/'
  else if c = 'b' then some '\x08'
  else if c = 'f' then some '\x0c'
  else if c = 'n' then some '\n'
  else if c = 'r' then some '\r'
  else if c = 't' then some '\t'
  else none

/-- Scan a string literal body (the input starts right after the opening
quote): returns the decoded content and the number of characters consumed,
including the closing quote.  Surrogate `\uXXXX` escapes are outside the
model (Lean characters are Unicode scalar values). -/
def scanStrL : List Char → List Char → Option (String × Nat)
  | [], _ => none
  | c :: r, acc =>
    if c = '"' then some (String.mk acc.reverse, 1)
    else if c = '\\' then
      match r with
      | [] => none
      | e :: r2 =>
        if e = 'u' then
          match r2 with
          | a :: b :: c2 :: d :: r3 =>
            match hex4 a b c2 d with
            | some n =>
              if n < 0xd800 ∨ (0xe000 ≤ n ∧ n < 0x110000) then
                match scanStrL r3 (Char.ofNat n :: acc) with
                | some (s, k) => some (s, k + 6)
                | none => none
              else none
            | none => none
          | _ => none
        else
          match escChar e with
          | some ch =>
            match scanStrL r2 (ch :: acc) with
            | some (s, k) => some (s, k + 2)
            | none => none
          | none => none
    else if c.toNat < 32 then none
    else
      match scanStrL r (c :: acc) with
      | some (s, k) => some (s, k + 1)
      | none => none

/-- Numeric value of a digit run. -/
def digitsVal (ds : List Char) : Nat :=
  ds.foldl (fun a c => a * 10 + (c.toNat - 48)) 0

/-- Scan an unsigned JSON integer numeral (a single `0`, or a nonzero digit
followed by the maximal digit run): value and characters consumed. -/
def scanNatL (cs : List Char) : Option (Nat × Nat) :=
  match cs with
  | [] => none
  | c :: _ =>
    if c = '0' then some (0, 1)
    else if isDigitC c then
      some (digitsVal (cs.takeWhile isDigitC), (cs.takeWhile isDigitC).length)
    else none

/-- Scan a signed JSON integer numeral. -/
def scanNumL (cs : List Char) : Option (Int × Nat) :=
  match cs with
  | [] => none
  | c :: r =>
    if c = '-' then
      match scanNatL r with
      | some (v, k) => some (-(v : Int), k + 1)
      | none => none
    else
      match scanNatL cs with
      | some (v, k) => some ((v : Int), k)
      | none => none

/-- Does the literal occur at position `i`? -/
def litAt (cs : List Char) (i : Nat) (lit : List Char) : Bool :=
  decide ((cs.drop i).take lit.length = lit)

mutual

/-- Parse one JSON value starting at position `i` (leading whitespace
skipped); returns the node (whose span covers exactly the literal) and the
position just past it.  Fuel decreases on every call; since every recursive
call starts strictly beyond `i`, `cs.length + 1` fuel always suffices. -/
def parseV (fuel : Nat) (cs : List Char) (i : Nat) : Option (Node × Nat) :=
  match fuel with
  | 0 => none
  | fuel + 1 =>
    let j := skipWs cs i
    match cs[j]? with
    | none => none
    | some c =>
      if c = '{' then
        let j2 := skipWs cs (j + 1)
        if cs[j2]? = some '}' then some (.nobj j (j2 + 1 - j) [], j2 + 1)
        else
          match parseMems fuel cs (j + 1) with
          | some (props, k) => some (.nobj j (k - j) props, k)
          | none => none
      else if c = '[' then
        let j2 := skipWs cs (j + 1)
        if cs[j2]? = some ']' then some (.narr j (j2 + 1 - j) [], j2 + 1)
        else
          match parseElemsV fuel cs (j + 1) with
          | some (elems, k) => some (.narr j (k - j) elems, k)
          | none => none
      else if c = '"' then
        match scanStrL (cs.drop (j + 1)) [] with
        | some (s, k) => some (.nstr j (k + 1) s, j + 1 + k)
        | none => none
      else if c = 't' then
        if litAt cs j ['t', 'r', 'u', 'e'] then some (.nbool j 4 true, j + 4)
        else none
      else if c = 'f' then
        if litAt cs j ['f', 'a', 'l', 's', 'e'] then some (.nbool j 5 false, j + 5)
        else none
      else if c = 'n' then
        if litAt cs j ['n', 'u', 'l', 'l'] then some (.nnull j 4, j + 4)
        else none
      else if c = '-' ∨ isDigitC c then
        match scanNumL (cs.drop j) with
        | some (v, k) => some (.nnum j k v, j + k)
        | none => none
      else none

/-- Parse the members of an object, the position being just after `{` or a
`,`.  Each property node spans from its key to the following separator. -/
def parseMems (fuel : Nat) (cs : List Char) (i : Nat) : Option (List Node × Nat) :=
  match fuel with
  | 0 => none
  | fuel + 1 =>
    let j := skipWs cs i
    if cs[j]? = some '"' then
      match scanStrL (cs.drop (j + 1)) [] with
      | some (keyStr, k1) =>
        let j2 := skipWs cs (j + 1 + k1)
        if cs[j2]? = some ':' then
          match parseV fuel cs (j2 + 1) with
          | some (vn, k2) =>
            let j3 := skipWs cs k2
            let prop := Node.nprop j (j3 - j) (.nstr j (k1 + 1) keyStr) vn
            if cs[j3]? = some ',' then
              match parseMems fuel cs (j3 + 1) with
              | some (rest, k3) => some (prop :: rest, k3)
              | none => none
            else if cs[j3]? = some '}' then some ([prop], j3 + 1)
            else none
          | none => none
        else none
      | none => none
    else none

/-- Parse the elements of an array, the position being just after `[` or a
`,`. -/
def parseElemsV (fuel : Nat) (cs : List Char) (i : Nat) : Option (List Node × Nat) :=
  match fuel with
  | 0 => none
  | fuel + 1 =>
    match parseV fuel cs i with
    | some (vn, k) =>
      let j := skipWs cs k
      if cs[j]? = some ',' then
        match parseElemsV fuel cs (j + 1) with
        | some (rest, k2) => some (vn :: rest, k2)
        | none => none
      else if cs[j]? = some ']' then some ([vn], j + 1)
      else none
    | none => none

end

/-- Parse a whole document: one value, then only whitespace to the end.
Models both `jsonc-parser`'s `parseTree` and the tree behind `JSON.parse`
(on every claim-relevant call site the text has already passed `JSON.parse`,
where the lenient `jsonc` grammar and strict JSON coincide). -/
def parseDocN (cs : List Char) : Option Node :=
  match parseV (cs.length + 1) cs 0 with
  | some (n, k) => if skipWs cs k = cs.length then some n else none
  | none => none

/-- Model of `jsonc-parser`'s `parseTree`. -/
def parseTreeM (cs : List Char) : Option Node := parseDocN cs

/-- JS object-property insertion: update in place if the key exists, else
append (the semantics `JSON.parse` uses for duplicate keys: last wins,
first position). -/
def insertJV : List (String × JVal) → String → JVal → List (String × JVal)
  | [], k, v => [(k, v)]
  | (k', v') :: rest, k, v =>
    if k' = k then (k', v) :: rest else (k', v') :: insertJV rest k v

mutual

/-- Decode a parse-tree node into its semantic value. -/
def decodeNode : Node → JVal
  | .nstr _ _ s => .jstr s
  | .nnum _ _ v => .jnum v
  | .nbool _ _ b => .jbool b
  | .nnull _ _ => .jnull
  | .narr _ _ es => .jarr (decodeElems es)
  | .nobj _ _ ps => .jobj (decodeProps ps [])
  | .nprop _ _ _ _ => .jnull

def decodeElems : List Node → List JVal
  | [] => []
  | n :: rest => decodeNode n :: decodeElems rest

def decodeProps : List Node → List (String × JVal) → List (String × JVal)
  | [], acc => acc
  | p :: rest, acc =>
    match p with
    | .nprop _ _ (.nstr _ _ k) vn => decodeProps rest (insertJV acc k (decodeNode vn))
    | _ => decodeProps rest acc

end

/-- Model of the JS builtin `JSON.parse` (on the modelled grammar). -/
def jsonParse (cs : List Char) : Option JVal := (parseDocN cs).map decodeNode

example : jsonParse "\x7b\"a\":1\x7d".data = some (.jobj [("a", .jnum 1)]) := by decide

example : jsonParse "\x7b\"a\":\"\x7b\\\"b\\\":1\x7d\"\x7d".data =
    some (.jobj [("a", .jstr "\x7b\"b\":1\x7d")]) := by decide

example : jsonParse "[1, [2, -3], \x7b\"x\": true, \"x\": null\x7d]".data =
    some (.jarr [.jnum 1, .jarr [.jnum 2, .jnum (-3)],
      .jobj [("x", .jnull)]]) := by decide

example : jsonParse "[1,]".data = none := by decide

example : jsonParse "  \x7b\"k\" : [ ] \x7d  ".data =
    some (.jobj [("k", .jarr [])]) := by decide

example : (parseTreeM "\x7b\"a\":\"\x7b\\\"b\\\":1\x7d\"\x7d".data).map Node.children =
    some [Node.nprop 1 15 (.nstr 1 3 "a") (.nstr 5 11 "\x7b\"b\":1\x7d")] := by
  rfl

/-! ## The value-graph walker and serializers -/

/-- First property with the given key (post-`JSON.parse` objects have unique
keys, so first = only). -/
def lookupProp : List (String × JVal) → String → Option JVal
  | [], _ => none
  | (k', v) :: rest, k => if k' = k then some v else lookupProp rest k

/-- A canonical array-index key (`"0"`, `"17"`, …) below the length; models
the own-property test `k in arr` of a JS array together with `"length"`.
(Properties inherited from `Array.prototype` are outside the model.) -/
def arrIdxKey (k : String) (len : Nat) : Option Nat :=
  match k.toNat? with
  | some i => if Nat.repr i = k ∧ i < len then some i else none
  | none => none

/-- The walking loop of `getNestedValue` (JsonEditor.tsx, lines 722-753):
follow the parts, requiring a non-null object at every step; a numeric part
demands an array and a position inside its bounds; a string part demands
membership via the JS `in` operator.  Returns `(value, parent, key)`. -/
def gnvGo : JVal → JVal → String → List Seg → Option (JVal × JVal × String)
  | current, parent, key, [] => some (current, parent, key)
  | current, _, _, part :: rest =>
    match current with
    | .jobj props =>
      match part with
      | .idx _ => none
      | .key k =>
        match lookupProp props k with
        | some v => gnvGo v (.jobj props) k rest
        | none => none
    | .jarr es =>
      match part with
      | .idx n =>
        if h : 0 ≤ n ∧ n.toNat < es.length then
          gnvGo es[n.toNat] (.jarr es) (String.mk (intChars n)) rest
        else none
      | .key k =>
        if k = "length" then gnvGo (.jnum es.length) (.jarr es) k rest
        else
          match harr : arrIdxKey k es.length with
          | some idx =>
            if h : idx < es.length then gnvGo es[idx] (.jarr es) k rest
            else none
          | none => none
    | _ => none

/-- Model of `getNestedValue` (JsonEditor.tsx, lines 722-753). -/
def getNestedValueM (obj : JVal) (path : List Char) :
    Option (JVal × JVal × String) :=
  let parts := parsePathSegs path
  if parts.isEmpty then none
  else gnvGo obj obj "" parts

/-- Update the value stored at an existing key, in place (JS assignment
`parent[key] = v` on a key that exists; new keys never arise here because the
handlers only assign to a key that `getNestedValue` just resolved). -/
def setProp : List (String × JVal) → String → JVal → List (String × JVal)
  | [], _, _ => []
  | (k', v') :: rest, k, v =>
    if k' = k then (k', v) :: rest else (k', v') :: setProp rest k v

/-- The effect on the decoded value graph of the mutation `parent[key] =
newValue` performed by the handlers after walking `parts`: replace the value
at the path (`JSON.parse` output is a tree, so the aliased in-place mutation
is exactly this functional update). -/
def setPathJV : JVal → List Seg → JVal → JVal
  | _, [], nv => nv
  | jv, part :: rest, nv =>
    match jv, part with
    | .jobj props, .key k =>
      match lookupProp props k with
      | some old => .jobj (setProp props k (setPathJV old rest nv))
      | none => .jobj props
    | .jarr es, .idx n =>
      if h : 0 ≤ n ∧ n.toNat < es.length then
        .jarr (es.set n.toNat (setPathJV es[n.toNat] rest nv))
      else .jarr es
    | .jarr es, .key k =>
      match arrIdxKey k es.length with
      | some idx =>
        if h : idx < es.length then .jarr (es.set idx (setPathJV es[idx] rest nv))
        else .jarr es
      | none => .jarr es
    | jv, _ => jv

/-- One escaped output character of `JSON.stringify`'s string quoting. -/
def escCharOut (c : Char) : List Char :=
  if c = '"' then ['\\', '"']
  else if c = '\\' then ['\\', '\\']
  else if c = '\x08' then ['\\', 'b']
  else if c = '\x0c' then ['\\', 'f']
  else if c = '\n' then ['\\', 'n']
  else if c = '\r' then ['\\', 'r']
  else if c = '\t' then ['\\', 't']
  else if c.toNat < 32 then
    ['\\', 'u', '0', '0',
      (if c.toNat / 16 < 10 then Char.ofNat (48 + c.toNat / 16)
       else Char.ofNat (87 + c.toNat / 16)),
      (if c.toNat % 16 < 10 then Char.ofNat (48 + c.toNat % 16)
       else Char.ofNat (87 + c.toNat % 16))]
  else [c]

/-- `JSON.stringify` of a string: quote and escape. -/
def quoteChars (cs : List Char) : List Char :=
  '"' :: cs.foldr (fun c acc => escCharOut c ++ acc) ['"']

example : quoteChars "\x7b\"b\":1\x7d".data = "\"\x7b\\\"b\\\":1\x7d\"".data := by decide

mutual

/-- Compact serialization: `JSON.stringify(v)` with no indent. -/
def stringifyC : JVal → List Char
  | .jnull => ['n', 'u', 'l', 'l']
  | .jbool true => ['t', 'r', 'u', 'e']
  | .jbool false => ['f', 'a', 'l', 's', 'e']
  | .jnum v => intChars v
  | .jstr s => quoteChars s.data
  | .jarr es => '[' :: stringifyCElems es ++ [']']
  | .jobj ps => '{' :: stringifyCProps ps ++ ['}']

def stringifyCElems : List JVal → List Char
  | [] => []
  | [v] => stringifyC v
  | v :: e :: es => stringifyC v ++ ',' :: stringifyCElems (e :: es)

def stringifyCProps : List (String × JVal) → List Char
  | [] => []
  | [(k, v)] => quoteChars k.data ++ ':' :: stringifyC v
  | (k, v) :: p :: ps =>
    quoteChars k.data ++ ':' :: stringifyC v ++ ',' :: stringifyCProps (p :: ps)

end

example : stringifyC (.jobj [("a", .jstr "x\"y"), ("b", .jarr [.jnum (-2), .jnull])]) =
    "\x7b\"a\":\"x\\\"y\",\"b\":[-2,null]\x7d".data := by decide

/-- Indentation prefix: `lvl` repetitions of `ind` spaces. -/
def pad (ind lvl : Nat) : List Char := List.replicate (ind * lvl) ' '

mutual

/-- Indented serialization: `JSON.stringify(v, null, ind)` with `ind ≥ 1`
(the `ind = 0` case is the compact form and is handled by `stringifyI`). -/
def prettyV (ind lvl : Nat) : JVal → List Char
  | .jnull => ['n', 'u', 'l', 'l']
  | .jbool true => ['t', 'r', 'u', 'e']
  | .jbool false => ['f', 'a', 'l', 's', 'e']
  | .jnum v => intChars v
  | .jstr s => quoteChars s.data
  | .jarr [] => ['[', ']']
  | .jarr (e :: es) =>
    '[' :: '\n' :: prettyElems ind (lvl + 1) (e :: es) ++ '\n' :: pad ind lvl ++ [']']
  | .jobj [] => ['{', '}']
  | .jobj (p :: ps) =>
    '{' :: '\n' :: prettyProps ind (lvl + 1) (p :: ps) ++ '\n' :: pad ind lvl ++ ['}']

def prettyElems (ind lvl : Nat) : List JVal → List Char
  | [] => []
  | [v] => pad ind lvl ++ prettyV ind lvl v
  | v :: e :: es =>
    pad ind lvl ++ prettyV ind lvl v ++ ',' :: '\n' :: prettyElems ind lvl (e :: es)

def prettyProps (ind lvl : Nat) : List (String × JVal) → List Char
  | [] => []
  | [(k, v)] => pad ind lvl ++ quoteChars k.data ++ ':' :: ' ' :: prettyV ind lvl v
  | (k, v) :: p :: ps =>
    pad ind lvl ++ quoteChars k.data ++ ':' :: ' ' :: prettyV ind lvl v ++
      ',' :: '\n' :: prettyProps ind lvl (p :: ps)

end

/-- `JSON.stringify(v, null, indentSize)`: the indent is clamped to at most
10; indent 0 yields the compact form. -/
def stringifyI (ind : Nat) (v : JVal) : List Char :=
  if min ind 10 = 0 then stringifyC v else prettyV (min ind 10) 0 v

example : stringifyI 2 (.jobj [("a", .jobj [("b", .jnum 1)])]) =
    "\x7b\n  \"a\": \x7b\n    \"b\": 1\n  \x7d\n\x7d".data := by decide

/-! ## The span-exact splice and the two mutations -/

/-- Replace the character range `[off, off + len)` by `repl`: the editor-side
`executeEdits` of `applyValueReplace`. -/
def splice (cs : List Char) (off len : Nat) (repl : List Char) : List Char :=
  cs.take off ++ repl ++ cs.drop (off + len)

/-- Model of `jsonc-parser`'s `findNodeAtLocation` walk for a key segment:
the first property whose key matches, descending into its value node. -/
def findPropByKey : List Node → String → Option Node
  | [], _ => none
  | p :: rest, k =>
    match p with
    | .nprop _ _ (.nstr _ _ k') vn => if k' = k then some vn else findPropByKey rest k
    | _ => findPropByKey rest k

/-- Model of `jsonc-parser`'s `findNodeAtLocation`: walk the tree guided by
the segments (key → matching property's value node; index → n-th element). -/
def findNodeAtLocation : Node → List Seg → Option Node
  | node, [] => some node
  | node, .key k :: rest =>
    match node with
    | .nobj _ _ props =>
      match findPropByKey props k with
      | some vn => findNodeAtLocation vn rest
      | none => none
    | _ => none
  | node, .idx n :: rest =>
    match node with
    | .narr _ _ es =>
      if h : 0 ≤ n ∧ n.toNat < es.length then findNodeAtLocation es[n.toNat] rest
      else none
    | _ => none

/-- Model of `applyValueReplace` (JsonEditor.tsx, lines 881-904): re-parse the
current text, locate the node for the path, and splice its exact span with
the new text.  `none` models the `return false` paths (no tree / no node; the
editor and Monaco handles are modelled as always present). -/
def applyValueReplaceM (path : List Char) (newText : List Char)
    (content : List Char) : Option (List Char) :=
  match parseTreeM content with
  | none => none
  | some tree =>
    match findNodeAtLocation tree (parsePathSegs path) with
    | none => none
    | some nd => some (splice content nd.off nd.len newText)

/-- Error kinds reported by the two mutation handlers via `setError`. -/
inductive MutErr where
  | noContent
  | docParse
  | pathNotFound
  | typeMismatch
  | embeddedParse
deriving DecidableEq, Repr

/-- Model of `handleExpandField` (JsonEditor.tsx, lines 907-959): the
returned pair is the content after the call and the error set (if any).
The primary path splices only the located span; if span replacement is
unavailable the whole document is re-serialized from the mutated value graph
(the fallback mode). -/
def handleExpandFieldM (indent : Nat) (path : List Char) (content : List Char) :
    List Char × Option MutErr :=
  if content.all isJsSpace then (content, some .noContent)
  else
    match jsonParse content with
    | none => (content, some .docParse)
    | some jv =>
      match getNestedValueM jv path with
      | none => (content, some .pathNotFound)
      | some (value, _, _) =>
        match value with
        | .jstr s =>
          match jsonParse s.data with
          | none => (content, some .embeddedParse)
          | some inner =>
            match applyValueReplaceM path (stringifyI indent inner) content with
            | some t => (t, none)
            | none =>
              (stringifyI indent (setPathJV jv (parsePathSegs path) inner), none)
        | _ => (content, some .typeMismatch)

/-- Model of `handleCompressField` (JsonEditor.tsx, lines 962-1005). -/
def handleCompressFieldM (indent : Nat) (path : List Char) (content : List Char) :
    List Char × Option MutErr :=
  if content.all isJsSpace then (content, some .noContent)
  else
    match jsonParse content with
    | none => (content, some .docParse)
    | some jv =>
      match getNestedValueM jv path with
      | none => (content, some .pathNotFound)
      | some (value, _, _) =>
        match value with
        | .jobj _ | .jarr _ =>
          match applyValueReplaceM path (quoteChars (stringifyC value)) content with
          | some t => (t, none)
          | none =>
            (stringifyI indent
              (setPathJV jv (parsePathSegs path) (.jstr (String.mk (stringifyC value)))),
              none)
        | _ => (content, some .typeMismatch)

example : handleExpandFieldM 2 "a".data "\x7b\"a\":\"\x7b\\\"b\\\":1\x7d\"\x7d".data =
    ("\x7b\"a\":\x7b\n  \"b\": 1\n\x7d\x7d".data, none) := by decide

example : handleCompressFieldM 2 "a".data "\x7b\"a\":\x7b\n  \"b\": 1\n\x7d\x7d".data =
    ("\x7b\"a\":\"\x7b\\\"b\\\":1\x7d\"\x7d".data, none) := by decide

/-! ### Claims C4, C5, C8 -/

/-- Is the value a string? (`typeof value === 'string'`). -/
def JVal.isStrB : JVal → Bool
  | .jstr _ => true
  | _ => false

/-- Is the value an object or array?
(`typeof value === 'object' && value !== null`). -/
def JVal.isContainerB : JVal → Bool
  | .jobj _ => true
  | .jarr _ => true
  | _ => false

/-- Claim C4: failure taxonomy of the two mutations, for a document that is
nonempty, parses, and whose path resolves: expand fails with `TypeMismatch`
exactly when the resolved value is not a string, and with `EmbeddedParseError`
exactly when the string's content is not valid JSON; compress fails with
`TypeMismatch` exactly when the resolved value is not an object or array (in
particular it fails on numbers, strings, booleans and null). -/
theorem claim_C4_theorem (indent : Nat) (path content : List Char)
    (jv value parent : JVal) (key : String)
    (hnc : content.all isJsSpace = false)
    (hp : jsonParse content = some jv)
    (hg : getNestedValueM jv path = some (value, parent, key)) :
    ((handleExpandFieldM indent path content).2 = some .typeMismatch ↔
      value.isStrB = false) ∧
    ((handleExpandFieldM indent path content).2 = some .embeddedParse ↔
      (∃ s, value = JVal.jstr s ∧ jsonParse s.data = none)) ∧
    ((handleCompressFieldM indent path content).2 = some .typeMismatch ↔
      value.isContainerB = false) := by
  refine ⟨?_, ?_, ?_⟩
  · simp only [handleExpandFieldM, hnc, Bool.false_eq_true, if_false, hp, hg]
    cases value with
    | jstr s =>
      cases hps : jsonParse s.data with
      | none => simp [JVal.isStrB, hps]
      | some inner =>
        cases har : applyValueReplaceM path (stringifyI indent inner) content with
        | some t => simp [JVal.isStrB, hps, har]
        | none => simp [JVal.isStrB, hps, har]
    | jnull => simp [JVal.isStrB]
    | jbool b => simp [JVal.isStrB]
    | jnum v => simp [JVal.isStrB]
    | jarr es => simp [JVal.isStrB]
    | jobj ps => simp [JVal.isStrB]
  · simp only [handleExpandFieldM, hnc, Bool.false_eq_true, if_false, hp, hg]
    cases value with
    | jstr s =>
      cases hps : jsonParse s.data with
      | none => simp [hps]
      | some inner =>
        cases har : applyValueReplaceM path (stringifyI indent inner) content with
        | some t => simp [hps, har]
        | none => simp [hps, har]
    | jnull => simp
    | jbool b => simp
    | jnum v => simp
    | jarr es => simp
    | jobj ps => simp
  · simp only [handleCompressFieldM, hnc, Bool.false_eq_true, if_false, hp, hg]
    cases value with
    | jstr s => simp [JVal.isContainerB]
    | jnull => simp [JVal.isContainerB]
    | jbool b => simp [JVal.isContainerB]
    | jnum v => simp [JVal.isContainerB]
    | jarr es =>
      cases har : applyValueReplaceM path (quoteChars (stringifyC (.jarr es))) content with
      | some t => simp [har, JVal.isContainerB]
      | none => simp [har, JVal.isContainerB]
    | jobj ps =>
      cases har : applyValueReplaceM path (quoteChars (stringifyC (.jobj ps))) content with
      | some t => simp [har, JVal.isContainerB]
      | none => simp [har, JVal.isContainerB]

/-- Claim C4, witness: the document `{"a":1,"b":"x","c":[2]}` with the three
paths `a` (number), `b` (string with invalid embedded JSON) and `c` (array). -/
theorem claim_C4_witness :
    ((handleExpandFieldM 2 "a".data "\x7b\"a\":1,\"b\":\"x\",\"c\":[2]\x7d".data).2 =
        some .typeMismatch ↔ (JVal.jnum 1).isStrB = false) ∧
    ((handleExpandFieldM 2 "b".data "\x7b\"a\":1,\"b\":\"x\",\"c\":[2]\x7d".data).2 =
        some .embeddedParse ↔
      (∃ s, JVal.jstr "x" = JVal.jstr s ∧ jsonParse s.data = none)) ∧
    ((handleCompressFieldM 2 "c".data "\x7b\"a\":1,\"b\":\"x\",\"c\":[2]\x7d".data).2 =
        some .typeMismatch ↔ (JVal.jarr [.jnum 2]).isContainerB = false) :=
  ⟨(claim_C4_theorem 2 "a".data "\x7b\"a\":1,\"b\":\"x\",\"c\":[2]\x7d".data
      (.jobj [("a", .jnum 1), ("b", .jstr "x"), ("c", .jarr [.jnum 2])])
      (.jnum 1)
      (.jobj [("a", .jnum 1), ("b", .jstr "x"), ("c", .jarr [.jnum 2])])
      "a" (by decide) (by decide) (by decide)).1,
   (claim_C4_theorem 2 "b".data "\x7b\"a\":1,\"b\":\"x\",\"c\":[2]\x7d".data
      (.jobj [("a", .jnum 1), ("b", .jstr "x"), ("c", .jarr [.jnum 2])])
      (.jstr "x")
      (.jobj [("a", .jnum 1), ("b", .jstr "x"), ("c", .jarr [.jnum 2])])
      "b" (by decide) (by decide) (by decide)).2.1,
   (claim_C4_theorem 2 "c".data "\x7b\"a\":1,\"b\":\"x\",\"c\":[2]\x7d".data
      (.jobj [("a", .jnum 1), ("b", .jstr "x"), ("c", .jarr [.jnum 2])])
      (.jarr [.jnum 2])
      (.jobj [("a", .jnum 1), ("b", .jstr "x"), ("c", .jarr [.jnum 2])])
      "c" (by decide) (by decide) (by decide)).2.2⟩

/-- Claim C5: atomicity on error — whenever either mutation reports an error
of any kind, the retained document text is exactly the input text (errors are
returned as values; no partial mutation occurs). -/
theorem claim_C5_theorem (indent : Nat) (path content : List Char) :
    (∀ e, (handleExpandFieldM indent path content).2 = some e →
      (handleExpandFieldM indent path content).1 = content) ∧
    (∀ e, (handleCompressFieldM indent path content).2 = some e →
      (handleCompressFieldM indent path content).1 = content) := by
  constructor
  · intro e he
    by_cases h1 : content.all isJsSpace
    · simp [handleExpandFieldM, h1]
    · cases h2 : jsonParse content with
      | none => simp [handleExpandFieldM, h1, h2]
      | some jv =>
        cases h3 : getNestedValueM jv path with
        | none => simp [handleExpandFieldM, h1, h2, h3]
        | some r =>
          obtain ⟨value, parent, key⟩ := r
          cases value with
          | jstr s =>
            cases h4 : jsonParse s.data with
            | none => simp [handleExpandFieldM, h1, h2, h3, h4]
            | some inner =>
              exfalso
              cases h5 : applyValueReplaceM path (stringifyI indent inner) content with
              | some t => simp [handleExpandFieldM, h1, h2, h3, h4, h5] at he
              | none => simp [handleExpandFieldM, h1, h2, h3, h4, h5] at he
          | jnull => simp [handleExpandFieldM, h1, h2, h3]
          | jbool b => simp [handleExpandFieldM, h1, h2, h3]
          | jnum v => simp [handleExpandFieldM, h1, h2, h3]
          | jarr es => simp [handleExpandFieldM, h1, h2, h3]
          | jobj ps => simp [handleExpandFieldM, h1, h2, h3]
  · intro e he
    by_cases h1 : content.all isJsSpace
    · simp [handleCompressFieldM, h1]
    · cases h2 : jsonParse content with
      | none => simp [handleCompressFieldM, h1, h2]
      | some jv =>
        cases h3 : getNestedValueM jv path with
        | none => simp [handleCompressFieldM, h1, h2, h3]
        | some r =>
          obtain ⟨value, parent, key⟩ := r
          cases value with
          | jstr s => simp [handleCompressFieldM, h1, h2, h3]
          | jnull => simp [handleCompressFieldM, h1, h2, h3]
          | jbool b => simp [handleCompressFieldM, h1, h2, h3]
          | jnum v => simp [handleCompressFieldM, h1, h2, h3]
          | jarr es =>
            exfalso
            cases h5 : applyValueReplaceM path (quoteChars (stringifyC (.jarr es))) content with
            | some t => simp [handleCompressFieldM, h1, h2, h3, h5] at he
            | none => simp [handleCompressFieldM, h1, h2, h3, h5] at he
          | jobj ps =>
            exfalso
            cases h5 : applyValueReplaceM path (quoteChars (stringifyC (.jobj ps))) content with
            | some t => simp [handleCompressFieldM, h1, h2, h3, h5] at he
            | none => simp [handleCompressFieldM, h1, h2, h3, h5] at he

/-- Claim C5, witness: a malformed document (expand) and a number-valued path
(compress) both leave the text untouched. -/
theorem claim_C5_witness :
    (handleExpandFieldM 2 "a".data "[1,]".data).1 = "[1,]".data ∧
    (handleCompressFieldM 2 "a".data "\x7b\"a\":1\x7d".data).1 = "\x7b\"a\":1\x7d".data :=
  ⟨(claim_C5_theorem 2 "a".data "[1,]".data).1 .docParse (by decide),
   (claim_C5_theorem 2 "a".data "\x7b\"a\":1\x7d".data).2 .typeMismatch (by decide)⟩

/-- Claim C8, counterexample: on `{"a":"{\"b\":1}"}` with path `a` and indent
2, expand does not return the whole document pretty-printed — only the target
leaf's span is replaced, so the outer layer keeps its compact formatting. -/
theorem claim_C8_counterexample :
    ¬(handleExpandFieldM 2 "a".data "\x7b\"a\":\"\x7b\\\"b\\\":1\x7d\"\x7d".data).1 =
      "\x7b\n  \"a\": \x7b\n    \"b\": 1\n  \x7d\n\x7d".data := by decide

/-- Claim C8, amended: on `{"a":"{\"b\":1}"}` with path `a` and indent 2,
expand succeeds and returns exactly `{"a":{\n  "b": 1\n}}` (the embedded
value pretty-printed at indent 2, substituted span-exactly for the string
leaf; all other text byte-identical), and compress on path `a` of that result
restores a document that decodes to the original document's decoded value. -/
theorem claim_C8_theorem :
    handleExpandFieldM 2 "a".data "\x7b\"a\":\"\x7b\\\"b\\\":1\x7d\"\x7d".data =
      ("\x7b\"a\":\x7b\n  \"b\": 1\n\x7d\x7d".data, none) ∧
    handleCompressFieldM 2 "a".data "\x7b\"a\":\x7b\n  \"b\": 1\n\x7d\x7d".data =
      ("\x7b\"a\":\"\x7b\\\"b\\\":1\x7d\"\x7d".data, none) ∧
    jsonParse "\x7b\"a\":\"\x7b\\\"b\\\":1\x7d\"\x7d".data =
      some (.jobj [("a", .jstr "\x7b\"b\":1\x7d")]) := by
  refine ⟨by decide, by decide, by decide⟩

/-! ## Offset probing: `findNodeAtOffset` and `getAccurateKeyPath` -/

/-- Span membership test of `jsonc-parser` (`contains`): half-open, plus the
right bound when `includeRB` is set. -/
def containsN (n : Node) (offset : Nat) (includeRB : Bool) : Bool :=
  (decide (n.off ≤ offset) && decide (offset < n.off + n.len)) ||
    (includeRB && decide (offset = n.off + n.len))

mutual

/-- Model of `jsonc-parser`'s `findNodeAtOffset`, returning the address (the
child-index path) of the found node instead of the node itself — the JS node
carries parent pointers, which an inductive tree represents by its address.
If the node's span contains the offset, children are probed in order while
their start is at or before the offset, the first success wins, and the node
itself is the fallback. -/
def findAddrAtOffset (n : Node) (offset : Nat) (includeRB : Bool) :
    Option (List Nat) :=
  if containsN n offset includeRB then
    match n with
    | .narr _ _ es =>
      match findAddrInChildren es 0 offset includeRB with
      | some a => some a
      | none => some []
    | .nobj _ _ ps =>
      match findAddrInChildren ps 0 offset includeRB with
      | some a => some a
      | none => some []
    | .nprop _ _ kn vn =>
      if kn.off ≤ offset then
        match findAddrAtOffset kn offset includeRB with
        | some sub => some (0 :: sub)
        | none =>
          if vn.off ≤ offset then
            match findAddrAtOffset vn offset includeRB with
            | some sub => some (1 :: sub)
            | none => some []
          else some []
      else some []
    | _ => some []
  else none

/-- The child loop of `findNodeAtOffset`: probe children while their start
offset is at or before the target offset. -/
def findAddrInChildren (children : List Node) (idx offset : Nat)
    (includeRB : Bool) : Option (List Nat) :=
  match children with
  | [] => none
  | c :: rest =>
    if c.off ≤ offset then
      match findAddrAtOffset c offset includeRB with
      | some sub => some (idx :: sub)
      | none => findAddrInChildren rest (idx + 1) offset includeRB
    else none

end

/-- The node stored at an address. -/
def nodeAt : Node → List Nat → Option Node
  | n, [] => some n
  | n, i :: rest =>
    match (n.children)[i]? with
    | some c => nodeAt c rest
    | none => none

/-- Try candidate offsets in order; `none` entries are offsets skipped by the
bounds guards of the probing loops. -/
def probeList (tree : Node) : List (Option Nat) → Option (List Nat)
  | [] => none
  | none :: rest => probeList tree rest
  | some o :: rest =>
    match findAddrAtOffset tree o true with
    | some a => some a
    | none => probeList tree rest

/-- The backward probing offsets `offset-1 … offset-r`, guarded by
`offset - i >= 0` as in the source. -/
def backOffsets (offset r : Nat) : List (Option Nat) :=
  (List.range r).map (fun i => if i + 1 ≤ offset then some (offset - (i + 1)) else none)

/-- The forward probing offsets `offset+1 … offset+r`, guarded by
`offset + i < contentToParse.length` as in the source. -/
def fwdOffsets (offset len r : Nat) : List (Option Nat) :=
  (List.range r).map (fun i => if offset + i + 1 < len then some (offset + i + 1) else none)

/-- The probing phase of `getAccurateKeyPath` (JsonEditor.tsx, lines 770-798):
exact offset first, then up to 20 characters backward, then up to 20 forward,
taking the first node found. -/
def probeNodeAddr (tree : Node) (offset len : Nat) : Option (List Nat) :=
  match findAddrAtOffset tree offset true with
  | some a => some a
  | none =>
    match probeList tree (backOffsets offset 20) with
    | some a => some a
    | none => probeList tree (fwdOffsets offset len 20)

/-- The path-segment construction of `buildAccuratePath` (JsonEditor.tsx,
lines 801-827), expressed as a walk down the address (equivalent to the
source's upward walk over parent links): an array contributes the crossed
child's index, a property contributes its key (when the key node is a string
node), an object contributes nothing. -/
def buildSegsAt : Node → List Nat → Option (List Seg)
  | _, [] => some []
  | .narr _ _ es, i :: rest =>
    match es[i]? with
    | some c => (buildSegsAt c rest).map (fun segs => Seg.idx (i : Int) :: segs)
    | none => none
  | .nobj _ _ ps, i :: rest =>
    match ps[i]? with
    | some c => buildSegsAt c rest
    | none => none
  | .nprop _ _ kn vn, i :: rest =>
    if i = 0 then
      (buildSegsAt kn rest).map
        (fun segs => (match kn with | .nstr _ _ k => [Seg.key k] | _ => []) ++ segs)
    else if i = 1 then
      (buildSegsAt vn rest).map
        (fun segs => (match kn with | .nstr _ _ k => [Seg.key k] | _ => []) ++ segs)
    else none
  | _, _ :: _ => none

/-- A JS value-or-undefined, as produced by the validation walk (indexing an
array at a negative position yields `undefined`, which the walk can return). -/
inductive JSv where
  | undef
  | val (v : JVal)
deriving DecidableEq

/-- The validation walk of `buildAccuratePath` (JsonEditor.tsx, lines
849-867): re-walk the decoded object along the re-parsed path string.  A
numeric part requires an array and a position below its length (a negative
part passes that test and indexes to `undefined`); a string part requires a
non-null object owning the key. -/
def validateGo : JSv → List Seg → Option JSv
  | cur, [] => some cur
  | cur, .idx n :: rest =>
    match cur with
    | .val (.jarr es) =>
      if (es.length : Int) ≤ n then none
      else if h : 0 ≤ n ∧ n.toNat < es.length then validateGo (.val es[n.toNat]) rest
      else validateGo .undef rest
    | _ => none
  | cur, .key k :: rest =>
    match cur with
    | .val (.jobj props) =>
      match lookupProp props k with
      | some v => validateGo (.val v) rest
      | none => none
    | .val (.jarr es) =>
      if k = "length" then validateGo (.val (.jnum es.length)) rest
      else
        match arrIdxKey k es.length with
        | some idx =>
          if h : idx < es.length then validateGo (.val es[idx]) rest else none
        | none => none
    | _ => none

/-- Model of `getAccurateKeyPath` (JsonEditor.tsx, lines 756-878): parse the
document (both `JSON.parse` and `parseTree`), probe for a node address around
the offset, build the path string, and validate it against the decoded value;
`none` models every `return null` and the catch of a `JSON.parse` throw. -/
def getAccurateKeyPathM (content : List Char) (offset : Nat) :
    Option (List Char × JSv) :=
  if content.all isJsSpace then none
  else
    match jsonParse content with
    | none => none
    | some jv =>
      match parseTreeM content with
      | none => none
      | some tree =>
        match probeNodeAddr tree offset content.length with
        | none => none
        | some addr =>
          match buildSegsAt tree addr with
          | none => none
          | some segs =>
            if segs.isEmpty then none
            else
              match validateGo (.val jv) (parsePathSegs (fmtSegs segs)) with
              | none => none
              | some v => some (fmtSegs segs, v)

example : getAccurateKeyPathM "\x7b\"rows\":[\x7b\"x\":1\x7d,\x7b\"x\":2\x7d]\x7d".data 20 =
    some ("rows[1].x".data, .val (.jnum 2)) := by decide

example : getAccurateKeyPathM "\x7b\"m\":[[10,20],[30,40]]\x7d".data 19 =
    some ("m[1][1]".data, .val (.jnum 40)) := by decide

example : getAccurateKeyPathM "\x7b\"a\":1,\"a\":2\x7d".data 2 =
    some ("a".data, .val (.jnum 2)) := by decide

/-! ### Claims C9 and C6 -/

/-- Claim C9: for every document the parser rejects, `getAccurateKeyPath`
(the `resolvePathAtOffset` of the spec) returns no path at any offset — it
never guesses a path over an invalid document.  (In the source the parse
failure is surfaced by the `catch` around `JSON.parse`, which yields the
no-result value rather than a path.) -/
theorem claim_C9_theorem (content : List Char) (offset : Nat)
    (h : jsonParse content = none) :
    getAccurateKeyPathM content offset = none := by
  unfold getAccurateKeyPathM
  by_cases h1 : content.all isJsSpace
  · simp [h1]
  · simp [h1, h]

/-- Claim C9, witness: a document with a trailing comma, probed at offset 2. -/
theorem claim_C9_witness : getAccurateKeyPathM "[1,]".data 2 = none :=
  claim_C9_theorem "[1,]".data 2 (by decide)

theorem containsN_iff (n : Node) (o : Nat) :
    containsN n o true = true ↔ n.off ≤ o ∧ o ≤ n.off + n.len := by
  unfold containsN
  simp only [Bool.or_eq_true, Bool.and_eq_true, decide_eq_true_eq, true_and]
  omega

theorem findAddr_isSome_of_contains (n : Node) (o : Nat)
    (h : containsN n o true = true) :
    findAddrAtOffset n o true ≠ none := by
  unfold findAddrAtOffset
  rw [if_pos h]
  repeat' split
  all_goals simp

theorem findAddr_none_of_not_contains (n : Node) (o : Nat)
    (h : containsN n o true = false) :
    findAddrAtOffset n o true = none := by
  unfold findAddrAtOffset
  rw [if_neg (by simp [h])]

/-- The probing algorithm as claim C6 words it: the innermost node at the
exact offset; failing that, the offsets `offset-1 … offset-20` and then
`offset+1 … offset+20` in order, taking the first at which a node is found
(an offset outside the document has no node); otherwise no path. -/
def findAddrInt (tree : Node) (o : Int) : Option (List Nat) :=
  if 0 ≤ o then findAddrAtOffset tree o.toNat true else none

def probeSpecList (tree : Node) : List Int → Option (List Nat)
  | [] => none
  | o :: rest =>
    match findAddrInt tree o with
    | some a => some a
    | none => probeSpecList tree rest

def probeSpec (tree : Node) (offset : Nat) : Option (List Nat) :=
  match findAddrAtOffset tree offset true with
  | some a => some a
  | none =>
    match probeSpecList tree ((List.range 20).map fun (i : Nat) => (offset : Int) - ((i : Int) + 1)) with
    | some a => some a
    | none => probeSpecList tree ((List.range 20).map fun (i : Nat) => (offset : Int) + ((i : Int) + 1))

theorem probeList_append (tree : Node) (xs ys : List (Option Nat)) :
    probeList tree (xs ++ ys) =
      match probeList tree xs with
      | some a => some a
      | none => probeList tree ys := by
  induction xs with
  | nil => simp [probeList]
  | cons c cs ih =>
    cases c with
    | none => simpa [probeList] using ih
    | some o =>
      simp only [List.cons_append, probeList]
      cases findAddrAtOffset tree o true <;> simp [ih]

theorem probeSpecList_append (tree : Node) (xs ys : List Int) :
    probeSpecList tree (xs ++ ys) =
      match probeSpecList tree xs with
      | some a => some a
      | none => probeSpecList tree ys := by
  induction xs with
  | nil => simp [probeSpecList]
  | cons o os ih =>
    simp only [List.cons_append, probeSpecList]
    cases findAddrInt tree o <;> simp [ih]

theorem probeSpecList_none_mem (tree : Node) (is : List Int)
    (h : probeSpecList tree is = none) :
    ∀ o ∈ is, findAddrInt tree o = none := by
  induction is with
  | nil => simp
  | cons o os ih =>
    intro x hx
    simp only [probeSpecList] at h
    cases hf : findAddrInt tree o with
    | some a => rw [hf] at h; simp at h
    | none =>
      rw [hf] at h
      simp only at h
      rcases List.mem_cons.mp hx with rfl | hx2
      · exact hf
      · exact ih h x hx2

theorem probeList_eq_spec (tree : Node) :
    ∀ (cands : List (Option Nat)) (ints : List Int),
      cands.length = ints.length →
      (∀ p ∈ cands.zip ints,
        (match p.1 with
         | some o => findAddrAtOffset tree o true
         | none => none) = findAddrInt tree p.2) →
      probeList tree cands = probeSpecList tree ints := by
  intro cands
  induction cands with
  | nil =>
    intro ints hl _
    cases ints with
    | nil => rfl
    | cons i is => simp at hl
  | cons c cs ih =>
    intro ints hl hz
    cases ints with
    | nil => simp at hl
    | cons i is =>
      have h0 := hz (c, i) (by simp)
      have hrest : ∀ p ∈ cs.zip is,
          (match p.1 with
           | some o => findAddrAtOffset tree o true
           | none => none) = findAddrInt tree p.2 :=
        fun p hp => hz p (by simp [hp])
      have hlen : cs.length = is.length := by simpa using hl
      cases c with
      | none =>
        simp only [probeList, probeSpecList]
        simp only at h0
        rw [← h0]
        exact ih is hlen hrest
      | some o =>
        simp only [probeList, probeSpecList]
        simp only at h0
        rw [← h0]
        cases findAddrAtOffset tree o true with
        | some a => rfl
        | none => exact ih is hlen hrest

theorem fwd_probe_eq (tree : Node) (offset len : Nat)
    (hroot : tree.off + tree.len ≤ len) (hlen : 0 < tree.len)
    (hex : findAddrAtOffset tree offset true = none) :
    ∀ r, probeList tree (fwdOffsets offset len r) =
      probeSpecList tree ((List.range r).map fun (i : Nat) => (offset : Int) + ((i : Int) + 1)) := by
  intro r
  induction r with
  | zero => rfl
  | succ r ih =>
    rw [show fwdOffsets offset len (r + 1) =
        fwdOffsets offset len r ++
          [if offset + r + 1 < len then some (offset + r + 1) else none] by
      unfold fwdOffsets
      rw [List.range_succ, List.map_append]
      rfl]
    rw [show (List.range (r + 1)).map (fun (i : Nat) => (offset : Int) + ((i : Int) + 1)) =
        (List.range r).map (fun (i : Nat) => (offset : Int) + ((i : Int) + 1)) ++
          [(offset : Int) + ((r : Int) + 1)] by
      rw [List.range_succ, List.map_append]
      simp]
    rw [probeList_append, probeSpecList_append, ih]
    cases hpre : probeSpecList tree ((List.range r).map fun (i : Nat) => (offset : Int) + ((i : Int) + 1)) with
    | some a => rfl
    | none =>
      simp only
      by_cases hg : offset + r + 1 < len
      · rw [if_pos hg]
        simp only [probeList, probeSpecList, findAddrInt,
          if_pos (by omega : (0 : Int) ≤ (offset : Int) + ((r : Int) + 1))]
        rw [show ((offset : Int) + ((r : Int) + 1)).toNat = offset + r + 1 by omega]
      · rw [if_neg hg]
        simp only [probeList, probeSpecList, findAddrInt,
          if_pos (by omega : (0 : Int) ≤ (offset : Int) + ((r : Int) + 1))]
        rw [show ((offset : Int) + ((r : Int) + 1)).toNat = offset + r + 1 by omega]
        cases hf : findAddrAtOffset tree (offset + r + 1) true with
        | none => rfl
        | some a =>
          exfalso
          have hcont : containsN tree (offset + r + 1) true = true := by
            cases hc : containsN tree (offset + r + 1) true
            · exact absurd (findAddr_none_of_not_contains tree _ hc) (by simp [hf])
            · rfl
          have hcont' := (containsN_iff tree _).mp hcont
          have hnotex : containsN tree offset true = false := by
            cases hc : containsN tree offset true
            · rfl
            · exact absurd hex (findAddr_isSome_of_contains tree offset hc)
          have hnotex' : ¬(tree.off ≤ offset ∧ offset ≤ tree.off + tree.len) := by
            intro hcc
            rw [(containsN_iff tree offset).mpr hcc] at hnotex
            simp at hnotex
          have hs : offset < tree.off := by omega
          have hd : tree.off - offset - 1 < r := by omega
          have hmem : ((offset : Int) + (((tree.off - offset - 1 : Nat) : Int) + 1)) ∈
              (List.range r).map (fun (i : Nat) => (offset : Int) + ((i : Int) + 1)) :=
            List.mem_map.mpr ⟨tree.off - offset - 1, List.mem_range.mpr hd, rfl⟩
          have hnone := probeSpecList_none_mem tree _ hpre _ hmem
          unfold findAddrInt at hnone
          rw [if_pos (by omega)] at hnone
          rw [show ((offset : Int) + (((tree.off - offset - 1 : Nat) : Int) + 1)).toNat =
              tree.off by omega] at hnone
          exact findAddr_isSome_of_contains tree tree.off
            ((containsN_iff tree tree.off).mpr (by omega)) hnone

theorem back_probe_eq (tree : Node) (offset r : Nat) :
    probeList tree (backOffsets offset r) =
      probeSpecList tree
        ((List.range r).map fun (i : Nat) => (offset : Int) - ((i : Int) + 1)) := by
  apply probeList_eq_spec
  · simp [backOffsets]
  · intro p hp
    unfold backOffsets at hp
    rw [List.zip_map'] at hp
    obtain ⟨i, hi, rfl⟩ := List.mem_map.mp hp
    by_cases hgi : i + 1 ≤ offset
    · rw [if_pos hgi]
      simp only [findAddrInt,
        if_pos (by omega : (0 : Int) ≤ (offset : Int) - ((i : Int) + 1))]
      rw [show ((offset : Int) - ((i : Int) + 1)).toNat = offset - (i + 1) by omega]
    · rw [if_neg hgi]
      simp only [findAddrInt]
      rw [if_neg (by omega)]

/-- Claim C6: the probing of `getAccurateKeyPath` is exactly the claimed
algorithm — the innermost node whose span contains the offset; failing that,
the first hit among `offset-1 … offset-20`, then `offset+1 … offset+20`; and
when no node is found in the tolerance window the resolver yields no path.
(The hypotheses say the parse tree's root span lies inside the document and
is nonempty, which holds for every parsed tree.) -/
theorem claim_C6_theorem (tree : Node) (offset len : Nat) (content : List Char)
    (hroot : tree.off + tree.len ≤ len) (hlen : 0 < tree.len) :
    probeNodeAddr tree offset len = probeSpec tree offset ∧
    (parseTreeM content = some tree →
      probeNodeAddr tree offset content.length = none →
      getAccurateKeyPathM content offset = none) := by
  constructor
  · unfold probeNodeAddr probeSpec
    cases hex : findAddrAtOffset tree offset true with
    | some a => simp
    | none =>
      simp only
      rw [back_probe_eq tree offset 20]
      cases hbs : probeSpecList tree
          ((List.range 20).map fun (i : Nat) => (offset : Int) - ((i : Int) + 1)) with
      | some a => simp
      | none =>
        simp only
        exact fwd_probe_eq tree offset len hroot hlen hex 20
  · intro ht hp
    have hjp : jsonParse content = some (decodeNode tree) := by
      unfold jsonParse
      unfold parseTreeM at ht
      rw [ht]
      rfl
    unfold getAccurateKeyPathM
    by_cases hws : content.all isJsSpace
    · simp [hws]
    · simp [hws, hjp, ht, hp]

/-- Claim C6, witness: the single-token document `5` probed at offset 0. -/
theorem claim_C6_witness :
    probeNodeAddr (Node.nnum 0 1 5) 0 1 = probeSpec (Node.nnum 0 1 5) 0 ∧
    (parseTreeM "5".data = some (Node.nnum 0 1 5) →
      probeNodeAddr (Node.nnum 0 1 5) 0 "5".data.length = none →
      getAccurateKeyPathM "5".data 0 = none) :=
  claim_C6_theorem (Node.nnum 0 1 5) 0 1 "5".data (by decide) (by decide)

/-! ### Claim C7: path construction -/

/-- The key of a property node whose key token is a string node. -/
def propKey : Node → Option String
  | .nprop _ _ (.nstr _ _ k) _ => some k
  | _ => none

/-- The string keys of an object's property list. -/
def propKeys (ps : List Node) : List String := ps.filterMap propKey

mutual

/-- Tree well-formedness for path construction: every object child is a
property whose key token is a string node with a hygienic key (nonempty, no
`.` or `[`), objects have pairwise-distinct keys, and property nodes appear
only under objects. -/
def nodeKeysOk : Node → Bool
  | .narr _ _ es => elemsKeysOk es
  | .nobj _ _ ps => decide (propKeys ps).Nodup && propsKeysOk ps
  | .nprop _ _ _ _ => false
  | _ => true

def elemsKeysOk : List Node → Bool
  | [] => true
  | n :: rest => nodeKeysOk n && elemsKeysOk rest

def propsKeysOk : List Node → Bool
  | [] => true
  | p :: rest =>
    (match p with
     | .nprop _ _ (.nstr _ _ k) vn => segOk (.key k) && nodeKeysOk vn
     | _ => false) && propsKeysOk rest

end

/-- A well-formed object child: a property with a hygienic string key and a
well-formed value. -/
def propOkB : Node → Bool
  | .nprop _ _ (.nstr _ _ k) vn => segOk (.key k) && nodeKeysOk vn
  | _ => false

/-- The key text of a key token (the claim's words assume the token is a
string node; other shapes are mapped to the empty text). -/
def keyTextOf : Node → String
  | .nstr _ _ k => k
  | _ => ""

/-- The claim's-words segment construction: each Property ancestor
contributes a Key segment equal to its key text and each Array ancestor an
Index segment equal to the crossed child's ordinal position, concatenated
root-to-leaf. -/
def specSegsAt : Node → List Nat → Option (List Seg)
  | _, [] => some []
  | .narr _ _ es, i :: rest =>
    match es[i]? with
    | some c => (specSegsAt c rest).map (fun segs => Seg.idx (i : Int) :: segs)
    | none => none
  | .nobj _ _ ps, i :: rest =>
    match ps[i]? with
    | some c => specSegsAt c rest
    | none => none
  | .nprop _ _ kn vn, i :: rest =>
    if i = 0 then (specSegsAt kn rest).map (fun segs => Seg.key (keyTextOf kn) :: segs)
    else if i = 1 then (specSegsAt vn rest).map (fun segs => Seg.key (keyTextOf kn) :: segs)
    else none
  | _, _ :: _ => none

/-- The semantic target of a node address: the node the address denotes, with
an address ending at a property's key token promoted to that property's value
node; addresses ending at a property node itself (or running past a leaf) are
outside the relation. -/
def semNodeAt : Node → List Nat → Option Node
  | .nprop _ _ _ _, [] => none
  | n, [] => some n
  | .narr _ _ es, i :: rest =>
    match es[i]? with
    | some c => semNodeAt c rest
    | none => none
  | .nobj _ _ ps, i :: rest =>
    match ps[i]? with
    | some c => semNodeAt c rest
    | none => none
  | .nprop _ _ _ vn, i :: rest =>
    if i = 0 then (if rest.isEmpty then some vn else none)
    else if i = 1 then semNodeAt vn rest
    else none
  | _, _ :: _ => none

example : nodeKeysOk (Node.nobj 0 7 [Node.nprop 1 5 (.nstr 1 3 "a") (.nnum 5 1 1)]) =
    true := by decide

example : semNodeAt (Node.nobj 0 7 [Node.nprop 1 5 (.nstr 1 3 "a") (.nnum 5 1 1)])
    [0, 0] = some (Node.nnum 5 1 1) := by rfl

theorem decodeElems_length (es : List Node) :
    (decodeElems es).length = es.length := by
  induction es with
  | nil => rfl
  | cons n rest ih => simp [decodeElems, ih]

theorem decodeElems_getElem (es : List Node) (i : Nat) :
    (decodeElems es)[i]? = (es[i]?).map decodeNode := by
  induction es generalizing i with
  | nil => simp [decodeElems]
  | cons n rest ih =>
    cases i with
    | zero => simp [decodeElems]
    | succ j => simp [decodeElems, ih]

theorem lookupProp_insert_self (acc : List (String × JVal)) (k : String)
    (v : JVal) : lookupProp (insertJV acc k v) k = some v := by
  induction acc with
  | nil => simp [insertJV, lookupProp]
  | cons p rest ih =>
    by_cases h : p.1 = k
    · simp [insertJV, h, lookupProp]
    · simp [insertJV, h, lookupProp, ih]

theorem lookupProp_insert_other (acc : List (String × JVal)) (k k' : String)
    (v : JVal) (h : k' ≠ k) :
    lookupProp (insertJV acc k' v) k = lookupProp acc k := by
  induction acc with
  | nil => simp [insertJV, lookupProp, h]
  | cons p rest ih =>
    by_cases h2 : p.1 = k'
    · simp [insertJV, h2, lookupProp, h]
    · simp [insertJV, h2, lookupProp, ih]

theorem insertJV_keys_sub (acc : List (String × JVal)) (k : String) (v : JVal) :
    ∀ x ∈ (insertJV acc k v).map Prod.fst, x = k ∨ x ∈ acc.map Prod.fst := by
  induction acc with
  | nil => simp [insertJV]
  | cons p rest ih =>
    intro x hx
    by_cases h2 : p.1 = k
    · simp [insertJV, h2] at hx
      rcases hx with hx | hx
      · left; exact hx
      · right; simp [hx]
    · simp [insertJV, h2] at hx
      rcases hx with hx | hx
      · right; simp [hx]
      · rcases ih x (by simpa using hx) with h3 | h3
        · left; exact h3
        · right; simp [h3]

theorem decodeProps_lookup_skip (ps : List Node) :
    ∀ acc k, k ∉ propKeys ps →
    lookupProp (decodeProps ps acc) k = lookupProp acc k := by
  induction ps with
  | nil => intro acc k _; rfl
  | cons p rest ih =>
    intro acc k hk
    match p with
    | .nprop o l (.nstr o2 l2 k0) vn =>
      have hmem : k ∉ propKeys rest ∧ k ≠ k0 := by
        constructor
        · intro hc; exact hk (by simp [propKeys, propKey, List.filterMap]; right; simpa [propKeys] using hc)
        · intro hc; exact hk (by simp [propKeys, propKey, hc])
      rw [show decodeProps (Node.nprop o l (.nstr o2 l2 k0) vn :: rest) acc
          = decodeProps rest (insertJV acc k0 (decodeNode vn)) from rfl]
      rw [ih _ k hmem.1]
      exact lookupProp_insert_other acc k k0 (decodeNode vn) (fun h => hmem.2 h.symm)
    | .nstr o l s => exact ih _ k (by simpa [propKeys, propKey] using hk)
    | .nnum o l v => exact ih _ k (by simpa [propKeys, propKey] using hk)
    | .nbool o l b => exact ih _ k (by simpa [propKeys, propKey] using hk)
    | .nnull o l => exact ih _ k (by simpa [propKeys, propKey] using hk)
    | .narr o l es => exact ih _ k (by simpa [propKeys, propKey] using hk)
    | .nobj o l ps2 => exact ih _ k (by simpa [propKeys, propKey] using hk)
    | .nprop o l (.nnum a b c) vn => exact ih _ k (by simpa [propKeys, propKey] using hk)
    | .nprop o l (.nbool a b c) vn => exact ih _ k (by simpa [propKeys, propKey] using hk)
    | .nprop o l (.nnull a b) vn => exact ih _ k (by simpa [propKeys, propKey] using hk)
    | .nprop o l (.narr a b c) vn => exact ih _ k (by simpa [propKeys, propKey] using hk)
    | .nprop o l (.nobj a b c) vn => exact ih _ k (by simpa [propKeys, propKey] using hk)
    | .nprop o l (.nprop a b c d) vn => exact ih _ k (by simpa [propKeys, propKey] using hk)

theorem getElemOpt_mem {α : Type} (l : List α) :
    ∀ (i : Nat) (a : α), l[i]? = some a → a ∈ l := by
  induction l with
  | nil => intro i a h; simp at h
  | cons x xs ih =>
    intro i a h
    cases i with
    | zero => simp at h; simp [h]
    | succ j => simp at h; exact List.mem_cons_of_mem _ (ih j a h)

theorem propKeys_mem (ps : List Node) :
    ∀ (i o l o2 l2 : Nat) (k : String) (vn : Node),
    ps[i]? = some (Node.nprop o l (.nstr o2 l2 k) vn) →
    k ∈ propKeys ps := by
  intro i o l o2 l2 k vn h
  have hm : Node.nprop o l (.nstr o2 l2 k) vn ∈ ps := getElemOpt_mem ps i _ h
  exact List.mem_filterMap.mpr ⟨_, hm, rfl⟩

theorem decodeProps_lookup (ps : List Node) :
    ∀ (acc : List (String × JVal)) (i o l o2 l2 : Nat) (k : String) (vn : Node),
    (propKeys ps).Nodup →
    ps[i]? = some (Node.nprop o l (.nstr o2 l2 k) vn) →
    k ∉ acc.map Prod.fst →
    lookupProp (decodeProps ps acc) k = some (decodeNode vn) := by
  induction ps with
  | nil => intro acc i o l o2 l2 k vn _ h _; simp at h
  | cons p rest ih =>
    intro acc i o l o2 l2 k vn hnd h hacc
    cases i with
    | zero =>
      simp at h
      subst h
      have hk : propKeys (Node.nprop o l (.nstr o2 l2 k) vn :: rest)
          = k :: propKeys rest := by simp [propKeys, List.filterMap, propKey]
      rw [hk] at hnd
      have hknotin : k ∉ propKeys rest := (List.nodup_cons.mp hnd).1
      rw [show decodeProps (Node.nprop o l (.nstr o2 l2 k) vn :: rest) acc
          = decodeProps rest (insertJV acc k (decodeNode vn)) from rfl]
      rw [decodeProps_lookup_skip rest _ k hknotin]
      exact lookupProp_insert_self acc k (decodeNode vn)
    | succ j =>
      simp at h
      have hkmem : k ∈ propKeys rest := propKeys_mem rest j o l o2 l2 k vn h
      match p with
      | .nprop po pl (.nstr ko kl k0) vn0 =>
        have hk : propKeys (Node.nprop po pl (.nstr ko kl k0) vn0 :: rest)
            = k0 :: propKeys rest := by simp [propKeys, List.filterMap, propKey]
        rw [hk] at hnd
        have hk0notin : k0 ∉ propKeys rest := (List.nodup_cons.mp hnd).1
        have hkne : k ≠ k0 := fun hc => hk0notin (hc ▸ hkmem)
        have hacc2 : k ∉ (insertJV acc k0 (decodeNode vn0)).map Prod.fst := by
          intro hc
          rcases insertJV_keys_sub acc k0 (decodeNode vn0) k hc with h3 | h3
          · exact hkne h3
          · exact hacc h3
        exact ih _ j o l o2 l2 k vn (List.nodup_cons.mp hnd).2 h hacc2
      | .nstr po pl s =>
        exact ih _ j o l o2 l2 k vn (by simpa [propKeys, propKey] using hnd) h hacc
      | .nnum po pl v =>
        exact ih _ j o l o2 l2 k vn (by simpa [propKeys, propKey] using hnd) h hacc
      | .nbool po pl b =>
        exact ih _ j o l o2 l2 k vn (by simpa [propKeys, propKey] using hnd) h hacc
      | .nnull po pl =>
        exact ih _ j o l o2 l2 k vn (by simpa [propKeys, propKey] using hnd) h hacc
      | .narr po pl es =>
        exact ih _ j o l o2 l2 k vn (by simpa [propKeys, propKey] using hnd) h hacc
      | .nobj po pl ps2 =>
        exact ih _ j o l o2 l2 k vn (by simpa [propKeys, propKey] using hnd) h hacc
      | .nprop po pl (.nnum a b c) vn0 =>
        exact ih _ j o l o2 l2 k vn (by simpa [propKeys, propKey] using hnd) h hacc
      | .nprop po pl (.nbool a b c) vn0 =>
        exact ih _ j o l o2 l2 k vn (by simpa [propKeys, propKey] using hnd) h hacc
      | .nprop po pl (.nnull a b) vn0 =>
        exact ih _ j o l o2 l2 k vn (by simpa [propKeys, propKey] using hnd) h hacc
      | .nprop po pl (.narr a b c) vn0 =>
        exact ih _ j o l o2 l2 k vn (by simpa [propKeys, propKey] using hnd) h hacc
      | .nprop po pl (.nobj a b c) vn0 =>
        exact ih _ j o l o2 l2 k vn (by simpa [propKeys, propKey] using hnd) h hacc
      | .nprop po pl (.nprop a b c d) vn0 =>
        exact ih _ j o l o2 l2 k vn (by simpa [propKeys, propKey] using hnd) h hacc

theorem elemsKeysOk_get (es : List Node) :
    ∀ (i : Nat) (c : Node), elemsKeysOk es = true → es[i]? = some c →
    nodeKeysOk c = true := by
  induction es with
  | nil => intro i c _ h; simp at h
  | cons n rest ih =>
    intro i c hok hg
    rw [show elemsKeysOk (n :: rest) = (nodeKeysOk n && elemsKeysOk rest) from rfl,
      Bool.and_eq_true] at hok
    cases i with
    | zero => simp at hg; exact hg ▸ hok.1
    | succ j => simp at hg; exact ih j c hok.2 hg

theorem propsKeysOk_cons (q : Node) (rest : List Node) :
    propsKeysOk (q :: rest) = (propOkB q && propsKeysOk rest) := by
  match q with
  | .nstr o l s => rfl
  | .nnum o l v => rfl
  | .nbool o l b => rfl
  | .nnull o l => rfl
  | .narr o l es => rfl
  | .nobj o l ps => rfl
  | .nprop o l (.nstr a b k) vn => rfl
  | .nprop o l (.nnum a b c) vn => rfl
  | .nprop o l (.nbool a b c) vn => rfl
  | .nprop o l (.nnull a b) vn => rfl
  | .nprop o l (.narr a b c) vn => rfl
  | .nprop o l (.nobj a b c) vn => rfl
  | .nprop o l (.nprop a b c d) vn => rfl

theorem propsKeysOk_get (ps : List Node) :
    ∀ (i : Nat) (p : Node), propsKeysOk ps = true → ps[i]? = some p →
    propOkB p = true := by
  induction ps with
  | nil => intro i p _ h; simp at h
  | cons q rest ih =>
    intro i p hok hg
    rw [propsKeysOk_cons, Bool.and_eq_true] at hok
    cases i with
    | zero => simp at hg; exact hg ▸ hok.1
    | succ j => simp at hg; exact ih j p hok.2 hg

theorem buildSegsAt_nil (n : Node) : buildSegsAt n [] = some [] := by
  cases n <;> rfl

theorem buildSegsAt_narr (o l : Nat) (es : List Node) (i : Nat)
    (rest : List Nat) :
    buildSegsAt (Node.narr o l es) (i :: rest) =
      match es[i]? with
      | some c => (buildSegsAt c rest).map (fun segs => Seg.idx (i : Int) :: segs)
      | none => none := rfl

theorem buildSegsAt_nobj (o l : Nat) (ps : List Node) (i : Nat)
    (rest : List Nat) :
    buildSegsAt (Node.nobj o l ps) (i :: rest) =
      match ps[i]? with
      | some c => buildSegsAt c rest
      | none => none := rfl

theorem buildSegsAt_nprop (o l : Nat) (kn vn : Node) (i : Nat)
    (rest : List Nat) :
    buildSegsAt (Node.nprop o l kn vn) (i :: rest) =
      (if i = 0 then
        (buildSegsAt kn rest).map
          (fun segs => (match kn with | .nstr _ _ k => [Seg.key k] | _ => []) ++ segs)
      else if i = 1 then
        (buildSegsAt vn rest).map
          (fun segs => (match kn with | .nstr _ _ k => [Seg.key k] | _ => []) ++ segs)
      else none) := rfl

theorem semNodeAt_narr (o l : Nat) (es : List Node) (i : Nat)
    (rest : List Nat) :
    semNodeAt (Node.narr o l es) (i :: rest) =
      match es[i]? with
      | some c => semNodeAt c rest
      | none => none := rfl

theorem semNodeAt_nobj (o l : Nat) (ps : List Node) (i : Nat)
    (rest : List Nat) :
    semNodeAt (Node.nobj o l ps) (i :: rest) =
      match ps[i]? with
      | some c => semNodeAt c rest
      | none => none := rfl

theorem semNodeAt_nprop (o l : Nat) (kn vn : Node) (i : Nat)
    (rest : List Nat) :
    semNodeAt (Node.nprop o l kn vn) (i :: rest) =
      (if i = 0 then (if rest.isEmpty then some vn else none)
      else if i = 1 then semNodeAt vn rest
      else none) := rfl

theorem validate_corr_nil (n : Node) (hok : nodeKeysOk n = true)
    (segs : List Seg) (tgt : Node)
    (hb : buildSegsAt n [] = some segs) (hs : semNodeAt n [] = some tgt) :
    (∀ s ∈ segs, segOk s = true) ∧
    validateGo (.val (decodeNode n)) segs = some (.val (decodeNode tgt)) := by
  cases n with
  | nprop o l kn vn =>
    rw [show nodeKeysOk (Node.nprop o l kn vn) = false from rfl] at hok
    exact absurd hok (by decide)
  | nstr o l s =>
    injection hb with h1; injection hs with h2
    subst h1; subst h2; exact ⟨by simp, rfl⟩
  | nnum o l v =>
    injection hb with h1; injection hs with h2
    subst h1; subst h2; exact ⟨by simp, rfl⟩
  | nbool o l b =>
    injection hb with h1; injection hs with h2
    subst h1; subst h2; exact ⟨by simp, rfl⟩
  | nnull o l =>
    injection hb with h1; injection hs with h2
    subst h1; subst h2; exact ⟨by simp, rfl⟩
  | narr o l es =>
    injection hb with h1; injection hs with h2
    subst h1; subst h2; exact ⟨by simp, rfl⟩
  | nobj o l ps =>
    injection hb with h1; injection hs with h2
    subst h1; subst h2; exact ⟨by simp, rfl⟩

theorem validateGo_obj_key (props : List (String × JVal)) (k : String)
    (rest : List Seg) :
    validateGo (.val (.jobj props)) (Seg.key k :: rest) =
      (match lookupProp props k with
       | some v => validateGo (.val v) rest
       | none => none) := rfl

theorem validateGo_arr_idx (es : List JVal) (n : Int) (rest : List Seg) :
    validateGo (.val (.jarr es)) (Seg.idx n :: rest) =
      (if (es.length : Int) ≤ n then none
       else if h : 0 ≤ n ∧ n.toNat < es.length then
         validateGo (.val es[n.toNat]) rest
       else validateGo .undef rest) := rfl

theorem validateGo_arr_nat (es : List JVal) (i : Nat) (v : JVal)
    (hg : es[i]? = some v) (rest : List Seg) :
    validateGo (.val (.jarr es)) (Seg.idx (i : Int) :: rest) =
      validateGo (.val v) rest := by
  have hlt : i < es.length := by
    by_contra hc
    rw [List.getElem?_eq_none (Nat.le_of_not_lt hc)] at hg
    exact Option.noConfusion hg
  rw [validateGo_arr_idx]
  rw [if_neg (by exact_mod_cast Nat.not_le.mpr hlt)]
  have hcond : 0 ≤ (i : Int) ∧ ((i : Int)).toNat < es.length := by
    refine ⟨Int.natCast_nonneg i, ?_⟩
    simpa [Int.toNat_natCast] using hlt
  rw [dif_pos hcond]
  have h2 : es[((i : Int)).toNat]? = some v := by
    rw [Int.toNat_natCast]; exact hg
  rw [List.getElem?_eq_getElem hcond.2] at h2
  injection h2 with h2
  rw [h2]

theorem propOkB_shape (c : Node) (h : propOkB c = true) :
    ∃ po pl ko kl k vn, c = Node.nprop po pl (.nstr ko kl k) vn ∧
      segOk (Seg.key k) = true ∧ nodeKeysOk vn = true := by
  match c, h with
  | .nprop po pl (.nstr ko kl k) vn, h =>
    refine ⟨po, pl, ko, kl, k, vn, rfl, ?_, ?_⟩
    · rw [show propOkB (Node.nprop po pl (.nstr ko kl k) vn)
          = (segOk (Seg.key k) && nodeKeysOk vn) from rfl,
        Bool.and_eq_true] at h
      exact h.1
    · rw [show propOkB (Node.nprop po pl (.nstr ko kl k) vn)
          = (segOk (Seg.key k) && nodeKeysOk vn) from rfl,
        Bool.and_eq_true] at h
      exact h.2
  | .nstr po pl s, h => nomatch h
  | .nnum po pl v, h => nomatch h
  | .nbool po pl b, h => nomatch h
  | .nnull po pl, h => nomatch h
  | .narr po pl es, h => nomatch h
  | .nobj po pl ps, h => nomatch h
  | .nprop po pl (.nnum a b c2) vn, h => nomatch h
  | .nprop po pl (.nbool a b c2) vn, h => nomatch h
  | .nprop po pl (.nnull a b) vn, h => nomatch h
  | .nprop po pl (.narr a b c2) vn, h => nomatch h
  | .nprop po pl (.nobj a b c2) vn, h => nomatch h
  | .nprop po pl (.nprop a b c2 d) vn, h => nomatch h

/-- The path built from a node address is hygienic, and the validation walk
over the decoded document along it reaches exactly the decoded semantic
target of the address (a key-token address resolving to the property's
value), provided every object of the tree has pairwise-distinct hygienic
string keys. -/
theorem validate_corr : ∀ (L : Nat) (addr : List Nat), addr.length ≤ L →
    ∀ (n : Node), nodeKeysOk n = true →
    ∀ (segs : List Seg) (tgt : Node),
    buildSegsAt n addr = some segs → semNodeAt n addr = some tgt →
    (∀ s ∈ segs, segOk s = true) ∧
    validateGo (.val (decodeNode n)) segs = some (.val (decodeNode tgt)) := by
  intro L
  induction L with
  | zero =>
    intro addr hlen n hok segs tgt hb hs
    have haddr : addr = [] := List.eq_nil_of_length_eq_zero (Nat.le_zero.mp hlen)
    subst haddr
    exact validate_corr_nil n hok segs tgt hb hs
  | succ L ih =>
    intro addr hlen n hok segs tgt hb hs
    cases addr with
    | nil => exact validate_corr_nil n hok segs tgt hb hs
    | cons i rest =>
      cases n with
      | nstr o l s => exact Option.noConfusion hb
      | nnum o l v => exact Option.noConfusion hb
      | nbool o l b => exact Option.noConfusion hb
      | nnull o l => exact Option.noConfusion hb
      | nprop o l kn vn =>
        rw [show nodeKeysOk (Node.nprop o l kn vn) = false from rfl] at hok
        exact absurd hok (by decide)
      | narr o l es =>
        rw [buildSegsAt_narr] at hb
        rw [semNodeAt_narr] at hs
        cases hg : es[i]? with
        | none => rw [hg] at hb; exact Option.noConfusion hb
        | some c =>
          simp only [hg] at hb hs
          cases hbc : buildSegsAt c rest with
          | none => rw [hbc] at hb; exact Option.noConfusion hb
          | some segs2 =>
            rw [hbc] at hb
            injection hb with hb
            have hokc : nodeKeysOk c = true :=
              elemsKeysOk_get es i c (by exact hok) hg
            obtain ⟨hyg2, hval2⟩ :=
              ih rest (Nat.le_of_succ_le_succ hlen) c hokc segs2 tgt hbc hs
            subst hb
            constructor
            · intro s hs2
              rcases List.mem_cons.mp hs2 with h3 | h3
              · subst h3
                simp only [segOk, decide_eq_true_eq]
                exact Int.natCast_nonneg i
              · exact hyg2 s h3
            · rw [show decodeNode (Node.narr o l es) = JVal.jarr (decodeElems es)
                  from rfl]
              have h9 : (decodeElems es)[i]? = some (decodeNode c) := by
                rw [decodeElems_getElem, hg]; rfl
              rw [validateGo_arr_nat (decodeElems es) i (decodeNode c) h9 segs2]
              exact hval2
      | nobj o l ps =>
        rw [buildSegsAt_nobj] at hb
        rw [semNodeAt_nobj] at hs
        rw [show nodeKeysOk (Node.nobj o l ps)
            = (decide (propKeys ps).Nodup && propsKeysOk ps) from rfl,
          Bool.and_eq_true] at hok
        cases hg : ps[i]? with
        | none => rw [hg] at hb; exact Option.noConfusion hb
        | some c =>
          simp only [hg] at hb hs
          obtain ⟨po, pl, ko, kl, k, vn, hc, hkok, hvok⟩ :=
            propOkB_shape c (propsKeysOk_get ps i c hok.2 hg)
          subst hc
          have hlook : lookupProp (decodeProps ps []) k = some (decodeNode vn) :=
            decodeProps_lookup ps [] i po pl ko kl k vn
              (by simpa using hok.1) hg (by simp)
          cases rest with
          | nil => exact Option.noConfusion hs
          | cons j rest2 =>
            rw [buildSegsAt_nprop] at hb
            rw [semNodeAt_nprop] at hs
            by_cases hj0 : j = 0
            · subst hj0
              rw [if_pos rfl] at hb hs
              cases rest2 with
              | cons a b =>
                rw [show (a :: b : List Nat).isEmpty = false from rfl] at hs
                rw [if_neg (by decide)] at hs
                exact Option.noConfusion hs
              | nil =>
                rw [show ([] : List Nat).isEmpty = true from rfl, if_pos rfl] at hs
                injection hs with hs
                rw [buildSegsAt_nil] at hb
                injection hb with hb
                have hb2 : ([Seg.key k] : List Seg) = segs := hb
                subst hs
                subst hb2
                constructor
                · intro s hs2
                  rcases List.mem_cons.mp hs2 with h3 | h3
                  · subst h3; exact hkok
                  · exact absurd h3 (by simp)
                · rw [show decodeNode (Node.nobj o l ps)
                      = JVal.jobj (decodeProps ps []) from rfl]
                  rw [validateGo_obj_key]
                  rw [hlook]
                  rfl
            · by_cases hj1 : j = 1
              · subst hj1
                rw [if_neg (by decide), if_pos rfl] at hb hs
                cases hbv : buildSegsAt vn rest2 with
                | none => rw [hbv] at hb; exact Option.noConfusion hb
                | some segs2 =>
                  rw [hbv] at hb
                  injection hb with hb
                  have hb2 : (Seg.key k :: segs2 : List Seg) = segs := hb
                  have hrl : rest2.length ≤ L := by
                    simp only [List.length_cons] at hlen
                    omega
                  obtain ⟨hyg2, hval2⟩ := ih rest2 hrl vn hvok segs2 tgt hbv hs
                  subst hb2
                  constructor
                  · intro s hs2
                    rcases List.mem_cons.mp hs2 with h3 | h3
                    · rw [h3]; exact hkok
                    · exact hyg2 s h3
                  · rw [show decodeNode (Node.nobj o l ps)
                        = JVal.jobj (decodeProps ps []) from rfl]
                    rw [validateGo_obj_key]
                    rw [hlook]
                    exact hval2
              · rw [if_neg hj0, if_neg hj1] at hb
                exact Option.noConfusion hb

theorem specSegsAt_nil (n : Node) : specSegsAt n [] = some [] := by
  cases n <;> rfl

theorem specSegsAt_narr (o l : Nat) (es : List Node) (i : Nat)
    (rest : List Nat) :
    specSegsAt (Node.narr o l es) (i :: rest) =
      match es[i]? with
      | some c => (specSegsAt c rest).map (fun segs => Seg.idx (i : Int) :: segs)
      | none => none := rfl

theorem specSegsAt_nobj (o l : Nat) (ps : List Node) (i : Nat)
    (rest : List Nat) :
    specSegsAt (Node.nobj o l ps) (i :: rest) =
      match ps[i]? with
      | some c => specSegsAt c rest
      | none => none := rfl

theorem specSegsAt_nprop (o l : Nat) (kn vn : Node) (i : Nat)
    (rest : List Nat) :
    specSegsAt (Node.nprop o l kn vn) (i :: rest) =
      (if i = 0 then
        (specSegsAt kn rest).map (fun segs => Seg.key (keyTextOf kn) :: segs)
      else if i = 1 then
        (specSegsAt vn rest).map (fun segs => Seg.key (keyTextOf kn) :: segs)
      else none) := rfl

/-- Over a tree whose object children are all string-keyed properties, the
source's segment construction coincides with the claim's-words construction. -/
theorem segs_eq_spec : ∀ (L : Nat) (addr : List Nat), addr.length ≤ L →
    ∀ (n : Node), (nodeKeysOk n || propOkB n) = true →
    buildSegsAt n addr = specSegsAt n addr := by
  intro L
  induction L with
  | zero =>
    intro addr hlen n _
    have haddr : addr = [] := List.eq_nil_of_length_eq_zero (Nat.le_zero.mp hlen)
    subst haddr
    cases n <;> rfl
  | succ L ih =>
    intro addr hlen n hok
    cases addr with
    | nil => cases n <;> rfl
    | cons i rest =>
      cases n with
      | nstr o l s => rfl
      | nnum o l v => rfl
      | nbool o l b => rfl
      | nnull o l => rfl
      | narr o l es =>
        have hok2 : elemsKeysOk es = true := by
          rw [show (nodeKeysOk (Node.narr o l es) || propOkB (Node.narr o l es))
              = (elemsKeysOk es || false) from rfl, Bool.or_false] at hok
          exact hok
        rw [buildSegsAt_narr, specSegsAt_narr]
        cases hg : es[i]? with
        | none => rfl
        | some c =>
          have h2 := ih rest (Nat.le_of_succ_le_succ hlen) c
            (by rw [elemsKeysOk_get es i c hok2 hg]; rfl)
          simp only [hg, h2]
      | nobj o l ps =>
        have hok2 : propsKeysOk ps = true := by
          rw [show (nodeKeysOk (Node.nobj o l ps) || propOkB (Node.nobj o l ps))
              = ((decide (propKeys ps).Nodup && propsKeysOk ps) || false) from rfl,
            Bool.or_false, Bool.and_eq_true] at hok
          exact hok.2
        rw [buildSegsAt_nobj, specSegsAt_nobj]
        cases hg : ps[i]? with
        | none => rfl
        | some c =>
          have h2 := ih rest (Nat.le_of_succ_le_succ hlen) c
            (by rw [propsKeysOk_get ps i c hok2 hg]; exact Bool.or_true _)
          simp only [hg, h2]
      | nprop o l kn vn =>
        have hok2 : propOkB (Node.nprop o l kn vn) = true := by
          rw [show (nodeKeysOk (Node.nprop o l kn vn)
              || propOkB (Node.nprop o l kn vn))
              = (false || propOkB (Node.nprop o l kn vn)) from rfl,
            Bool.false_or] at hok
          exact hok
        obtain ⟨po, pl, ko, kl, k, vn2, hc, hkok, hvok⟩ := propOkB_shape _ hok2
        injection hc with h1 h2 h3 h4
        subst h3
        subst h4
        rw [buildSegsAt_nprop, specSegsAt_nprop]
        by_cases hi0 : i = 0
        · subst hi0
          rw [if_pos rfl, if_pos rfl]
          have h5 := ih rest (Nat.le_of_succ_le_succ hlen) (Node.nstr ko kl k) rfl
          rw [h5]
          rfl
        · by_cases hi1 : i = 1
          · subst hi1
            rw [if_neg (by decide), if_pos rfl, if_neg (by decide), if_pos rfl]
            have h5 := ih rest (Nat.le_of_succ_le_succ hlen) vn
              (by rw [hvok]; rfl)
            rw [h5]
            rfl
          · rw [if_neg hi0, if_neg hi1, if_neg hi0, if_neg hi1]

/-- The address of a property's key token and the address of that property's
value node build the same path segments: the resolved path for a key token
names the property itself. -/
theorem buildSegs_key_eq_val : ∀ (pre : List Nat) (n : Node) (o l : Nat)
    (kn vn : Node), nodeAt n pre = some (Node.nprop o l kn vn) →
    buildSegsAt n (pre ++ [0]) = buildSegsAt n (pre ++ [1]) := by
  intro pre
  induction pre with
  | nil =>
    intro n o l kn vn h
    injection h with h
    subst h
    rw [show ([] : List Nat) ++ [0] = [0] from rfl,
      show ([] : List Nat) ++ [1] = [1] from rfl]
    rw [buildSegsAt_nprop, buildSegsAt_nprop]
    rw [if_pos rfl, if_neg (by decide), if_pos rfl]
    rw [buildSegsAt_nil, buildSegsAt_nil]
  | cons i pre2 ih =>
    intro n o l kn vn h
    cases n with
    | nstr o2 l2 s => exact Option.noConfusion h
    | nnum o2 l2 v => exact Option.noConfusion h
    | nbool o2 l2 b => exact Option.noConfusion h
    | nnull o2 l2 => exact Option.noConfusion h
    | narr o2 l2 es =>
      rw [show nodeAt (Node.narr o2 l2 es) (i :: pre2) =
          (match es[i]? with
           | some c => nodeAt c pre2
           | none => none) from rfl] at h
      rw [show ((i :: pre2) ++ [0] : List Nat) = i :: (pre2 ++ [0]) from rfl,
        show ((i :: pre2) ++ [1] : List Nat) = i :: (pre2 ++ [1]) from rfl]
      rw [buildSegsAt_narr, buildSegsAt_narr]
      cases hg : es[i]? with
      | none => simp only [hg] at h; exact Option.noConfusion h
      | some c =>
        simp only [hg] at h
        simp only [hg]
        rw [ih c o l kn vn h]
    | nobj o2 l2 ps =>
      rw [show nodeAt (Node.nobj o2 l2 ps) (i :: pre2) =
          (match ps[i]? with
           | some c => nodeAt c pre2
           | none => none) from rfl] at h
      rw [show ((i :: pre2) ++ [0] : List Nat) = i :: (pre2 ++ [0]) from rfl,
        show ((i :: pre2) ++ [1] : List Nat) = i :: (pre2 ++ [1]) from rfl]
      rw [buildSegsAt_nobj, buildSegsAt_nobj]
      cases hg : ps[i]? with
      | none => simp only [hg] at h; exact Option.noConfusion h
      | some c =>
        simp only [hg] at h
        simp only [hg]
        rw [ih c o l kn vn h]
    | nprop o2 l2 kn2 vn2 =>
      rw [show nodeAt (Node.nprop o2 l2 kn2 vn2) (i :: pre2) =
          (match [kn2, vn2][i]? with
           | some c => nodeAt c pre2
           | none => none) from rfl] at h
      rw [show ((i :: pre2) ++ [0] : List Nat) = i :: (pre2 ++ [0]) from rfl,
        show ((i :: pre2) ++ [1] : List Nat) = i :: (pre2 ++ [1]) from rfl]
      rw [buildSegsAt_nprop, buildSegsAt_nprop]
      by_cases hi0 : i = 0
      · subst hi0
        have h2 : nodeAt kn2 pre2 = some (Node.nprop o l kn vn) := h
        rw [if_pos rfl, if_pos rfl]
        rw [ih kn2 o l kn vn h2]
      · by_cases hi1 : i = 1
        · subst hi1
          have h2 : nodeAt vn2 pre2 = some (Node.nprop o l kn vn) := h
          rw [if_neg (by decide), if_pos rfl, if_neg (by decide), if_pos rfl]
          rw [ih vn2 o l kn vn h2]
        · have h3 : [kn2, vn2][i]? = none := by
            apply List.getElem?_eq_none
            simp only [List.length_cons, List.length_nil]
            omega
          simp only [h3] at h
          exact Option.noConfusion h

/-- Claim C7, counterexample: on the duplicate-key document `{"a":1,"a":2}`,
probing offset 2 finds the FIRST property's key token (address `[0, 0]`, the
string node at offset 1); that property's value node is the literal `1`; but
the resolver reports the value `2`, because the validation walk re-walks the
`JSON.parse` result, where the LAST duplicate key won.  So the reported value
is not that of the found property's value node, as the claim's final clause
asserts. -/
theorem claim_C7_counterexample :
    parseTreeM "\x7b\"a\":1,\"a\":2\x7d".data =
      some (Node.nobj 0 13
        [Node.nprop 1 5 (.nstr 1 3 "a") (.nnum 5 1 1),
         Node.nprop 7 5 (.nstr 7 3 "a") (.nnum 11 1 2)]) ∧
    probeNodeAddr
      (Node.nobj 0 13
        [Node.nprop 1 5 (.nstr 1 3 "a") (.nnum 5 1 1),
         Node.nprop 7 5 (.nstr 7 3 "a") (.nnum 11 1 2)]) 2 13 = some [0, 0] ∧
    nodeAt
      (Node.nobj 0 13
        [Node.nprop 1 5 (.nstr 1 3 "a") (.nnum 5 1 1),
         Node.nprop 7 5 (.nstr 7 3 "a") (.nnum 11 1 2)]) [0, 0] =
      some (Node.nstr 1 3 "a") ∧
    decodeNode (Node.nnum 5 1 1) = JVal.jnum 1 ∧
    getAccurateKeyPathM "\x7b\"a\":1,\"a\":2\x7d".data 2 =
      some ("a".data, .val (.jnum 2)) ∧
    JVal.jnum 2 ≠ JVal.jnum 1 :=
  ⟨rfl, by decide, rfl, rfl, by decide, by decide⟩

/-- Claim C7, amended: over a parsed document whose tree has pairwise-distinct
hygienic string keys in every object, (1) the source's segment construction
for a found node address equals the claim's-words construction (each Property
ancestor contributes a Key segment equal to its key text, each Array ancestor
an Index segment equal to the crossed child's ordinal, root-to-leaf); (2) the
resolver reports exactly the formatted path together with the decoded value of
the address's semantic target — in particular, for an address ending at a
property's key token, the decoded value of that property's value node; and
(3) a key-token address builds the same segments as the corresponding
value-node address, so the path names that property.  (Without
distinct keys the final clause is false: see the counterexample.) -/
theorem claim_C7_theorem (content : List Char) (offset : Nat) (tree : Node)
    (addr : List Nat) (segs : List Seg) (tgt : Node)
    (hws : content.all isJsSpace = false)
    (hp : parseTreeM content = some tree)
    (hwf : nodeKeysOk tree = true)
    (hprobe : probeNodeAddr tree offset content.length = some addr)
    (hbuild : buildSegsAt tree addr = some segs)
    (hsem : semNodeAt tree addr = some tgt)
    (hne : segs ≠ []) :
    buildSegsAt tree addr = specSegsAt tree addr ∧
    getAccurateKeyPathM content offset = some (fmtSegs segs, .val (decodeNode tgt)) ∧
    (∀ (pre : List Nat) (o l : Nat) (kn vn : Node), addr = pre ++ [0] →
      nodeAt tree pre = some (Node.nprop o l kn vn) →
      buildSegsAt tree (pre ++ [1]) = some segs) := by
  obtain ⟨hyg, hval⟩ :=
    validate_corr addr.length addr le_rfl tree hwf segs tgt hbuild hsem
  have hrt : parsePathSegs (fmtSegs segs) = segs := fmt_parse_roundtrip segs hyg
  have hjp : jsonParse content = some (decodeNode tree) := by
    unfold jsonParse
    unfold parseTreeM at hp
    rw [hp]
    rfl
  have hfalse : segs.isEmpty = false := by
    cases segs with
    | nil => exact absurd rfl hne
    | cons a b => rfl
  refine ⟨?_, ?_, ?_⟩
  · exact segs_eq_spec addr.length addr le_rfl tree (by rw [hwf]; rfl)
  · unfold getAccurateKeyPathM
    simp [hws, hjp, hp, hprobe, hbuild, hfalse, hrt, hval]
  · intro pre o l kn vn hpre hnode
    rw [← buildSegs_key_eq_val pre tree o l kn vn hnode]
    rw [hpre] at hbuild
    exact hbuild

/-- Claim C7, witness: the document `{"a":1}` probed at offset 2, inside the
key token of the property `a` (address `[0, 0]`); the reported value is the
decode of the property's value node `1`, and the key-token address builds the
same path as the value address. -/
theorem claim_C7_witness :
    buildSegsAt (Node.nobj 0 7 [Node.nprop 1 5 (.nstr 1 3 "a") (.nnum 5 1 1)])
        [0, 0]
      = specSegsAt (Node.nobj 0 7 [Node.nprop 1 5 (.nstr 1 3 "a") (.nnum 5 1 1)])
        [0, 0] ∧
    getAccurateKeyPathM "\x7b\"a\":1\x7d".data 2
      = some (fmtSegs [Seg.key "a"], .val (decodeNode (Node.nnum 5 1 1))) ∧
    (∀ (pre : List Nat) (o l : Nat) (kn vn : Node),
      ([0, 0] : List Nat) = pre ++ [0] →
      nodeAt (Node.nobj 0 7 [Node.nprop 1 5 (.nstr 1 3 "a") (.nnum 5 1 1)]) pre
        = some (Node.nprop o l kn vn) →
      buildSegsAt (Node.nobj 0 7 [Node.nprop 1 5 (.nstr 1 3 "a") (.nnum 5 1 1)])
        (pre ++ [1]) = some [Seg.key "a"]) :=
  claim_C7_theorem "\x7b\"a\":1\x7d".data 2
    (Node.nobj 0 7 [Node.nprop 1 5 (.nstr 1 3 "a") (.nnum 5 1 1)])
    [0, 0] [Seg.key "a"] (Node.nnum 5 1 1)
    (by decide) rfl (by decide) (by decide) (by decide) rfl (by decide)

/-! ### Claim C1: the span-exact splice frame -/

mutual

/-- Spans of a parse tree are well-nested and ordered: a property's key,
value and span are in order, and the children of a container lie inside its
span, each starting at or after the previous child's end. -/
def spanOkN : Node → Bool
  | .nstr _ _ _ => true
  | .nnum _ _ _ => true
  | .nbool _ _ _ => true
  | .nnull _ _ => true
  | .narr o l es => spanSeq o (o + l) es
  | .nobj o l ps => spanSeq o (o + l) ps
  | .nprop o l kn vn =>
    decide (o ≤ kn.off) && decide (kn.off + kn.len ≤ vn.off) &&
      decide (vn.off + vn.len ≤ o + l) && spanOkN kn && spanOkN vn

def spanSeq (lo hi : Nat) : List Node → Bool
  | [] => true
  | n :: rest =>
    decide (lo ≤ n.off) && decide (n.off + n.len ≤ hi) && spanOkN n &&
      spanSeq (n.off + n.len) hi rest

end

theorem splice_length (cs : List Char) (off len : Nat) (repl : List Char)
    (h : off + len ≤ cs.length) :
    (splice cs off len repl).length = (cs.length - len) + repl.length := by
  unfold splice
  simp only [List.length_append, List.length_take, List.length_drop]
  omega

theorem splice_before (cs : List Char) (off len : Nat) (repl : List Char)
    (p : Nat) (hoff : off + len ≤ cs.length) (h : p < off) :
    (splice cs off len repl)[p]? = cs[p]? := by
  unfold splice
  rw [show List.take off cs ++ repl ++ List.drop (off + len) cs
      = List.take off cs ++ (repl ++ List.drop (off + len) cs) from by simp]
  rw [List.getElem?_append, if_pos (by simp only [List.length_take]; omega)]
  rw [List.getElem?_take, if_pos h]

theorem splice_after (cs : List Char) (off len : Nat) (repl : List Char)
    (p : Nat) (hoff : off + len ≤ cs.length) (h : off + len ≤ p) :
    (splice cs off len repl)[(p - len) + repl.length]? = cs[p]? := by
  unfold splice
  rw [show cs.take off ++ repl ++ cs.drop (off + len)
      = cs.take off ++ (repl ++ cs.drop (off + len)) from by simp]
  rw [List.getElem?_append_right (by simp [List.length_take]; omega)]
  rw [List.getElem?_append_right (by simp [List.length_take]; omega)]
  rw [List.getElem?_drop]
  congr 1
  simp only [List.length_take]
  omega

theorem parseV_zero (cs : List Char) (i : Nat) : parseV 0 cs i = none := rfl

theorem skipWs_ge (cs : List Char) (i : Nat) : i ≤ skipWs cs i :=
  Nat.le_add_right i _

theorem spanSeq_nil (lo hi : Nat) : spanSeq lo hi [] = true := rfl

theorem spanSeq_cons (lo hi : Nat) (n : Node) (rest : List Node) :
    spanSeq lo hi (n :: rest) =
      (decide (lo ≤ n.off) && decide (n.off + n.len ≤ hi) && spanOkN n &&
        spanSeq (n.off + n.len) hi rest) := rfl

theorem spanOkN_nprop (o l : Nat) (kn vn : Node) :
    spanOkN (Node.nprop o l kn vn) =
      (decide (o ≤ kn.off) && decide (kn.off + kn.len ≤ vn.off) &&
        decide (vn.off + vn.len ≤ o + l) && spanOkN kn && spanOkN vn) := rfl

theorem spanOkN_nobj (o l : Nat) (ps : List Node) :
    spanOkN (Node.nobj o l ps) = spanSeq o (o + l) ps := rfl

theorem spanOkN_narr (o l : Nat) (es : List Node) :
    spanOkN (Node.narr o l es) = spanSeq o (o + l) es := rfl

theorem spanSeq_mono_lo : ∀ (ns : List Node) (lo lo2 hi : Nat), lo2 ≤ lo →
    spanSeq lo hi ns = true → spanSeq lo2 hi ns = true := by
  intro ns
  cases ns with
  | nil => intro lo lo2 hi _ _; rfl
  | cons n rest =>
    intro lo lo2 hi hle h
    rw [spanSeq_cons] at h
    rw [spanSeq_cons]
    simp only [Bool.and_eq_true, decide_eq_true_eq] at h
    simp only [Bool.and_eq_true, decide_eq_true_eq]
    obtain ⟨⟨⟨h1, h2⟩, h3⟩, h4⟩ := h
    exact ⟨⟨⟨by omega, h2⟩, h3⟩, h4⟩

/-- Span discipline of the parser: a value node's span starts at the first
non-whitespace position and ends exactly at the returned position, object
members and array elements are nonempty ordered sequences, and all spans in
a parsed node are well-nested. -/
theorem parse_spans : ∀ fuel : Nat,
    (∀ (cs : List Char) (i : Nat) (n : Node) (k : Nat),
      parseV fuel cs i = some (n, k) →
      n.off = skipWs cs i ∧ n.off + n.len = k ∧ spanOkN n = true) ∧
    (∀ (cs : List Char) (i : Nat) (props : List Node) (k : Nat),
      parseMems fuel cs i = some (props, k) →
      props ≠ [] ∧ skipWs cs i < k ∧ spanSeq (skipWs cs i) k props = true) ∧
    (∀ (cs : List Char) (i : Nat) (es : List Node) (k : Nat),
      parseElemsV fuel cs i = some (es, k) →
      es ≠ [] ∧ skipWs cs i < k ∧ spanSeq (skipWs cs i) k es = true) := by
  intro fuel
  induction fuel with
  | zero =>
    exact ⟨fun cs i n k h => Option.noConfusion h,
      fun cs i ps k h => Option.noConfusion h,
      fun cs i es k h => Option.noConfusion h⟩
  | succ fuel ih =>
    obtain ⟨ihV, ihM, ihE⟩ := ih
    refine ⟨?_, ?_, ?_⟩
    · intro cs i n k h
      unfold parseV at h
      simp only [] at h
      cases hc : cs[skipWs cs i]? with
      | none => simp only [hc] at h; exact Option.noConfusion h
      | some c =>
        simp only [hc] at h
        by_cases h1 : c = '{'
        · rw [if_pos h1] at h
          by_cases h2 : cs[skipWs cs (skipWs cs i + 1)]? = some '}'
          · rw [if_pos h2] at h
            injection h with h
            injection h with hn hk
            subst hn; subst hk
            have hg := skipWs_ge cs (skipWs cs i + 1)
            refine ⟨rfl, ?_, rfl⟩
            show skipWs cs i + (skipWs cs (skipWs cs i + 1) + 1 - skipWs cs i)
              = skipWs cs (skipWs cs i + 1) + 1
            omega
          · rw [if_neg h2] at h
            cases hm : parseMems fuel cs (skipWs cs i + 1) with
            | none => simp only [hm] at h; exact Option.noConfusion h
            | some pk =>
              obtain ⟨props, k2⟩ := pk
              simp only [hm] at h
              injection h with h
              injection h with hn hk
              subst hn; subst hk
              obtain ⟨hne, hlt, hseq⟩ := ihM cs (skipWs cs i + 1) props k2 hm
              have hg1 := skipWs_ge cs (skipWs cs i + 1)
              refine ⟨rfl, ?_, ?_⟩
              · show skipWs cs i + (k2 - skipWs cs i) = k2
                omega
              · rw [spanOkN_nobj]
                have he : skipWs cs i + (k2 - skipWs cs i) = k2 := by omega
                rw [he]
                exact spanSeq_mono_lo props _ _ _ (by omega) hseq
        · rw [if_neg h1] at h
          by_cases h3 : c = '['
          · rw [if_pos h3] at h
            by_cases h2 : cs[skipWs cs (skipWs cs i + 1)]? = some ']'
            · rw [if_pos h2] at h
              injection h with h
              injection h with hn hk
              subst hn; subst hk
              have hg := skipWs_ge cs (skipWs cs i + 1)
              refine ⟨rfl, ?_, rfl⟩
              show skipWs cs i + (skipWs cs (skipWs cs i + 1) + 1 - skipWs cs i)
                = skipWs cs (skipWs cs i + 1) + 1
              omega
            · rw [if_neg h2] at h
              cases hm : parseElemsV fuel cs (skipWs cs i + 1) with
              | none => simp only [hm] at h; exact Option.noConfusion h
              | some pk =>
                obtain ⟨es, k2⟩ := pk
                simp only [hm] at h
                injection h with h
                injection h with hn hk
                subst hn; subst hk
                obtain ⟨hne, hlt, hseq⟩ := ihE cs (skipWs cs i + 1) es k2 hm
                have hg1 := skipWs_ge cs (skipWs cs i + 1)
                refine ⟨rfl, ?_, ?_⟩
                · show skipWs cs i + (k2 - skipWs cs i) = k2
                  omega
                · rw [spanOkN_narr]
                  have he : skipWs cs i + (k2 - skipWs cs i) = k2 := by omega
                  rw [he]
                  exact spanSeq_mono_lo es _ _ _ (by omega) hseq
          · rw [if_neg h3] at h
            by_cases h4 : c = '"'
            · rw [if_pos h4] at h
              cases hs : scanStrL (List.drop (skipWs cs i + 1) cs) [] with
              | none => simp only [hs] at h; exact Option.noConfusion h
              | some sk =>
                obtain ⟨s, c2⟩ := sk
                simp only [hs] at h
                injection h with h
                injection h with hn hk
                subst hn; subst hk
                refine ⟨rfl, ?_, rfl⟩
                show skipWs cs i + (c2 + 1) = skipWs cs i + 1 + c2
                omega
            · rw [if_neg h4] at h
              by_cases h5 : c = 't'
              · rw [if_pos h5] at h
                cases h6 : litAt cs (skipWs cs i) ['t', 'r', 'u', 'e'] with
                | false => simp only [h6] at h; exact Option.noConfusion h
                | true =>
                  simp only [h6] at h
                  injection h with h
                  injection h with hn hk
                  subst hn; subst hk
                  exact ⟨rfl, rfl, rfl⟩
              · rw [if_neg h5] at h
                by_cases h7 : c = 'f'
                · rw [if_pos h7] at h
                  cases h6 : litAt cs (skipWs cs i) ['f', 'a', 'l', 's', 'e'] with
                  | false => simp only [h6] at h; exact Option.noConfusion h
                  | true =>
                    simp only [h6] at h
                    injection h with h
                    injection h with hn hk
                    subst hn; subst hk
                    exact ⟨rfl, rfl, rfl⟩
                · rw [if_neg h7] at h
                  by_cases h8 : c = 'n'
                  · rw [if_pos h8] at h
                    cases h6 : litAt cs (skipWs cs i) ['n', 'u', 'l', 'l'] with
                    | false => simp only [h6] at h; exact Option.noConfusion h
                    | true =>
                      simp only [h6] at h
                      injection h with h
                      injection h with hn hk
                      subst hn; subst hk
                      exact ⟨rfl, rfl, rfl⟩
                  · rw [if_neg h8] at h
                    by_cases h9 : c = '-' ∨ isDigitC c = true
                    · rw [if_pos h9] at h
                      cases hs : scanNumL (List.drop (skipWs cs i) cs) with
                      | none => simp only [hs] at h; exact Option.noConfusion h
                      | some vk =>
                        obtain ⟨v, c2⟩ := vk
                        simp only [hs] at h
                        injection h with h
                        injection h with hn hk
                        subst hn; subst hk
                        exact ⟨rfl, rfl, rfl⟩
                    · rw [if_neg h9] at h
                      exact Option.noConfusion h
    · intro cs i props k h
      unfold parseMems at h
      simp only [] at h
      by_cases h1 : cs[skipWs cs i]? = some '"'
      · rw [if_pos h1] at h
        cases hs : scanStrL (List.drop (skipWs cs i + 1) cs) [] with
        | none => simp only [hs] at h; exact Option.noConfusion h
        | some sk =>
          obtain ⟨keyStr, k1⟩ := sk
          simp only [hs] at h
          by_cases h2 : cs[skipWs cs (skipWs cs i + 1 + k1)]? = some ':' 
          · rw [if_pos h2] at h
            cases hv : parseV fuel cs (skipWs cs (skipWs cs i + 1 + k1) + 1) with
            | none => simp only [hv] at h; exact Option.noConfusion h
            | some vk =>
              obtain ⟨vn, k2⟩ := vk
              simp only [hv] at h
              obtain ⟨hvoff, hvend, hvok⟩ :=
                ihV cs (skipWs cs (skipWs cs i + 1 + k1) + 1) vn k2 hv
              have g1 := skipWs_ge cs i
              have g2 := skipWs_ge cs (skipWs cs i + 1 + k1)
              have g3 := skipWs_ge cs (skipWs cs (skipWs cs i + 1 + k1) + 1)
              have g4 := skipWs_ge cs k2
              have hok : spanOkN (Node.nprop (skipWs cs i)
                  (skipWs cs k2 - skipWs cs i)
                  (Node.nstr (skipWs cs i) (k1 + 1) keyStr) vn) = true := by
                rw [spanOkN_nprop]
                simp only [Bool.and_eq_true, decide_eq_true_eq]
                refine ⟨⟨⟨⟨?_, ?_⟩, ?_⟩, rfl⟩, hvok⟩
                · show skipWs cs i ≤ skipWs cs i
                  exact Nat.le_refl _
                · show skipWs cs i + (k1 + 1) ≤ vn.off
                  omega
                · show vn.off + vn.len ≤ skipWs cs i + (skipWs cs k2 - skipWs cs i)
                  omega
              by_cases h3 : cs[skipWs cs k2]? = some ','
              · rw [if_pos h3] at h
                cases hm : parseMems fuel cs (skipWs cs k2 + 1) with
                | none => simp only [hm] at h; exact Option.noConfusion h
                | some rk =>
                  obtain ⟨rest, k3⟩ := rk
                  simp only [hm] at h
                  injection h with h
                  injection h with hp hk
                  subst hp; subst hk
                  obtain ⟨hne2, hlt2, hseq2⟩ := ihM cs (skipWs cs k2 + 1) rest k3 hm
                  have g5 := skipWs_ge cs (skipWs cs k2 + 1)
                  refine ⟨List.cons_ne_nil _ _, by omega, ?_⟩
                  rw [spanSeq_cons]
                  simp only [Bool.and_eq_true, decide_eq_true_eq]
                  refine ⟨⟨⟨?_, ?_⟩, hok⟩, ?_⟩
                  · show skipWs cs i ≤ skipWs cs i
                    exact Nat.le_refl _
                  · show skipWs cs i + (skipWs cs k2 - skipWs cs i) ≤ k3
                    omega
                  · show spanSeq (skipWs cs i + (skipWs cs k2 - skipWs cs i))
                      k3 rest = true
                    exact spanSeq_mono_lo rest _ _ k3 (by omega) hseq2
              · rw [if_neg h3] at h
                by_cases h4 : cs[skipWs cs k2]? = some '}'
                · rw [if_pos h4] at h
                  injection h with h
                  injection h with hp hk
                  subst hp; subst hk
                  refine ⟨List.cons_ne_nil _ _, by omega, ?_⟩
                  rw [spanSeq_cons]
                  simp only [Bool.and_eq_true, decide_eq_true_eq]
                  refine ⟨⟨⟨?_, ?_⟩, hok⟩, rfl⟩
                  · show skipWs cs i ≤ skipWs cs i
                    exact Nat.le_refl _
                  · show skipWs cs i + (skipWs cs k2 - skipWs cs i)
                      ≤ skipWs cs k2 + 1
                    omega
                · rw [if_neg h4] at h
                  exact Option.noConfusion h
          · rw [if_neg h2] at h
            exact Option.noConfusion h
      · rw [if_neg h1] at h
        exact Option.noConfusion h
    · intro cs i es k h
      unfold parseElemsV at h
      simp only [] at h
      cases hv : parseV fuel cs i with
      | none => simp only [hv] at h; exact Option.noConfusion h
      | some vk =>
        obtain ⟨vn, k1⟩ := vk
        simp only [hv] at h
        obtain ⟨hvoff, hvend, hvok⟩ := ihV cs i vn k1 hv
        have g4 := skipWs_ge cs k1
        by_cases h3 : cs[skipWs cs k1]? = some ','
        · rw [if_pos h3] at h
          cases he : parseElemsV fuel cs (skipWs cs k1 + 1) with
          | none => simp only [he] at h; exact Option.noConfusion h
          | some rk =>
            obtain ⟨rest, k2⟩ := rk
            simp only [he] at h
            injection h with h
            injection h with hp hk
            subst hp; subst hk
            obtain ⟨hne2, hlt2, hseq2⟩ := ihE cs (skipWs cs k1 + 1) rest k2 he
            have g5 := skipWs_ge cs (skipWs cs k1 + 1)
            refine ⟨List.cons_ne_nil _ _, by omega, ?_⟩
            rw [spanSeq_cons]
            simp only [Bool.and_eq_true, decide_eq_true_eq]
            refine ⟨⟨⟨by omega, by omega⟩, hvok⟩, ?_⟩
            exact spanSeq_mono_lo rest _ _ k2 (by omega) hseq2
        · rw [if_neg h3] at h
          by_cases h4 : cs[skipWs cs k1]? = some ']'
          · rw [if_pos h4] at h
            injection h with h
            injection h with hp hk
            subst hp; subst hk
            refine ⟨List.cons_ne_nil _ _, by omega, ?_⟩
            rw [spanSeq_cons]
            simp only [Bool.and_eq_true, decide_eq_true_eq]
            exact ⟨⟨⟨by omega, by omega⟩, hvok⟩, rfl⟩
          · rw [if_neg h4] at h
            exact Option.noConfusion h

theorem spanSeq_get : ∀ (ns : List Node) (lo hi : Nat), spanSeq lo hi ns = true →
    ∀ (i : Nat) (c : Node), ns[i]? = some c →
    lo ≤ c.off ∧ c.off + c.len ≤ hi ∧ spanOkN c = true := by
  intro ns
  induction ns with
  | nil => intro lo hi _ i c hg; simp at hg
  | cons n rest ih =>
    intro lo hi h i c hg
    rw [spanSeq_cons] at h
    simp only [Bool.and_eq_true, decide_eq_true_eq] at h
    obtain ⟨⟨⟨h1, h2⟩, h3⟩, h4⟩ := h
    cases i with
    | zero => simp at hg; subst hg; exact ⟨h1, h2, h3⟩
    | succ j =>
      simp at hg
      obtain ⟨h5, h6, h7⟩ := ih (n.off + n.len) hi h4 j c hg
      exact ⟨by omega, h6, h7⟩

theorem spanSeq_ord : ∀ (ns : List Node) (lo hi : Nat), spanSeq lo hi ns = true →
    ∀ (i j : Nat) (ci cj : Node), i < j → ns[i]? = some ci → ns[j]? = some cj →
    ci.off + ci.len ≤ cj.off := by
  intro ns
  induction ns with
  | nil => intro lo hi _ i j ci cj _ hgi _; simp at hgi
  | cons n rest ih =>
    intro lo hi h i j ci cj hij hgi hgj
    rw [spanSeq_cons] at h
    simp only [Bool.and_eq_true, decide_eq_true_eq] at h
    obtain ⟨⟨⟨h1, h2⟩, h3⟩, h4⟩ := h
    cases i with
    | zero =>
      simp at hgi
      subst hgi
      cases j with
      | zero => omega
      | succ j2 =>
        simp at hgj
        exact (spanSeq_get rest _ hi h4 j2 cj hgj).1
    | succ i2 =>
      cases j with
      | zero => omega
      | succ j2 =>
        simp at hgi hgj
        exact ih _ hi h4 i2 j2 ci cj (by omega) hgi hgj

theorem nodeAt_append : ∀ (pre suf : List Nat) (n : Node),
    nodeAt n (pre ++ suf) =
      match nodeAt n pre with
      | some p => nodeAt p suf
      | none => none := by
  intro pre
  induction pre with
  | nil => intro suf n; rfl
  | cons i pre2 ih =>
    intro suf n
    rw [show ((i :: pre2) ++ suf : List Nat) = i :: (pre2 ++ suf) from rfl]
    rw [show nodeAt n (i :: (pre2 ++ suf)) =
        (match (n.children)[i]? with
         | some c => nodeAt c (pre2 ++ suf)
         | none => none) from rfl]
    rw [show nodeAt n (i :: pre2) =
        (match (n.children)[i]? with
         | some c => nodeAt c pre2
         | none => none) from rfl]
    cases hg : (n.children)[i]? with
    | none => rfl
    | some c => simp only [ih suf c]

theorem spanOk_nodeAt : ∀ (addr : List Nat) (n : Node), spanOkN n = true →
    ∀ (m : Node), nodeAt n addr = some m →
    n.off ≤ m.off ∧ m.off + m.len ≤ n.off + n.len ∧ spanOkN m = true := by
  intro addr
  induction addr with
  | nil =>
    intro n hok m h
    injection h with h
    subst h
    exact ⟨Nat.le_refl _, Nat.le_refl _, hok⟩
  | cons i rest ih =>
    intro n hok m h
    cases n with
    | nstr o l s => rw [show nodeAt (Node.nstr o l s) (i :: rest) = none from by
        cases i <;> rfl] at h; exact Option.noConfusion h
    | nnum o l v => rw [show nodeAt (Node.nnum o l v) (i :: rest) = none from by
        cases i <;> rfl] at h; exact Option.noConfusion h
    | nbool o l b => rw [show nodeAt (Node.nbool o l b) (i :: rest) = none from by
        cases i <;> rfl] at h; exact Option.noConfusion h
    | nnull o l => rw [show nodeAt (Node.nnull o l) (i :: rest) = none from by
        cases i <;> rfl] at h; exact Option.noConfusion h
    | narr o l es =>
      rw [show nodeAt (Node.narr o l es) (i :: rest) =
          (match es[i]? with
           | some c => nodeAt c rest
           | none => none) from rfl] at h
      cases hg : es[i]? with
      | none => simp only [hg] at h; exact Option.noConfusion h
      | some c =>
        simp only [hg] at h
        obtain ⟨h5, h6, h7⟩ := spanSeq_get es o (o + l) (by exact hok) i c hg
        obtain ⟨h8, h9, h10⟩ := ih c h7 m h
        refine ⟨?_, ?_, h10⟩
        · show o ≤ m.off
          omega
        · show m.off + m.len ≤ o + l
          omega
    | nobj o l ps =>
      rw [show nodeAt (Node.nobj o l ps) (i :: rest) =
          (match ps[i]? with
           | some c => nodeAt c rest
           | none => none) from rfl] at h
      cases hg : ps[i]? with
      | none => simp only [hg] at h; exact Option.noConfusion h
      | some c =>
        simp only [hg] at h
        obtain ⟨h5, h6, h7⟩ := spanSeq_get ps o (o + l) (by exact hok) i c hg
        obtain ⟨h8, h9, h10⟩ := ih c h7 m h
        refine ⟨?_, ?_, h10⟩
        · show o ≤ m.off
          omega
        · show m.off + m.len ≤ o + l
          omega
    | nprop o l kn vn =>
      rw [show nodeAt (Node.nprop o l kn vn) (i :: rest) =
          (match [kn, vn][i]? with
           | some c => nodeAt c rest
           | none => none) from rfl] at h
      rw [spanOkN_nprop] at hok
      simp only [Bool.and_eq_true, decide_eq_true_eq] at hok
      obtain ⟨⟨⟨⟨hk1, hk2⟩, hk3⟩, hk4⟩, hk5⟩ := hok
      match i with
      | 0 =>
        simp only [show ([kn, vn][0]? : Option Node) = some kn from rfl] at h
        obtain ⟨h8, h9, h10⟩ := ih kn hk4 m h
        refine ⟨?_, ?_, h10⟩
        · show o ≤ m.off
          omega
        · show m.off + m.len ≤ o + l
          omega
      | 1 =>
        simp only [show ([kn, vn][1]? : Option Node) = some vn from rfl] at h
        obtain ⟨h8, h9, h10⟩ := ih vn hk5 m h
        refine ⟨?_, ?_, h10⟩
        · show o ≤ m.off
          omega
        · show m.off + m.len ≤ o + l
          omega
      | i + 2 =>
        simp only [show ([kn, vn][i + 2]? : Option Node) = none from by
          simp] at h
        exact Option.noConfusion h

/-- Children of any well-spanned node at distinct positions have disjoint,
ordered spans. -/
theorem nodeAt_sibling_disjoint (tree : Node) (hok : spanOkN tree = true)
    (pre : List Nat) (i j : Nat) (mi mj : Node) (hij : i < j)
    (hi : nodeAt tree (pre ++ [i]) = some mi)
    (hj : nodeAt tree (pre ++ [j]) = some mj) :
    mi.off + mi.len ≤ mj.off := by
  rw [nodeAt_append] at hi hj
  cases hp : nodeAt tree pre with
  | none => simp only [hp] at hi; exact Option.noConfusion hi
  | some p =>
    simp only [hp] at hi hj
    have hpok : spanOkN p = true := (spanOk_nodeAt pre tree hok p hp).2.2
    have hi2 : (p.children)[i]? = some mi := by
      rw [show nodeAt p [i] =
          (match (p.children)[i]? with
           | some c => nodeAt c []
           | none => none) from rfl] at hi
      cases hg : (p.children)[i]? with
      | none => simp only [hg] at hi; exact hi
      | some c =>
        simp only [hg] at hi
        rw [show nodeAt c [] = some c from rfl] at hi
        exact hi
    have hj2 : (p.children)[j]? = some mj := by
      rw [show nodeAt p [j] =
          (match (p.children)[j]? with
           | some c => nodeAt c []
           | none => none) from rfl] at hj
      cases hg : (p.children)[j]? with
      | none => simp only [hg] at hj; exact hj
      | some c =>
        simp only [hg] at hj
        rw [show nodeAt c [] = some c from rfl] at hj
        exact hj
    cases p with
    | nstr o l s => simp [Node.children] at hi2
    | nnum o l v => simp [Node.children] at hi2
    | nbool o l b => simp [Node.children] at hi2
    | nnull o l => simp [Node.children] at hi2
    | narr o l es => exact spanSeq_ord es o (o + l) (by exact hpok) i j mi mj hij hi2 hj2
    | nobj o l ps => exact spanSeq_ord ps o (o + l) (by exact hpok) i j mi mj hij hi2 hj2
    | nprop o l kn vn =>
      rw [spanOkN_nprop] at hpok
      simp only [Bool.and_eq_true, decide_eq_true_eq] at hpok
      match i, j, hij with
      | 0, 1, _ =>
        simp only [show ((Node.nprop o l kn vn).children[0]? : Option Node)
            = some kn from rfl] at hi2
        simp only [show ((Node.nprop o l kn vn).children[1]? : Option Node)
            = some vn from rfl] at hj2
        injection hi2 with hi2
        injection hj2 with hj2
        subst hi2; subst hj2
        exact hpok.1.1.1.2
      | 0, j + 2, _ =>
        have : ((Node.nprop o l kn vn).children)[j + 2]? = none := by
          show ([kn, vn][j + 2]? : Option Node) = none
          simp
        rw [this] at hj2
        exact Option.noConfusion hj2
      | i + 1, j + 2, _ =>
        have : ((Node.nprop o l kn vn).children)[j + 2]? = none := by
          show ([kn, vn][j + 2]? : Option Node) = none
          simp
        rw [this] at hj2
        exact Option.noConfusion hj2

theorem findPropByKey_get : ∀ (props : List Node) (k : String) (vn : Node),
    findPropByKey props k = some vn →
    ∃ (i o l o2 l2 : Nat) (k2 : String),
      props[i]? = some (Node.nprop o l (.nstr o2 l2 k2) vn) := by
  intro props
  induction props with
  | nil => intro k vn h; exact Option.noConfusion h
  | cons p rest ih =>
    intro k vn h
    match p with
    | .nprop o l (.nstr o2 l2 k2) vn2 =>
      rw [show findPropByKey (Node.nprop o l (.nstr o2 l2 k2) vn2 :: rest) k
          = (if k2 = k then some vn2 else findPropByKey rest k) from rfl] at h
      by_cases hk : k2 = k
      · rw [if_pos hk] at h
        injection h with h
        subst h
        exact ⟨0, o, l, o2, l2, k2, by simp⟩
      · rw [if_neg hk] at h
        obtain ⟨i, a, b, c, d, e, hg⟩ := ih k vn h
        exact ⟨i + 1, a, b, c, d, e, by simpa using hg⟩
    | .nstr o l s =>
      obtain ⟨i, a, b, c, d, e, hg⟩ := ih k vn h
      exact ⟨i + 1, a, b, c, d, e, by simpa using hg⟩
    | .nnum o l v =>
      obtain ⟨i, a, b, c, d, e, hg⟩ := ih k vn h
      exact ⟨i + 1, a, b, c, d, e, by simpa using hg⟩
    | .nbool o l b2 =>
      obtain ⟨i, a, b, c, d, e, hg⟩ := ih k vn h
      exact ⟨i + 1, a, b, c, d, e, by simpa using hg⟩
    | .nnull o l =>
      obtain ⟨i, a, b, c, d, e, hg⟩ := ih k vn h
      exact ⟨i + 1, a, b, c, d, e, by simpa using hg⟩
    | .narr o l es =>
      obtain ⟨i, a, b, c, d, e, hg⟩ := ih k vn h
      exact ⟨i + 1, a, b, c, d, e, by simpa using hg⟩
    | .nobj o l ps =>
      obtain ⟨i, a, b, c, d, e, hg⟩ := ih k vn h
      exact ⟨i + 1, a, b, c, d, e, by simpa using hg⟩
    | .nprop o l (.nnum x y z) vn2 =>
      obtain ⟨i, a, b, c, d, e, hg⟩ := ih k vn h
      exact ⟨i + 1, a, b, c, d, e, by simpa using hg⟩
    | .nprop o l (.nbool x y z) vn2 =>
      obtain ⟨i, a, b, c, d, e, hg⟩ := ih k vn h
      exact ⟨i + 1, a, b, c, d, e, by simpa using hg⟩
    | .nprop o l (.nnull x y) vn2 =>
      obtain ⟨i, a, b, c, d, e, hg⟩ := ih k vn h
      exact ⟨i + 1, a, b, c, d, e, by simpa using hg⟩
    | .nprop o l (.narr x y z) vn2 =>
      obtain ⟨i, a, b, c, d, e, hg⟩ := ih k vn h
      exact ⟨i + 1, a, b, c, d, e, by simpa using hg⟩
    | .nprop o l (.nobj x y z) vn2 =>
      obtain ⟨i, a, b, c, d, e, hg⟩ := ih k vn h
      exact ⟨i + 1, a, b, c, d, e, by simpa using hg⟩
    | .nprop o l (.nprop x y z w) vn2 =>
      obtain ⟨i, a, b, c, d, e, hg⟩ := ih k vn h
      exact ⟨i + 1, a, b, c, d, e, by simpa using hg⟩

theorem findLoc_nodeAt : ∀ (segs : List Seg) (n nd : Node),
    findNodeAtLocation n segs = some nd → ∃ addr, nodeAt n addr = some nd := by
  intro segs
  induction segs with
  | nil =>
    intro n nd h
    injection h with h
    exact ⟨[], by rw [show nodeAt n [] = some n from rfl, h]⟩
  | cons s rest ih =>
    intro n nd h
    cases s with
    | key k =>
      cases n with
      | nobj o l props =>
        rw [show findNodeAtLocation (Node.nobj o l props) (Seg.key k :: rest)
            = (match findPropByKey props k with
               | some vn => findNodeAtLocation vn rest
               | none => none) from rfl] at h
        cases hf : findPropByKey props k with
        | none => simp only [hf] at h; exact Option.noConfusion h
        | some vn =>
          simp only [hf] at h
          obtain ⟨i, a, b, c, d, k2, hg⟩ := findPropByKey_get props k vn hf
          obtain ⟨addr, ha⟩ := ih vn nd h
          refine ⟨i :: 1 :: addr, ?_⟩
          rw [show nodeAt (Node.nobj o l props) (i :: 1 :: addr)
              = (match props[i]? with
                 | some c2 => nodeAt c2 (1 :: addr)
                 | none => none) from rfl]
          simp only [hg]
          rw [show nodeAt (Node.nprop a b (Node.nstr c d k2) vn) (1 :: addr)
              = (match ([Node.nstr c d k2, vn][1]? : Option Node) with
                 | some c2 => nodeAt c2 addr
                 | none => none) from rfl]
          simp only [show ([Node.nstr c d k2, vn][1]? : Option Node)
            = some vn from rfl]
          exact ha
      | nstr o l s2 => exact Option.noConfusion h
      | nnum o l v => exact Option.noConfusion h
      | nbool o l b => exact Option.noConfusion h
      | nnull o l => exact Option.noConfusion h
      | narr o l es => exact Option.noConfusion h
      | nprop o l kn vn => exact Option.noConfusion h
    | idx m =>
      cases n with
      | narr o l es =>
        rw [show findNodeAtLocation (Node.narr o l es) (Seg.idx m :: rest)
            = (if h2 : 0 ≤ m ∧ m.toNat < es.length then
                findNodeAtLocation (es.get ⟨m.toNat, h2.2⟩) rest
              else none) from rfl] at h
        by_cases h2 : 0 ≤ m ∧ m.toNat < es.length
        · rw [dif_pos h2] at h
          obtain ⟨addr, ha⟩ := ih _ nd h
          refine ⟨m.toNat :: addr, ?_⟩
          rw [show nodeAt (Node.narr o l es) (m.toNat :: addr)
              = (match es[m.toNat]? with
                 | some c2 => nodeAt c2 addr
                 | none => none) from rfl]
          simp only [List.getElem?_eq_getElem h2.2]
          exact ha
        · rw [dif_neg h2] at h
          exact Option.noConfusion h
      | nstr o l s2 => exact Option.noConfusion h
      | nnum o l v => exact Option.noConfusion h
      | nbool o l b => exact Option.noConfusion h
      | nnull o l => exact Option.noConfusion h
      | nobj o l ps => exact Option.noConfusion h
      | nprop o l kn vn => exact Option.noConfusion h

theorem parseDocN_spans (cs : List Char) (n : Node) (h : parseDocN cs = some n) :
    n.off + n.len ≤ cs.length ∧ spanOkN n = true := by
  unfold parseDocN at h
  cases hv : parseV (cs.length + 1) cs 0 with
  | none => simp only [hv] at h; exact Option.noConfusion h
  | some vk =>
    obtain ⟨n0, k⟩ := vk
    simp only [hv] at h
    by_cases h2 : skipWs cs k = cs.length
    · rw [if_pos h2] at h
      injection h with h
      subst h
      obtain ⟨_, hend, hok⟩ := (parse_spans (cs.length + 1)).1 cs 0 n0 k hv
      have hg := skipWs_ge cs k
      exact ⟨by omega, hok⟩
    · rw [if_neg h2] at h
      exact Option.noConfusion h

/-- Claim C1: when a mutation succeeds in the primary (span-exact) mode —
`applyValueReplace` found the tree and the node for the path — the returned
text is exactly the document with the located node's character range spliced:
the total length shifts by the constant `newText.length - nd.len`; every
character before the range is byte-identical at its old position; every
character after the range is byte-identical at its position shifted by the
constant; siblings (children of one parent at distinct positions) always have
disjoint ordered spans, so every sibling's span is unchanged modulo the
constant shift — its bytes are preserved verbatim at the (possibly shifted)
span.  Both `handleExpandField` and `handleCompressField` route their primary
mode through this splice. -/
theorem claim_C1_theorem (content path newText out : List Char) (tree nd : Node)
    (hp : parseTreeM content = some tree)
    (hloc : findNodeAtLocation tree (parsePathSegs path) = some nd)
    (happly : applyValueReplaceM path newText content = some out) :
    out = splice content nd.off nd.len newText ∧
    out.length + nd.len = content.length + newText.length ∧
    (∀ p, p < nd.off → out[p]? = content[p]?) ∧
    (∀ p, nd.off + nd.len ≤ p →
      out[(p - nd.len) + newText.length]? = content[p]?) ∧
    (∀ (pre : List Nat) (i j : Nat) (mi mj : Node), i < j →
      nodeAt tree (pre ++ [i]) = some mi → nodeAt tree (pre ++ [j]) = some mj →
      mi.off + mi.len ≤ mj.off) ∧
    (∀ (addr : List Nat) (m : Node), nodeAt tree addr = some m →
      (m.off + m.len ≤ nd.off →
        ∀ p, m.off ≤ p → p < m.off + m.len → out[p]? = content[p]?) ∧
      (nd.off + nd.len ≤ m.off →
        ∀ p, m.off ≤ p → p < m.off + m.len →
          out[(p - nd.len) + newText.length]? = content[p]?)) := by
  unfold applyValueReplaceM at happly
  simp only [hp] at happly
  simp only [hloc] at happly
  injection happly with happly
  subst happly
  obtain ⟨hroot, hok⟩ := parseDocN_spans content tree hp
  obtain ⟨addr0, ha0⟩ := findLoc_nodeAt (parsePathSegs path) tree nd hloc
  obtain ⟨hc1, hc2, _⟩ := spanOk_nodeAt addr0 tree hok nd ha0
  have hnd : nd.off + nd.len ≤ content.length := by omega
  have hlen := splice_length content nd.off nd.len newText hnd
  refine ⟨rfl, by omega, ?_, ?_, ?_, ?_⟩
  · intro p hlt
    exact splice_before content nd.off nd.len newText p hnd hlt
  · intro p hge
    exact splice_after content nd.off nd.len newText p hnd hge
  · intro pre i j mi mj hij hi hj
    exact nodeAt_sibling_disjoint tree hok pre i j mi mj hij hi hj
  · intro addr m hm
    constructor
    · intro hbefore p hp1 hp2
      exact splice_before content nd.off nd.len newText p hnd (by omega)
    · intro hafter p hp1 hp2
      exact splice_after content nd.off nd.len newText p hnd (by omega)

/-- Claim C1, witness: replacing the value of `a` in `{"a":1}` (span `[5, 6)`)
by `25`; the brace and key bytes are preserved and the closing brace shifts by
one. -/
theorem claim_C1_witness :
    ("\x7b\"a\":25\x7d".data : List Char)
        = splice "\x7b\"a\":1\x7d".data 5 1 "25".data ∧
    "\x7b\"a\":25\x7d".data.length + 1 = "\x7b\"a\":1\x7d".data.length + "25".data.length ∧
    (∀ p, p < 5 → ("\x7b\"a\":25\x7d".data : List Char)[p]? = "\x7b\"a\":1\x7d".data[p]?) ∧
    (∀ p, 5 + 1 ≤ p →
      ("\x7b\"a\":25\x7d".data : List Char)[(p - 1) + "25".data.length]?
        = "\x7b\"a\":1\x7d".data[p]?) ∧
    (∀ (pre : List Nat) (i j : Nat) (mi mj : Node), i < j →
      nodeAt (Node.nobj 0 7 [Node.nprop 1 5 (.nstr 1 3 "a") (.nnum 5 1 1)])
        (pre ++ [i]) = some mi →
      nodeAt (Node.nobj 0 7 [Node.nprop 1 5 (.nstr 1 3 "a") (.nnum 5 1 1)])
        (pre ++ [j]) = some mj →
      mi.off + mi.len ≤ mj.off) ∧
    (∀ (addr : List Nat) (m : Node),
      nodeAt (Node.nobj 0 7 [Node.nprop 1 5 (.nstr 1 3 "a") (.nnum 5 1 1)])
        addr = some m →
      (m.off + m.len ≤ 5 →
        ∀ p, m.off ≤ p → p < m.off + m.len →
          ("\x7b\"a\":25\x7d".data : List Char)[p]? = "\x7b\"a\":1\x7d".data[p]?) ∧
      (5 + 1 ≤ m.off →
        ∀ p, m.off ≤ p → p < m.off + m.len →
          ("\x7b\"a\":25\x7d".data : List Char)[(p - 1) + "25".data.length]?
            = "\x7b\"a\":1\x7d".data[p]?)) :=
  claim_C1_theorem "\x7b\"a\":1\x7d".data "a".data "25".data "\x7b\"a\":25\x7d".data
    (Node.nobj 0 7 [Node.nprop 1 5 (.nstr 1 3 "a") (.nnum 5 1 1)])
    (Node.nnum 5 1 1) rfl rfl (by decide)

/-- Claim C3, counterexample: on `{"a":"{ \"b\":1}"}` (note the space inside
the embedded document) expanding at `a` and compressing at `a` again yields
`{"a":"{\"b\":1}"}`: the embedded string was re-serialized compactly, so the
final document does NOT decode to a value equal to decoding the original —
the string at `a` lost its interior space.  (The embedded strings still parse
to equal JSON values; only the round-trip as stated, decode-equality of the
whole document, fails.) -/
theorem claim_C3_counterexample :
    handleExpandFieldM 2 "a".data "\x7b\"a\":\"\x7b \\\"b\\\":1\x7d\"\x7d".data
      = ("\x7b\"a\":\x7b\n  \"b\": 1\n\x7d\x7d".data, none) ∧
    handleCompressFieldM 2 "a".data "\x7b\"a\":\x7b\n  \"b\": 1\n\x7d\x7d".data
      = ("\x7b\"a\":\"\x7b\\\"b\\\":1\x7d\"\x7d".data, none) ∧
    jsonParse "\x7b\"a\":\"\x7b \\\"b\\\":1\x7d\"\x7d".data
      = some (.jobj [("a", .jstr "\x7b \"b\":1\x7d")]) ∧
    jsonParse "\x7b\"a\":\"\x7b\\\"b\\\":1\x7d\"\x7d".data
      = some (.jobj [("a", .jstr "\x7b\"b\":1\x7d")]) ∧
    (JVal.jobj [("a", .jstr "\x7b \"b\":1\x7d")]
      ≠ .jobj [("a", .jstr "\x7b\"b\":1\x7d")]) := by
  refine ⟨by decide, by decide, by decide, by decide, by decide⟩

/-! ### Claim C3: splice–reparse correspondence -/

/-- `none` or a non-digit character: the only lookahead the parser does past
a value's end is the maximal-munch stop of a number scan. -/
def nonDigitOpt : Option Char → Bool
  | none => true
  | some c => !isDigitC c

mutual

/-- Shift a node's offsets from a window starting at `a` to one starting at
`b` (lengths are unchanged). -/
def shiftNode (a b : Nat) : Node → Node
  | .nstr o l s => .nstr (o - a + b) l s
  | .nnum o l v => .nnum (o - a + b) l v
  | .nbool o l v => .nbool (o - a + b) l v
  | .nnull o l => .nnull (o - a + b) l
  | .narr o l es => .narr (o - a + b) l (shiftList a b es)
  | .nobj o l ps => .nobj (o - a + b) l (shiftList a b ps)
  | .nprop o l kn vn => .nprop (o - a + b) l (shiftNode a b kn) (shiftNode a b vn)

def shiftList (a b : Nat) : List Node → List Node
  | [] => []
  | n :: rest => shiftNode a b n :: shiftList a b rest

end

theorem wsCount_ws (l : List Char) :
    ∀ p, p < wsCount l → ∃ c, l[p]? = some c ∧ isWsJ c = true := by
  induction l with
  | nil => intro p h; simp [wsCount] at h
  | cons c r ih =>
    intro p h
    rw [show wsCount (c :: r) = (if isWsJ c then wsCount r + 1 else 0) from rfl] at h
    by_cases hc : isWsJ c = true
    · rw [if_pos hc] at h
      cases p with
      | zero => exact ⟨c, by simp, hc⟩
      | succ q =>
        obtain ⟨c2, h1, h2⟩ := ih q (by omega)
        exact ⟨c2, by simpa using h1, h2⟩
    · rw [if_neg hc] at h
      omega

theorem wsCount_stop (l : List Char) :
    ∀ c, l[wsCount l]? = some c → isWsJ c = false := by
  induction l with
  | nil => intro c h; simp at h
  | cons c0 r ih =>
    intro c h
    rw [show wsCount (c0 :: r) = (if isWsJ c0 then wsCount r + 1 else 0) from rfl] at h
    by_cases hc : isWsJ c0 = true
    · rw [if_pos hc] at h
      simp only [List.getElem?_cons_succ] at h
      exact ih c h
    · rw [if_neg hc] at h
      simp only [List.getElem?_cons_zero] at h
      injection h with h
      subst h
      simpa using hc

theorem wsCount_eq_of (l : List Char) :
    ∀ n, (∀ p, p < n → ∃ c, l[p]? = some c ∧ isWsJ c = true) →
    (∀ c, l[n]? = some c → isWsJ c = false) → wsCount l = n := by
  induction l with
  | nil =>
    intro n h1 _
    cases n with
    | zero => rfl
    | succ m =>
      obtain ⟨c, hc, _⟩ := h1 0 (by omega)
      simp at hc
  | cons c0 r ih =>
    intro n h1 h2
    rw [show wsCount (c0 :: r) = (if isWsJ c0 then wsCount r + 1 else 0) from rfl]
    cases n with
    | zero =>
      have := h2 c0 (by simp)
      rw [if_neg (by simp [this])]
    | succ m =>
      obtain ⟨c, hc, hw⟩ := h1 0 (by omega)
      simp only [List.getElem?_cons_zero] at hc
      injection hc with hc
      subst hc
      rw [if_pos hw]
      have := ih m (fun p hp => by simpa using h1 (p + 1) (by omega))
        (fun c2 hc2 => h2 c2 (by simpa using hc2))
      omega

theorem skipWs_transport (cs cs2 : List Char) (q q2 r : Nat)
    (hsk : skipWs cs q = r)
    (hagree : ∀ p, q ≤ p → p ≤ r → cs2[p - q + q2]? = cs[p]?) :
    skipWs cs2 q2 = r - q + q2 := by
  have hqr : q ≤ r := by unfold skipWs at hsk; omega
  have hw : wsCount (cs.drop q) = r - q := by unfold skipWs at hsk; omega
  have h2 : wsCount (cs2.drop q2) = r - q := by
    apply wsCount_eq_of
    · intro p hp
      obtain ⟨c, hc, hcw⟩ := wsCount_ws (cs.drop q) p (by omega)
      refine ⟨c, ?_, hcw⟩
      rw [List.getElem?_drop] at hc
      rw [List.getElem?_drop]
      rw [show q2 + p = (q + p) - q + q2 from by omega]
      rw [hagree (q + p) (by omega) (by omega)]
      exact hc
    · intro c hc
      rw [List.getElem?_drop] at hc
      rw [show q2 + (r - q) = r - q + q2 from by omega] at hc
      rw [hagree r (by omega) (by omega)] at hc
      apply wsCount_stop (cs.drop q)
      rw [List.getElem?_drop, hw]
      rw [show q + (r - q) = r from by omega]
      exact hc
  unfold skipWs
  omega

theorem getElem0_cons {α : Type} (l : List α) (x : α) (h : l[0]? = some x) :
    ∃ t, l = x :: t := by
  cases l with
  | nil => simp at h
  | cons y t =>
    simp at h
    exact ⟨t, by rw [h]⟩

theorem litAt_elem (cs : List Char) (j : Nat) (lit : List Char)
    (h : litAt cs j lit = true) :
    ∀ p, p < lit.length → cs[j + p]? = lit[p]? := by
  unfold litAt at h
  rw [decide_eq_true_eq] at h
  intro p hp
  have h2 := congrArg (fun l => l[p]?) h
  simp only [List.getElem?_take, List.getElem?_drop] at h2
  rw [if_pos hp] at h2
  exact h2

theorem litAt_intro (cs : List Char) (j : Nat) (lit : List Char)
    (h : ∀ p, p < lit.length → cs[j + p]? = lit[p]?) : litAt cs j lit = true := by
  unfold litAt
  rw [decide_eq_true_eq]
  apply List.ext_getElem?
  intro p
  by_cases hp : p < lit.length
  · simp only [List.getElem?_take, List.getElem?_drop]
    rw [if_pos hp]
    exact h p hp
  · simp only [List.getElem?_take]
    rw [if_neg hp]
    rw [eq_comm, List.getElem?_eq_none_iff]
    omega

theorem scanStrL_cons (ch : Char) (r acc : List Char) :
    scanStrL (ch :: r) acc =
      (if ch = '"' then some (String.mk acc.reverse, 1)
      else if ch = '\\' then
        match r with
        | [] => none
        | e :: r2 =>
          if e = 'u' then
            match r2 with
            | a :: b :: c2 :: d :: r3 =>
              match hex4 a b c2 d with
              | some n =>
                if n < 0xd800 ∨ (0xe000 ≤ n ∧ n < 0x110000) then
                  match scanStrL r3 (Char.ofNat n :: acc) with
                  | some (s, k) => some (s, k + 6)
                  | none => none
                else none
              | none => none
            | _ => none
          else
            match escChar e with
            | some ch2 =>
              match scanStrL r2 (ch2 :: acc) with
              | some (s, k) => some (s, k + 2)
              | none => none
            | none => none
      else if ch.toNat < 32 then none
      else
        match scanStrL r (ch :: acc) with
        | some (s, k) => some (s, k + 1)
        | none => none) := by
  cases r with
  | nil => rfl
  | cons e r2 =>
    cases r2 with
    | nil => rfl
    | cons a r3 =>
      cases r3 with
      | nil => rfl
      | cons b r4 =>
        cases r4 with
        | nil => rfl
        | cons c2 r5 =>
          cases r5 with
          | nil => rfl
          | cons d r6 => rfl

theorem scanStrL_cons_u (a b c2 d : Char) (r3 acc : List Char) :
    scanStrL ('\\' :: 'u' :: a :: b :: c2 :: d :: r3) acc =
      (match hex4 a b c2 d with
       | some n =>
         if n < 0xd800 ∨ (0xe000 ≤ n ∧ n < 0x110000) then
           match scanStrL r3 (Char.ofNat n :: acc) with
           | some (s, k) => some (s, k + 6)
           | none => none
         else none
       | none => none) := rfl

theorem scanStrL_esc (e ch2 : Char) (r2 acc : List Char)
    (h3 : ¬e = 'u') (hesc : escChar e = some ch2) :
    scanStrL ('\\' :: e :: r2) acc =
      (match scanStrL r2 (ch2 :: acc) with
       | some (s, k) => some (s, k + 2)
       | none => none) := by
  have hb : scanStrL ('\\' :: e :: r2) acc =
      (if e = 'u' then scanStrL ('\\' :: 'u' :: r2) acc
      else
        match escChar e with
        | some ch3 =>
          match scanStrL r2 (ch3 :: acc) with
          | some (s, k) => some (s, k + 2)
          | none => none
        | none => none) := by
    by_cases he : e = 'u'
    · rw [if_pos he, he]
    · rw [if_neg he]
      rw [scanStrL_cons, if_neg (by decide),
        if_pos (show ('\\' : Char) = '\\' from rfl)]
      cases r2 <;> · simp only []
                     rw [if_neg he]
  rw [hb, if_neg h3, hesc]

theorem scanStrL_cons_other (ch : Char) (r acc : List Char)
    (h1 : ¬ch = '"') (h2 : ¬ch = '\\') (h4 : ¬ch.toNat < 32) :
    scanStrL (ch :: r) acc =
      (match scanStrL r (ch :: acc) with
       | some (s, k) => some (s, k + 1)
       | none => none) := by
  rw [scanStrL_cons, if_neg h1, if_neg h2, if_neg h4]

/-- String-literal scanning only examines the consumed prefix: any list
agreeing on the first `c` positions scans identically. -/
theorem scanStrL_transport : ∀ (L : Nat) (l : List Char), l.length ≤ L →
    ∀ (acc : List Char) (s : String) (c : Nat), scanStrL l acc = some (s, c) →
    ∀ l2 : List Char, (∀ p, p < c → l2[p]? = l[p]?) →
    scanStrL l2 acc = some (s, c) := by
  intro L
  induction L with
  | zero =>
    intro l hl acc s c h l2 hag
    match l, hl with
    | [], _ => exact Option.noConfusion h
  | succ L ih =>
    intro l hl acc s c h l2 hag
    match l, hl, h, hag with
    | [], _, h, _ => exact Option.noConfusion h
    | ch :: r, hl, h, hag =>
      rw [scanStrL_cons] at h
      by_cases h1 : ch = '"'
      · rw [if_pos h1] at h
        injection h with h
        injection h with hs hc
        subst hs
        subst hc
        obtain ⟨t, rfl⟩ := getElem0_cons l2 ch (by rw [hag 0 (by omega)]; simp)
        rw [scanStrL_cons, if_pos h1]
      · rw [if_neg h1] at h
        by_cases h2 : ch = '\\'
        · subst h2
          rw [if_pos rfl] at h
          cases r with
          | nil => exact Option.noConfusion h
          | cons e r2 =>
            simp only [] at h
            by_cases h3 : e = 'u'
            · subst h3
              rw [if_pos rfl] at h
              match r2, hl, h, hag with
              | [], _, h, _ => exact Option.noConfusion h
              | [a], _, h, _ => exact Option.noConfusion h
              | [a, b], _, h, _ => exact Option.noConfusion h
              | [a, b, c2], _, h, _ => exact Option.noConfusion h
              | a :: b :: c2 :: d :: r3, hl, h, hag =>
                cases hh : hex4 a b c2 d with
                | none => simp only [hh] at h; exact Option.noConfusion h
                | some n =>
                  simp only [hh] at h
                  by_cases hg2 : n < 0xd800 ∨ (0xe000 ≤ n ∧ n < 0x110000)
                  · rw [if_pos hg2] at h
                    cases hrec : scanStrL r3 (Char.ofNat n :: acc) with
                    | none => simp only [hrec] at h; exact Option.noConfusion h
                    | some sk =>
                      obtain ⟨s3, k⟩ := sk
                      simp only [hrec] at h
                      injection h with h
                      injection h with hs hc
                      subst hs
                      subst hc
                      obtain ⟨t1, rfl⟩ := getElem0_cons l2 '\\'
                        (by rw [hag 0 (by omega)]; simp)
                      obtain ⟨t2, rfl⟩ := getElem0_cons t1 'u'
                        (by have := hag 1 (by omega); simpa using this)
                      obtain ⟨t3, rfl⟩ := getElem0_cons t2 a
                        (by have := hag 2 (by omega); simpa using this)
                      obtain ⟨t4, rfl⟩ := getElem0_cons t3 b
                        (by have := hag 3 (by omega); simpa using this)
                      obtain ⟨t5, rfl⟩ := getElem0_cons t4 c2
                        (by have := hag 4 (by omega); simpa using this)
                      obtain ⟨t6, rfl⟩ := getElem0_cons t5 d
                        (by have := hag 5 (by omega); simpa using this)
                      have hag6 : ∀ p, p < k → t6[p]? = r3[p]? := by
                        intro p hp
                        have := hag (p + 6) (by omega)
                        simpa using this
                      have hlr : r3.length ≤ L := by
                        simp only [List.length_cons] at hl
                        omega
                      have hrec2 := ih r3 hlr (Char.ofNat n :: acc) s3 k hrec t6 hag6
                      rw [scanStrL_cons_u]
                      simp only [hh]
                      rw [if_pos hg2]
                      simp only [hrec2]
                  · rw [if_neg hg2] at h
                    exact Option.noConfusion h
            · rw [if_neg h3] at h
              cases hesc : escChar e with
              | none => simp only [hesc] at h; exact Option.noConfusion h
              | some ch2 =>
                simp only [hesc] at h
                cases hrec : scanStrL r2 (ch2 :: acc) with
                | none => simp only [hrec] at h; exact Option.noConfusion h
                | some sk =>
                  obtain ⟨s3, k⟩ := sk
                  simp only [hrec] at h
                  injection h with h
                  injection h with hs hc
                  subst hs
                  subst hc
                  obtain ⟨t1, rfl⟩ := getElem0_cons l2 '\\'
                    (by rw [hag 0 (by omega)]; simp)
                  obtain ⟨t2, rfl⟩ := getElem0_cons t1 e
                    (by have := hag 1 (by omega); simpa using this)
                  have hag2 : ∀ p, p < k → t2[p]? = r2[p]? := by
                    intro p hp
                    have := hag (p + 2) (by omega)
                    simpa using this
                  have hrec2 := ih r2 (by simp only [List.length_cons] at hl; omega)
                    (ch2 :: acc) s3 k hrec t2 hag2
                  rw [scanStrL_esc e ch2 t2 acc h3 hesc]
                  simp only [hrec2]
        · rw [if_neg h2] at h
          by_cases h4 : ch.toNat < 32
          · rw [if_pos h4] at h
            exact Option.noConfusion h
          · rw [if_neg h4] at h
            cases hrec : scanStrL r (ch :: acc) with
            | none => simp only [hrec] at h; exact Option.noConfusion h
            | some sk =>
              obtain ⟨s3, k⟩ := sk
              simp only [hrec] at h
              injection h with h
              injection h with hs hc
              subst hs
              subst hc
              obtain ⟨t1, rfl⟩ := getElem0_cons l2 ch
                (by rw [hag 0 (by omega)]; simp)
              have hag1 : ∀ p, p < k → t1[p]? = r[p]? := by
                intro p hp
                have := hag (p + 1) (by omega)
                simpa using this
              have hrec2 := ih r (by simp only [List.length_cons] at hl; omega)
                (ch :: acc) s3 k hrec t1 hag1
              rw [scanStrL_cons_other ch t1 acc h1 h2 h4]
              simp only [hrec2]

theorem takeWhile_spec_elem (P : Char → Bool) : ∀ (l : List Char) (p : Nat),
    p < (l.takeWhile P).length → ∃ c, l[p]? = some c ∧ P c = true := by
  intro l
  induction l with
  | nil => intro p h; simp at h
  | cons c r ih =>
    intro p h
    rw [List.takeWhile_cons] at h
    by_cases hc : P c = true
    · rw [if_pos hc] at h
      simp only [List.length_cons] at h
      cases p with
      | zero => exact ⟨c, by simp, hc⟩
      | succ q =>
        obtain ⟨c2, h1, h2⟩ := ih q (by omega)
        exact ⟨c2, by simpa using h1, h2⟩
    · rw [if_neg hc] at h
      simp at h

theorem takeWhile_spec_stop (P : Char → Bool) : ∀ (l : List Char) (c : Char),
    l[(l.takeWhile P).length]? = some c → P c = false := by
  intro l
  induction l with
  | nil => intro c h; simp at h
  | cons c0 r ih =>
    intro c h
    rw [List.takeWhile_cons] at h
    by_cases hc : P c0 = true
    · rw [if_pos hc] at h
      simp only [List.length_cons, List.getElem?_cons_succ] at h
      exact ih c h
    · rw [if_neg hc] at h
      simp only [List.length_nil, List.getElem?_cons_zero] at h
      injection h with h
      subst h
      simpa using hc

theorem takeWhile_eq_of (P : Char → Bool) : ∀ (l : List Char) (n : Nat),
    (∀ p, p < n → ∃ c, l[p]? = some c ∧ P c = true) →
    (l[n]? = none ∨ ∃ c, l[n]? = some c ∧ P c = false) →
    l.takeWhile P = l.take n := by
  intro l
  induction l with
  | nil => intro n _ _; simp
  | cons c0 r ih =>
    intro n h1 h2
    cases n with
    | zero =>
      rcases h2 with h2 | ⟨c, hc, hP⟩
      · simp at h2
      · simp only [List.getElem?_cons_zero] at hc
        injection hc with hc
        subst hc
        rw [List.takeWhile_cons, if_neg (by simp [hP])]
        simp
    | succ m =>
      obtain ⟨c, hc, hP⟩ := h1 0 (by omega)
      simp only [List.getElem?_cons_zero] at hc
      injection hc with hc
      subst hc
      rw [List.takeWhile_cons, if_pos hP]
      rw [show (c0 :: r).take (m + 1) = c0 :: r.take m from rfl]
      congr 1
      apply ih m
      · intro p hp
        have := h1 (p + 1) (by omega)
        simpa using this
      · rcases h2 with h2 | ⟨c2, hc2, hP2⟩
        · left; simpa using h2
        · right; exact ⟨c2, by simpa using hc2, hP2⟩

theorem scanNatL_pos (l : List Char) (v c : Nat) (h : scanNatL l = some (v, c)) :
    1 ≤ c := by
  unfold scanNatL at h
  match l, h with
  | c0 :: r, h =>
    simp only [] at h
    by_cases h0 : c0 = '0'
    · rw [if_pos h0] at h
      injection h with h
      injection h with h1 h2
      omega
    · rw [if_neg h0] at h
      by_cases hd : isDigitC c0 = true
      · rw [if_pos hd] at h
        injection h with h
        injection h with h1 h2
        rw [List.takeWhile_cons, if_pos hd] at h2
        simp only [List.length_cons] at h2
        omega
      · rw [if_neg hd] at h
        exact Option.noConfusion h

theorem scanNatL_transport (l l2 : List Char) (v c : Nat)
    (h : scanNatL l = some (v, c))
    (hag : ∀ p, p < c → l2[p]? = l[p]?)
    (hend : l2[c]? = l[c]? ∨ nonDigitOpt l2[c]? = true) :
    scanNatL l2 = some (v, c) := by
  have hc1 : 1 ≤ c := scanNatL_pos l v c h
  unfold scanNatL at h
  match l, h, hag, hend with
  | c0 :: r, h, hag, hend =>
    simp only [] at h
    obtain ⟨t, rfl⟩ := getElem0_cons l2 c0 (by rw [hag 0 (by omega)]; simp)
    by_cases h0 : c0 = '0'
    · rw [if_pos h0] at h
      injection h with h
      injection h with h1 h2
      subst h1
      subst h2
      unfold scanNatL
      simp only []
      rw [if_pos h0]
    · rw [if_neg h0] at h
      by_cases hd : isDigitC c0 = true
      · rw [if_pos hd] at h
        injection h with h
        injection h with h1 h2
        subst h1
        subst h2
        have hstopR : (c0 :: r)[((c0 :: r).takeWhile isDigitC).length]? = none ∨
            ∃ c2, (c0 :: r)[((c0 :: r).takeWhile isDigitC).length]? = some c2 ∧
              isDigitC c2 = false := by
          cases hstop : (c0 :: r)[((c0 :: r).takeWhile isDigitC).length]? with
          | none => left; rfl
          | some c2 =>
            right
            exact ⟨c2, rfl, takeWhile_spec_stop isDigitC (c0 :: r) c2 hstop⟩
        have hendT : (c0 :: t)[((c0 :: r).takeWhile isDigitC).length]? = none ∨
            ∃ c2, (c0 :: t)[((c0 :: r).takeWhile isDigitC).length]? = some c2 ∧
              isDigitC c2 = false := by
          rcases hend with hend | hend
          · rw [hend]
            exact hstopR
          · cases hstop : (c0 :: t)[((c0 :: r).takeWhile isDigitC).length]? with
            | none => left; rfl
            | some c2 =>
              right
              refine ⟨c2, rfl, ?_⟩
              rw [hstop] at hend
              unfold nonDigitOpt at hend
              simpa using hend
        have hL : (c0 :: r).takeWhile isDigitC
            = (c0 :: r).take ((c0 :: r).takeWhile isDigitC).length :=
          takeWhile_eq_of isDigitC (c0 :: r) _
            (fun p hp => takeWhile_spec_elem isDigitC (c0 :: r) p hp) hstopR
        have hT : (c0 :: t).takeWhile isDigitC
            = (c0 :: t).take ((c0 :: r).takeWhile isDigitC).length := by
          apply takeWhile_eq_of isDigitC (c0 :: t)
          · intro p hp
            obtain ⟨c2, hc2, hP⟩ := takeWhile_spec_elem isDigitC (c0 :: r) p hp
            exact ⟨c2, by rw [hag p hp]; exact hc2, hP⟩
          · exact hendT
        have htake : (c0 :: t).take ((c0 :: r).takeWhile isDigitC).length
            = (c0 :: r).take ((c0 :: r).takeWhile isDigitC).length := by
          apply List.ext_getElem?
          intro p
          rw [List.getElem?_take, List.getElem?_take]
          by_cases hp : p < ((c0 :: r).takeWhile isDigitC).length
          · rw [if_pos hp, if_pos hp]
            exact hag p hp
          · rw [if_neg hp, if_neg hp]
        have htw : (c0 :: t).takeWhile isDigitC = (c0 :: r).takeWhile isDigitC := by
          rw [hT, htake, ← hL]
        unfold scanNatL
        simp only []
        rw [if_neg h0, if_pos hd, htw]
      · rw [if_neg hd] at h
        exact Option.noConfusion h

theorem scanNumL_transport (l l2 : List Char) (v : Int) (c : Nat)
    (h : scanNumL l = some (v, c))
    (hag : ∀ p, p < c → l2[p]? = l[p]?)
    (hend : l2[c]? = l[c]? ∨ nonDigitOpt l2[c]? = true) :
    scanNumL l2 = some (v, c) := by
  unfold scanNumL at h
  match l, h, hag, hend with
  | c0 :: r, h, hag, hend =>
    simp only [] at h
    by_cases hm : c0 = '-'
    · rw [if_pos hm] at h
      cases hs : scanNatL r with
      | none => rw [hs] at h; exact Option.noConfusion h
      | some vk =>
        obtain ⟨v0, k⟩ := vk
        rw [hs] at h
        injection h with h
        injection h with h1 h2
        subst h1
        subst h2
        obtain ⟨t, rfl⟩ := getElem0_cons l2 c0 (by rw [hag 0 (by omega)]; simp)
        have hag2 : ∀ p, p < k → t[p]? = r[p]? := by
          intro p hp
          have := hag (p + 1) (by omega)
          simpa using this
        have hend2 : t[k]? = r[k]? ∨ nonDigitOpt t[k]? = true := by
          rcases hend with hend | hend
          · left; simpa using hend
          · right; simpa using hend
        have := scanNatL_transport r t v0 k hs hag2 hend2
        unfold scanNumL
        simp only []
        rw [if_pos hm, this]
    · rw [if_neg hm] at h
      cases hs : scanNatL (c0 :: r) with
      | none => rw [hs] at h; exact Option.noConfusion h
      | some vk =>
        obtain ⟨v0, k⟩ := vk
        rw [hs] at h
        injection h with h
        injection h with h1 h2
        subst h1
        subst h2
        obtain ⟨t, rfl⟩ := getElem0_cons l2 c0
          (by rw [hag 0 (by have := scanNatL_pos _ _ _ hs; omega)]; simp)
        have := scanNatL_transport (c0 :: r) (c0 :: t) v0 k hs hag hend
        unfold scanNumL
        simp only []
        rw [if_neg hm, this]

theorem scanNumL_pos (l : List Char) (v : Int) (c : Nat)
    (h : scanNumL l = some (v, c)) : 1 ≤ c := by
  unfold scanNumL at h
  match l, h with
  | c0 :: r, h =>
    simp only [] at h
    by_cases hm : c0 = '-'
    · rw [if_pos hm] at h
      cases hs : scanNatL r with
      | none => rw [hs] at h; exact Option.noConfusion h
      | some vk =>
        obtain ⟨v0, k⟩ := vk
        rw [hs] at h
        injection h with h
        injection h with h1 h2
        omega
    · rw [if_neg hm] at h
      cases hs : scanNatL (c0 :: r) with
      | none => rw [hs] at h; exact Option.noConfusion h
      | some vk =>
        obtain ⟨v0, k⟩ := vk
        rw [hs] at h
        injection h with h
        injection h with h1 h2
        have := scanNatL_pos (c0 :: r) v0 k hs
        omega

/-- A parsed value always has a nonempty span. -/
theorem parseV_len_pos (fuel : Nat) (cs : List Char) (i : Nat) (n : Node)
    (k : Nat) (h : parseV fuel cs i = some (n, k)) : 0 < n.len := by
  match fuel with
  | 0 => exact Option.noConfusion h
  | fuel + 1 =>
    unfold parseV at h
    simp only [] at h
    cases hc : cs[skipWs cs i]? with
    | none => simp only [hc] at h; exact Option.noConfusion h
    | some c =>
      simp only [hc] at h
      by_cases h1 : c = '{'
      · rw [if_pos h1] at h
        by_cases h2 : cs[skipWs cs (skipWs cs i + 1)]? = some '}'
        · rw [if_pos h2] at h
          injection h with h
          injection h with hn hk
          subst hn
          have hg := skipWs_ge cs (skipWs cs i + 1)
          show 0 < skipWs cs (skipWs cs i + 1) + 1 - skipWs cs i
          omega
        · rw [if_neg h2] at h
          cases hm : parseMems fuel cs (skipWs cs i + 1) with
          | none => simp only [hm] at h; exact Option.noConfusion h
          | some pk =>
            obtain ⟨props, k2⟩ := pk
            simp only [hm] at h
            injection h with h
            injection h with hn hk
            subst hn
            obtain ⟨_, hlt, _⟩ := (parse_spans fuel).2.1 cs (skipWs cs i + 1) props k2 hm
            have hg := skipWs_ge cs (skipWs cs i + 1)
            show 0 < k2 - skipWs cs i
            omega
      · rw [if_neg h1] at h
        by_cases h3 : c = '['
        · rw [if_pos h3] at h
          by_cases h2 : cs[skipWs cs (skipWs cs i + 1)]? = some ']'
          · rw [if_pos h2] at h
            injection h with h
            injection h with hn hk
            subst hn
            have hg := skipWs_ge cs (skipWs cs i + 1)
            show 0 < skipWs cs (skipWs cs i + 1) + 1 - skipWs cs i
            omega
          · rw [if_neg h2] at h
            cases hm : parseElemsV fuel cs (skipWs cs i + 1) with
            | none => simp only [hm] at h; exact Option.noConfusion h
            | some pk =>
              obtain ⟨es, k2⟩ := pk
              simp only [hm] at h
              injection h with h
              injection h with hn hk
              subst hn
              obtain ⟨_, hlt, _⟩ := (parse_spans fuel).2.2 cs (skipWs cs i + 1) es k2 hm
              have hg := skipWs_ge cs (skipWs cs i + 1)
              show 0 < k2 - skipWs cs i
              omega
        · rw [if_neg h3] at h
          by_cases h4 : c = '"'
          · rw [if_pos h4] at h
            cases hs : scanStrL (List.drop (skipWs cs i + 1) cs) [] with
            | none => simp only [hs] at h; exact Option.noConfusion h
            | some sk =>
              obtain ⟨s, c2⟩ := sk
              simp only [hs] at h
              injection h with h
              injection h with hn hk
              subst hn
              show 0 < c2 + 1
              omega
          · rw [if_neg h4] at h
            by_cases h5 : c = 't'
            · rw [if_pos h5] at h
              cases h6 : litAt cs (skipWs cs i) ['t', 'r', 'u', 'e'] with
              | false => simp only [h6] at h; exact Option.noConfusion h
              | true =>
                simp only [h6] at h
                injection h with h
                injection h with hn hk
                subst hn
                show 0 < 4
                omega
            · rw [if_neg h5] at h
              by_cases h7 : c = 'f'
              · rw [if_pos h7] at h
                cases h6 : litAt cs (skipWs cs i) ['f', 'a', 'l', 's', 'e'] with
                | false => simp only [h6] at h; exact Option.noConfusion h
                | true =>
                  simp only [h6] at h
                  injection h with h
                  injection h with hn hk
                  subst hn
                  show 0 < 5
                  omega
              · rw [if_neg h7] at h
                by_cases h8 : c = 'n'
                · rw [if_pos h8] at h
                  cases h6 : litAt cs (skipWs cs i) ['n', 'u', 'l', 'l'] with
                  | false => simp only [h6] at h; exact Option.noConfusion h
                  | true =>
                    simp only [h6] at h
                    injection h with h
                    injection h with hn hk
                    subst hn
                    show 0 < 4
                    omega
                · rw [if_neg h8] at h
                  by_cases h9 : c = '-' ∨ isDigitC c = true
                  · rw [if_pos h9] at h
                    cases hs : scanNumL (List.drop (skipWs cs i) cs) with
                    | none => simp only [hs] at h; exact Option.noConfusion h
                    | some vk =>
                      obtain ⟨v, c2⟩ := vk
                      simp only [hs] at h
                      injection h with h
                      injection h with hn hk
                      subst hn
                      have := scanNumL_pos _ v c2 hs
                      show 0 < c2
                      omega
                  · rw [if_neg h9] at h
                    exact Option.noConfusion h


/-- Parsing is local: a successful parse transports to any text that agrees
with the original on the parsed window (shifted by a constant), with the sole
lookahead caveat that a number ending exactly at the window's end must be
followed by a non-digit in the new text. -/
theorem parse_transport (cs cs2 : List Char) (i i2 K : Nat)
    (hag : ∀ p, i ≤ p → p < K → cs2[p - i + i2]? = cs[p]?) :
    ∀ fuel : Nat,
    (∀ (i' : Nat) (n : Node) (k : Nat), i ≤ i' → k ≤ K →
      parseV fuel cs i' = some (n, k) →
      (∀ o l v, n = Node.nnum o l v → k = K →
        nonDigitOpt cs2[k - i + i2]? = true) →
      parseV fuel cs2 (i' - i + i2) = some (shiftNode i i2 n, k - i + i2)) ∧
    (∀ (i' : Nat) (props : List Node) (k : Nat), i ≤ i' → k ≤ K →
      parseMems fuel cs i' = some (props, k) →
      parseMems fuel cs2 (i' - i + i2)
        = some (shiftList i i2 props, k - i + i2)) ∧
    (∀ (i' : Nat) (es : List Node) (k : Nat), i ≤ i' → k ≤ K →
      parseElemsV fuel cs i' = some (es, k) →
      parseElemsV fuel cs2 (i' - i + i2)
        = some (shiftList i i2 es, k - i + i2)) := by
  intro fuel
  induction fuel with
  | zero =>
    exact ⟨fun i' n k _ _ h _ => Option.noConfusion h,
      fun i' ps k _ _ h => Option.noConfusion h,
      fun i' es k _ _ h => Option.noConfusion h⟩
  | succ fuel ih =>
    obtain ⟨ihV, ihM, ihE⟩ := ih
    refine ⟨?_, ?_, ?_⟩
    · intro i' n k hi' hkK h hnum
      obtain ⟨hoff, hend, _⟩ := (parse_spans (fuel + 1)).1 cs i' n k h
      have hlenp := parseV_len_pos (fuel + 1) cs i' n k h
      have hjk : skipWs cs i' < k := by omega
      have hj := skipWs_ge cs i'
      have hskip2 : skipWs cs2 (i' - i + i2) = skipWs cs i' - i + i2 := by
        have ht := skipWs_transport cs cs2 i' (i' - i + i2) (skipWs cs i') rfl
          (fun p hp1 hp2 => by
            rw [show p - i' + (i' - i + i2) = p - i + i2 from by omega]
            exact hag p (by omega) (by omega))
        rw [show skipWs cs i' - i' + (i' - i + i2)
            = skipWs cs i' - i + i2 from by omega] at ht
        exact ht
      unfold parseV at h
      simp only [] at h
      cases hc : cs[skipWs cs i']? with
      | none => simp only [hc] at h; exact Option.noConfusion h
      | some c =>
        simp only [hc] at h
        have hcs2 : cs2[skipWs cs i' - i + i2]? = some c := by
          have := hag (skipWs cs i') (by omega) (by omega)
          rw [hc] at this
          exact this
        unfold parseV
        simp only []
        rw [hskip2]
        simp only [hcs2]
        by_cases h1 : c = '{'
        · rw [if_pos h1] at h
          rw [if_pos h1]
          by_cases h2 : cs[skipWs cs (skipWs cs i' + 1)]? = some '}'
          · rw [if_pos h2] at h
            injection h with h
            injection h with hn hk
            subst hn
            subst hk
            have hg2 := skipWs_ge cs (skipWs cs i' + 1)
            have hskip3 : skipWs cs2 (skipWs cs i' - i + i2 + 1)
                = skipWs cs (skipWs cs i' + 1) - i + i2 := by
              have ht := skipWs_transport cs cs2 (skipWs cs i' + 1)
                (skipWs cs i' - i + i2 + 1) (skipWs cs (skipWs cs i' + 1)) rfl
                (fun p hp1 hp2 => by
                  rw [show p - (skipWs cs i' + 1) + (skipWs cs i' - i + i2 + 1)
                      = p - i + i2 from by omega]
                  exact hag p (by omega) (by omega))
              rw [show skipWs cs (skipWs cs i' + 1) - (skipWs cs i' + 1)
                  + (skipWs cs i' - i + i2 + 1)
                  = skipWs cs (skipWs cs i' + 1) - i + i2 from by omega] at ht
              exact ht
            have hc3 : cs2[skipWs cs (skipWs cs i' + 1) - i + i2]? = some '}' := by
              have := hag (skipWs cs (skipWs cs i' + 1)) (by omega) (by omega)
              rw [h2] at this
              exact this
            rw [hskip3]
            rw [if_pos hc3]
            rw [show shiftNode i i2
                (Node.nobj (skipWs cs i')
                  (skipWs cs (skipWs cs i' + 1) + 1 - skipWs cs i') [])
                = Node.nobj (skipWs cs i' - i + i2)
                  (skipWs cs (skipWs cs i' + 1) + 1 - skipWs cs i') [] from rfl]
            rw [show skipWs cs (skipWs cs i' + 1) - i + i2 + 1
                - (skipWs cs i' - i + i2)
                = skipWs cs (skipWs cs i' + 1) + 1 - skipWs cs i' from by omega]
            rw [show skipWs cs (skipWs cs i' + 1) - i + i2 + 1
                = skipWs cs (skipWs cs i' + 1) + 1 - i + i2 from by omega]
          · rw [if_neg h2] at h
            cases hm : parseMems fuel cs (skipWs cs i' + 1) with
            | none => simp only [hm] at h; exact Option.noConfusion h
            | some pk =>
              obtain ⟨props, k2⟩ := pk
              simp only [hm] at h
              injection h with h
              injection h with hn hk
              subst hn
              subst hk
              obtain ⟨_, hltm, _⟩ :=
                (parse_spans fuel).2.1 cs (skipWs cs i' + 1) props k2 hm
              have hg2 := skipWs_ge cs (skipWs cs i' + 1)
              have hskip3 : skipWs cs2 (skipWs cs i' - i + i2 + 1)
                  = skipWs cs (skipWs cs i' + 1) - i + i2 := by
                have ht := skipWs_transport cs cs2 (skipWs cs i' + 1)
                  (skipWs cs i' - i + i2 + 1) (skipWs cs (skipWs cs i' + 1)) rfl
                  (fun p hp1 hp2 => by
                    rw [show p - (skipWs cs i' + 1) + (skipWs cs i' - i + i2 + 1)
                        = p - i + i2 from by omega]
                    exact hag p (by omega) (by omega))
                rw [show skipWs cs (skipWs cs i' + 1) - (skipWs cs i' + 1)
                    + (skipWs cs i' - i + i2 + 1)
                    = skipWs cs (skipWs cs i' + 1) - i + i2 from by omega] at ht
                exact ht
              have hc3 : cs2[skipWs cs (skipWs cs i' + 1) - i + i2]?
                  = cs[skipWs cs (skipWs cs i' + 1)]? :=
                hag (skipWs cs (skipWs cs i' + 1)) (by omega) (by omega)
              rw [hskip3]
              rw [hc3]
              rw [if_neg h2]
              have hrec := ihM (skipWs cs i' + 1) props k2 (by omega) (by omega) hm
              rw [show skipWs cs i' + 1 - i + i2
                  = skipWs cs i' - i + i2 + 1 from by omega] at hrec
              simp only [hrec]
              rw [show shiftNode i i2
                  (Node.nobj (skipWs cs i') (k2 - skipWs cs i') props)
                  = Node.nobj (skipWs cs i' - i + i2) (k2 - skipWs cs i')
                    (shiftList i i2 props) from rfl]
              rw [show k2 - i + i2 - (skipWs cs i' - i + i2)
                  = k2 - skipWs cs i' from by omega]
        · rw [if_neg h1] at h
          rw [if_neg h1]
          by_cases h3 : c = '['
          · rw [if_pos h3] at h
            rw [if_pos h3]
            by_cases h2 : cs[skipWs cs (skipWs cs i' + 1)]? = some ']'
            · rw [if_pos h2] at h
              injection h with h
              injection h with hn hk
              subst hn
              subst hk
              have hg2 := skipWs_ge cs (skipWs cs i' + 1)
              have hskip3 : skipWs cs2 (skipWs cs i' - i + i2 + 1)
                  = skipWs cs (skipWs cs i' + 1) - i + i2 := by
                have ht := skipWs_transport cs cs2 (skipWs cs i' + 1)
                  (skipWs cs i' - i + i2 + 1) (skipWs cs (skipWs cs i' + 1)) rfl
                  (fun p hp1 hp2 => by
                    rw [show p - (skipWs cs i' + 1) + (skipWs cs i' - i + i2 + 1)
                        = p - i + i2 from by omega]
                    exact hag p (by omega) (by omega))
                rw [show skipWs cs (skipWs cs i' + 1) - (skipWs cs i' + 1)
                    + (skipWs cs i' - i + i2 + 1)
                    = skipWs cs (skipWs cs i' + 1) - i + i2 from by omega] at ht
                exact ht
              have hc3 : cs2[skipWs cs (skipWs cs i' + 1) - i + i2]?
                  = some ']' := by
                have := hag (skipWs cs (skipWs cs i' + 1)) (by omega) (by omega)
                rw [h2] at this
                exact this
              rw [hskip3]
              rw [if_pos hc3]
              rw [show shiftNode i i2
                  (Node.narr (skipWs cs i')
                    (skipWs cs (skipWs cs i' + 1) + 1 - skipWs cs i') [])
                  = Node.narr (skipWs cs i' - i + i2)
                    (skipWs cs (skipWs cs i' + 1) + 1 - skipWs cs i') [] from rfl]
              rw [show skipWs cs (skipWs cs i' + 1) - i + i2 + 1
                  - (skipWs cs i' - i + i2)
                  = skipWs cs (skipWs cs i' + 1) + 1 - skipWs cs i' from by omega]
              rw [show skipWs cs (skipWs cs i' + 1) - i + i2 + 1
                  = skipWs cs (skipWs cs i' + 1) + 1 - i + i2 from by omega]
            · rw [if_neg h2] at h
              cases hm : parseElemsV fuel cs (skipWs cs i' + 1) with
              | none => simp only [hm] at h; exact Option.noConfusion h
              | some pk =>
                obtain ⟨es, k2⟩ := pk
                simp only [hm] at h
                injection h with h
                injection h with hn hk
                subst hn
                subst hk
                obtain ⟨_, hltm, _⟩ :=
                  (parse_spans fuel).2.2 cs (skipWs cs i' + 1) es k2 hm
                have hg2 := skipWs_ge cs (skipWs cs i' + 1)
                have hskip3 : skipWs cs2 (skipWs cs i' - i + i2 + 1)
                    = skipWs cs (skipWs cs i' + 1) - i + i2 := by
                  have ht := skipWs_transport cs cs2 (skipWs cs i' + 1)
                    (skipWs cs i' - i + i2 + 1) (skipWs cs (skipWs cs i' + 1)) rfl
                    (fun p hp1 hp2 => by
                      rw [show p - (skipWs cs i' + 1) + (skipWs cs i' - i + i2 + 1)
                          = p - i + i2 from by omega]
                      exact hag p (by omega) (by omega))
                  rw [show skipWs cs (skipWs cs i' + 1) - (skipWs cs i' + 1)
                      + (skipWs cs i' - i + i2 + 1)
                      = skipWs cs (skipWs cs i' + 1) - i + i2 from by omega] at ht
                  exact ht
                have hc3 : cs2[skipWs cs (skipWs cs i' + 1) - i + i2]?
                    = cs[skipWs cs (skipWs cs i' + 1)]? :=
                  hag (skipWs cs (skipWs cs i' + 1)) (by omega) (by omega)
                rw [hskip3]
                rw [hc3]
                rw [if_neg h2]
                have hrec := ihE (skipWs cs i' + 1) es k2 (by omega) (by omega) hm
                rw [show skipWs cs i' + 1 - i + i2
                    = skipWs cs i' - i + i2 + 1 from by omega] at hrec
                simp only [hrec]
                rw [show shiftNode i i2
                    (Node.narr (skipWs cs i') (k2 - skipWs cs i') es)
                    = Node.narr (skipWs cs i' - i + i2) (k2 - skipWs cs i')
                      (shiftList i i2 es) from rfl]
                rw [show k2 - i + i2 - (skipWs cs i' - i + i2)
                    = k2 - skipWs cs i' from by omega]
          · rw [if_neg h3] at h
            rw [if_neg h3]
            by_cases h4 : c = '"'
            · rw [if_pos h4] at h
              rw [if_pos h4]
              cases hs : scanStrL (List.drop (skipWs cs i' + 1) cs) [] with
              | none => simp only [hs] at h; exact Option.noConfusion h
              | some sk =>
                obtain ⟨s, c2⟩ := sk
                simp only [hs] at h
                injection h with h
                injection h with hn hk
                subst hn
                subst hk
                have hs2 := scanStrL_transport
                  (List.drop (skipWs cs i' + 1) cs).length
                  (List.drop (skipWs cs i' + 1) cs) le_rfl [] s c2 hs
                  (List.drop (skipWs cs i' - i + i2 + 1) cs2)
                  (fun p hp => by
                    rw [List.getElem?_drop, List.getElem?_drop]
                    rw [show skipWs cs i' - i + i2 + 1 + p
                        = (skipWs cs i' + 1 + p) - i + i2 from by omega]
                    exact hag (skipWs cs i' + 1 + p) (by omega) (by omega))
                simp only [hs2]
                rw [show shiftNode i i2 (Node.nstr (skipWs cs i') (c2 + 1) s)
                    = Node.nstr (skipWs cs i' - i + i2) (c2 + 1) s from rfl]
                rw [show skipWs cs i' - i + i2 + 1 + c2
                    = (skipWs cs i' + 1 + c2) - i + i2 from by omega]
            · rw [if_neg h4] at h
              rw [if_neg h4]
              by_cases h5 : c = 't'
              · rw [if_pos h5] at h
                rw [if_pos h5]
                cases h6 : litAt cs (skipWs cs i') ['t', 'r', 'u', 'e'] with
                | false => simp only [h6] at h; exact Option.noConfusion h
                | true =>
                  simp only [h6] at h
                  injection h with h
                  injection h with hn hk
                  subst hn
                  subst hk
                  have h7 : litAt cs2 (skipWs cs i' - i + i2)
                      ['t', 'r', 'u', 'e'] = true := by
                    apply litAt_intro
                    intro p hp
                    rw [show skipWs cs i' - i + i2 + p
                        = (skipWs cs i' + p) - i + i2 from by omega]
                    rw [hag (skipWs cs i' + p) (by omega)
                      (by simp at hp; omega)]
                    exact litAt_elem cs (skipWs cs i') _ h6 p hp
                  rw [if_pos h7]
                  rw [show shiftNode i i2 (Node.nbool (skipWs cs i') 4 true)
                      = Node.nbool (skipWs cs i' - i + i2) 4 true from rfl]
                  rw [show skipWs cs i' - i + i2 + 4
                      = (skipWs cs i' + 4) - i + i2 from by omega]
              · rw [if_neg h5] at h
                rw [if_neg h5]
                by_cases h7 : c = 'f'
                · rw [if_pos h7] at h
                  rw [if_pos h7]
                  cases h6 : litAt cs (skipWs cs i') ['f', 'a', 'l', 's', 'e'] with
                  | false => simp only [h6] at h; exact Option.noConfusion h
                  | true =>
                    simp only [h6] at h
                    injection h with h
                    injection h with hn hk
                    subst hn
                    subst hk
                    have h8 : litAt cs2 (skipWs cs i' - i + i2)
                        ['f', 'a', 'l', 's', 'e'] = true := by
                      apply litAt_intro
                      intro p hp
                      rw [show skipWs cs i' - i + i2 + p
                          = (skipWs cs i' + p) - i + i2 from by omega]
                      rw [hag (skipWs cs i' + p) (by omega)
                        (by simp at hp; omega)]
                      exact litAt_elem cs (skipWs cs i') _ h6 p hp
                    rw [if_pos h8]
                    rw [show shiftNode i i2 (Node.nbool (skipWs cs i') 5 false)
                        = Node.nbool (skipWs cs i' - i + i2) 5 false from rfl]
                    rw [show skipWs cs i' - i + i2 + 5
                        = (skipWs cs i' + 5) - i + i2 from by omega]
                · rw [if_neg h7] at h
                  rw [if_neg h7]
                  by_cases h8 : c = 'n'
                  · rw [if_pos h8] at h
                    rw [if_pos h8]
                    cases h6 : litAt cs (skipWs cs i') ['n', 'u', 'l', 'l'] with
                    | false => simp only [h6] at h; exact Option.noConfusion h
                    | true =>
                      simp only [h6] at h
                      injection h with h
                      injection h with hn hk
                      subst hn
                      subst hk
                      have h9 : litAt cs2 (skipWs cs i' - i + i2)
                          ['n', 'u', 'l', 'l'] = true := by
                        apply litAt_intro
                        intro p hp
                        rw [show skipWs cs i' - i + i2 + p
                            = (skipWs cs i' + p) - i + i2 from by omega]
                        rw [hag (skipWs cs i' + p) (by omega)
                          (by simp at hp; omega)]
                        exact litAt_elem cs (skipWs cs i') _ h6 p hp
                      rw [if_pos h9]
                      rw [show shiftNode i i2 (Node.nnull (skipWs cs i') 4)
                          = Node.nnull (skipWs cs i' - i + i2) 4 from rfl]
                      rw [show skipWs cs i' - i + i2 + 4
                          = (skipWs cs i' + 4) - i + i2 from by omega]
                  · rw [if_neg h8] at h
                    rw [if_neg h8]
                    by_cases h9 : c = '-' ∨ isDigitC c = true
                    · rw [if_pos h9] at h
                      rw [if_pos h9]
                      cases hs : scanNumL (List.drop (skipWs cs i') cs) with
                      | none => simp only [hs] at h; exact Option.noConfusion h
                      | some vk =>
                        obtain ⟨v, c2⟩ := vk
                        simp only [hs] at h
                        injection h with h
                        injection h with hn hk
                        subst hn
                        subst hk
                        have hs2 := scanNumL_transport
                          (List.drop (skipWs cs i') cs)
                          (List.drop (skipWs cs i' - i + i2) cs2) v c2 hs
                          (fun p hp => by
                            rw [List.getElem?_drop, List.getElem?_drop]
                            rw [show skipWs cs i' - i + i2 + p
                                = (skipWs cs i' + p) - i + i2 from by omega]
                            exact hag (skipWs cs i' + p) (by omega) (by omega))
                          (by
                            rw [List.getElem?_drop, List.getElem?_drop]
                            rcases Nat.lt_or_ge (skipWs cs i' + c2) K with hKlt | hKge
                            · left
                              rw [show skipWs cs i' - i + i2 + c2
                                  = (skipWs cs i' + c2) - i + i2 from by omega]
                              exact hag (skipWs cs i' + c2) (by omega) (by omega)
                            · right
                              have hKeq : skipWs cs i' + c2 = K := by omega
                              have h10 := hnum (skipWs cs i') c2 v rfl hKeq
                              rw [show skipWs cs i' - i + i2 + c2
                                  = (skipWs cs i' + c2) - i + i2 from by omega]
                              rw [hKeq]
                              rw [hKeq] at h10
                              exact h10)
                        simp only [hs2]
                        rw [show shiftNode i i2 (Node.nnum (skipWs cs i') c2 v)
                            = Node.nnum (skipWs cs i' - i + i2) c2 v from rfl]
                        rw [show skipWs cs i' - i + i2 + c2
                            = (skipWs cs i' + c2) - i + i2 from by omega]
                    · rw [if_neg h9] at h
                      exact Option.noConfusion h
    · intro i' props k hi' hkK h
      obtain ⟨hne0, hlt0, hseq0⟩ := (parse_spans (fuel + 1)).2.1 cs i' props k h
      have hj := skipWs_ge cs i'
      have hskip2 : skipWs cs2 (i' - i + i2) = skipWs cs i' - i + i2 := by
        have ht := skipWs_transport cs cs2 i' (i' - i + i2) (skipWs cs i') rfl
          (fun p hp1 hp2 => by
            rw [show p - i' + (i' - i + i2) = p - i + i2 from by omega]
            exact hag p (by omega) (by omega))
        rw [show skipWs cs i' - i' + (i' - i + i2)
            = skipWs cs i' - i + i2 from by omega] at ht
        exact ht
      unfold parseMems at h
      simp only [] at h
      by_cases h1 : cs[skipWs cs i']? = some '"'
      · rw [if_pos h1] at h
        cases hs : scanStrL (List.drop (skipWs cs i' + 1) cs) [] with
        | none => simp only [hs] at h; exact Option.noConfusion h
        | some sk =>
          obtain ⟨keyStr, k1⟩ := sk
          simp only [hs] at h
          by_cases h2 : cs[skipWs cs (skipWs cs i' + 1 + k1)]? = some ':'
          · rw [if_pos h2] at h
            cases hv : parseV fuel cs (skipWs cs (skipWs cs i' + 1 + k1) + 1) with
            | none => simp only [hv] at h; exact Option.noConfusion h
            | some vk =>
              obtain ⟨vn, k2⟩ := vk
              simp only [hv] at h
              obtain ⟨hvoff, hvend, _⟩ := (parse_spans fuel).1 cs
                (skipWs cs (skipWs cs i' + 1 + k1) + 1) vn k2 hv
              have hvpos := parseV_len_pos fuel cs
                (skipWs cs (skipWs cs i' + 1 + k1) + 1) vn k2 hv
              have g2 := skipWs_ge cs (skipWs cs i' + 1 + k1)
              have g3 := skipWs_ge cs (skipWs cs (skipWs cs i' + 1 + k1) + 1)
              have g4 := skipWs_ge cs k2
              have hk2k : skipWs cs k2 < k := by
                by_cases h3 : cs[skipWs cs k2]? = some ','
                · rw [if_pos h3] at h
                  cases hm : parseMems fuel cs (skipWs cs k2 + 1) with
                  | none => simp only [hm] at h; exact Option.noConfusion h
                  | some rk =>
                    obtain ⟨rest, k3⟩ := rk
                    simp only [hm] at h
                    injection h with h
                    injection h with hp hk
                    obtain ⟨_, hlt2, _⟩ :=
                      (parse_spans fuel).2.1 cs (skipWs cs k2 + 1) rest k3 hm
                    have g5 := skipWs_ge cs (skipWs cs k2 + 1)
                    omega
                · rw [if_neg h3] at h
                  by_cases h4 : cs[skipWs cs k2]? = some '}'
                  · rw [if_pos h4] at h
                    injection h with h
                    injection h with hp hk
                    omega
                  · rw [if_neg h4] at h
                    exact Option.noConfusion h
              have hcq : cs2[skipWs cs i' - i + i2]? = some '"' := by
                have := hag (skipWs cs i') (by omega) (by omega)
                rw [h1] at this
                exact this
              have hs2 := scanStrL_transport
                (List.drop (skipWs cs i' + 1) cs).length
                (List.drop (skipWs cs i' + 1) cs) le_rfl [] keyStr k1 hs
                (List.drop (skipWs cs i' - i + i2 + 1) cs2)
                (fun p hp => by
                  rw [List.getElem?_drop, List.getElem?_drop]
                  rw [show skipWs cs i' - i + i2 + 1 + p
                      = (skipWs cs i' + 1 + p) - i + i2 from by omega]
                  exact hag (skipWs cs i' + 1 + p) (by omega) (by omega))
              have hskip3 : skipWs cs2 (skipWs cs i' - i + i2 + 1 + k1)
                  = skipWs cs (skipWs cs i' + 1 + k1) - i + i2 := by
                have ht := skipWs_transport cs cs2 (skipWs cs i' + 1 + k1)
                  (skipWs cs i' - i + i2 + 1 + k1)
                  (skipWs cs (skipWs cs i' + 1 + k1)) rfl
                  (fun p hp1 hp2 => by
                    rw [show p - (skipWs cs i' + 1 + k1)
                        + (skipWs cs i' - i + i2 + 1 + k1)
                        = p - i + i2 from by omega]
                    exact hag p (by omega) (by omega))
                rw [show skipWs cs (skipWs cs i' + 1 + k1)
                    - (skipWs cs i' + 1 + k1) + (skipWs cs i' - i + i2 + 1 + k1)
                    = skipWs cs (skipWs cs i' + 1 + k1) - i + i2 from by omega] at ht
                exact ht
              have hcol : cs2[skipWs cs (skipWs cs i' + 1 + k1) - i + i2]?
                  = some ':' := by
                have := hag (skipWs cs (skipWs cs i' + 1 + k1))
                  (by omega) (by omega)
                rw [h2] at this
                exact this
              have hvrec := ihV (skipWs cs (skipWs cs i' + 1 + k1) + 1) vn k2
                (by omega) (by omega) hv
                (fun o l v _ hKeq => by omega)
              rw [show skipWs cs (skipWs cs i' + 1 + k1) + 1 - i + i2
                  = skipWs cs (skipWs cs i' + 1 + k1) - i + i2 + 1
                  from by omega] at hvrec
              have hskip4 : skipWs cs2 (k2 - i + i2) = skipWs cs k2 - i + i2 := by
                have ht := skipWs_transport cs cs2 k2 (k2 - i + i2)
                  (skipWs cs k2) rfl
                  (fun p hp1 hp2 => by
                    rw [show p - k2 + (k2 - i + i2) = p - i + i2 from by omega]
                    exact hag p (by omega) (by omega))
                rw [show skipWs cs k2 - k2 + (k2 - i + i2)
                    = skipWs cs k2 - i + i2 from by omega] at ht
                exact ht
              have hsep : cs2[skipWs cs k2 - i + i2]? = cs[skipWs cs k2]? :=
                hag (skipWs cs k2) (by omega) (by omega)
              unfold parseMems
              simp only []
              rw [hskip2]
              rw [if_pos hcq]
              simp only [hs2]
              rw [hskip3]
              rw [if_pos hcol]
              simp only [hvrec]
              rw [hskip4]
              rw [hsep]
              by_cases h3 : cs[skipWs cs k2]? = some ','
              · rw [if_pos h3] at h
                rw [if_pos h3]
                cases hm : parseMems fuel cs (skipWs cs k2 + 1) with
                | none => simp only [hm] at h; exact Option.noConfusion h
                | some rk =>
                  obtain ⟨rest, k3⟩ := rk
                  simp only [hm] at h
                  injection h with h
                  injection h with hp hk
                  subst hp
                  subst hk
                  have hrec := ihM (skipWs cs k2 + 1) rest k3
                    (by omega) (by omega) hm
                  rw [show skipWs cs k2 + 1 - i + i2
                      = skipWs cs k2 - i + i2 + 1 from by omega] at hrec
                  simp only [hrec]
                  rw [show shiftList i i2
                      (Node.nprop (skipWs cs i') (skipWs cs k2 - skipWs cs i')
                        (Node.nstr (skipWs cs i') (k1 + 1) keyStr) vn :: rest)
                      = Node.nprop (skipWs cs i' - i + i2)
                          (skipWs cs k2 - skipWs cs i')
                          (Node.nstr (skipWs cs i' - i + i2) (k1 + 1) keyStr)
                          (shiftNode i i2 vn) :: shiftList i i2 rest from rfl]
                  rw [show skipWs cs k2 - i + i2 - (skipWs cs i' - i + i2)
                      = skipWs cs k2 - skipWs cs i' from by omega]
              · rw [if_neg h3] at h
                rw [if_neg h3]
                by_cases h4 : cs[skipWs cs k2]? = some '}'
                · rw [if_pos h4] at h
                  rw [if_pos h4]
                  injection h with h
                  injection h with hp hk
                  subst hp
                  subst hk
                  rw [show shiftList i i2
                      [Node.nprop (skipWs cs i') (skipWs cs k2 - skipWs cs i')
                        (Node.nstr (skipWs cs i') (k1 + 1) keyStr) vn]
                      = [Node.nprop (skipWs cs i' - i + i2)
                          (skipWs cs k2 - skipWs cs i')
                          (Node.nstr (skipWs cs i' - i + i2) (k1 + 1) keyStr)
                          (shiftNode i i2 vn)] from rfl]
                  rw [show skipWs cs k2 - i + i2 - (skipWs cs i' - i + i2)
                      = skipWs cs k2 - skipWs cs i' from by omega]
                  rw [show skipWs cs k2 - i + i2 + 1
                      = (skipWs cs k2 + 1) - i + i2 from by omega]
                · rw [if_neg h4] at h
                  exact Option.noConfusion h
          · rw [if_neg h2] at h
            exact Option.noConfusion h
      · rw [if_neg h1] at h
        exact Option.noConfusion h
    · intro i' es k hi' hkK h
      obtain ⟨hne0, hlt0, hseq0⟩ := (parse_spans (fuel + 1)).2.2 cs i' es k h
      have hj := skipWs_ge cs i'
      unfold parseElemsV at h
      simp only [] at h
      cases hv : parseV fuel cs i' with
      | none => simp only [hv] at h; exact Option.noConfusion h
      | some vk =>
        obtain ⟨vn, k1⟩ := vk
        simp only [hv] at h
        obtain ⟨hvoff, hvend, _⟩ := (parse_spans fuel).1 cs i' vn k1 hv
        have hvpos := parseV_len_pos fuel cs i' vn k1 hv
        have g4 := skipWs_ge cs k1
        have hk1k : skipWs cs k1 < k := by
          by_cases h3 : cs[skipWs cs k1]? = some ','
          · rw [if_pos h3] at h
            cases hm : parseElemsV fuel cs (skipWs cs k1 + 1) with
            | none => simp only [hm] at h; exact Option.noConfusion h
            | some rk =>
              obtain ⟨rest, k3⟩ := rk
              simp only [hm] at h
              injection h with h
              injection h with hp hk
              obtain ⟨_, hlt2, _⟩ :=
                (parse_spans fuel).2.2 cs (skipWs cs k1 + 1) rest k3 hm
              have g5 := skipWs_ge cs (skipWs cs k1 + 1)
              omega
          · rw [if_neg h3] at h
            by_cases h4 : cs[skipWs cs k1]? = some ']'
            · rw [if_pos h4] at h
              injection h with h
              injection h with hp hk
              omega
            · rw [if_neg h4] at h
              exact Option.noConfusion h
        have hvrec := ihV i' vn k1 (by omega) (by omega) hv
          (fun o l v _ hKeq => by omega)
        have hskip4 : skipWs cs2 (k1 - i + i2) = skipWs cs k1 - i + i2 := by
          have ht := skipWs_transport cs cs2 k1 (k1 - i + i2)
            (skipWs cs k1) rfl
            (fun p hp1 hp2 => by
              rw [show p - k1 + (k1 - i + i2) = p - i + i2 from by omega]
              exact hag p (by omega) (by omega))
          rw [show skipWs cs k1 - k1 + (k1 - i + i2)
              = skipWs cs k1 - i + i2 from by omega] at ht
          exact ht
        have hsep : cs2[skipWs cs k1 - i + i2]? = cs[skipWs cs k1]? :=
          hag (skipWs cs k1) (by omega) (by omega)
        unfold parseElemsV
        simp only []
        simp only [hvrec]
        rw [hskip4]
        rw [hsep]
        by_cases h3 : cs[skipWs cs k1]? = some ','
        · rw [if_pos h3] at h
          rw [if_pos h3]
          cases hm : parseElemsV fuel cs (skipWs cs k1 + 1) with
          | none => simp only [hm] at h; exact Option.noConfusion h
          | some rk =>
            obtain ⟨rest, k3⟩ := rk
            simp only [hm] at h
            injection h with h
            injection h with hp hk
            subst hp
            subst hk
            have hrec := ihE (skipWs cs k1 + 1) rest k3 (by omega) (by omega) hm
            rw [show skipWs cs k1 + 1 - i + i2
                = skipWs cs k1 - i + i2 + 1 from by omega] at hrec
            simp only [hrec]
            rw [show shiftList i i2 (vn :: rest)
                = shiftNode i i2 vn :: shiftList i i2 rest from rfl]
        · rw [if_neg h3] at h
          rw [if_neg h3]
          by_cases h4 : cs[skipWs cs k1]? = some ']'
          · rw [if_pos h4] at h
            rw [if_pos h4]
            injection h with h
            injection h with hp hk
            subst hp
            subst hk
            rw [show shiftList i i2 [vn] = [shiftNode i i2 vn] from rfl]
            rw [show skipWs cs k1 - i + i2 + 1
                = (skipWs cs k1 + 1) - i + i2 from by omega]
          · rw [if_neg h4] at h
            exact Option.noConfusion h

/-- Fuel is irrelevant beyond success: a parse at some fuel also succeeds at
any larger fuel, with the same result. -/
theorem parse_fuel_mono : ∀ fuel : Nat,
    (∀ (fuel2 : Nat), fuel ≤ fuel2 → ∀ (cs : List Char) (i : Nat) (n : Node)
      (k : Nat), parseV fuel cs i = some (n, k) →
      parseV fuel2 cs i = some (n, k)) ∧
    (∀ (fuel2 : Nat), fuel ≤ fuel2 → ∀ (cs : List Char) (i : Nat)
      (props : List Node) (k : Nat), parseMems fuel cs i = some (props, k) →
      parseMems fuel2 cs i = some (props, k)) ∧
    (∀ (fuel2 : Nat), fuel ≤ fuel2 → ∀ (cs : List Char) (i : Nat)
      (es : List Node) (k : Nat), parseElemsV fuel cs i = some (es, k) →
      parseElemsV fuel2 cs i = some (es, k)) := by
  intro fuel
  induction fuel with
  | zero =>
    exact ⟨fun _ _ _ _ _ _ h => Option.noConfusion h,
      fun _ _ _ _ _ _ h => Option.noConfusion h,
      fun _ _ _ _ _ _ h => Option.noConfusion h⟩
  | succ fuel ih =>
    obtain ⟨ihV, ihM, ihE⟩ := ih
    refine ⟨?_, ?_, ?_⟩
    · intro fuel2 hf cs i n k h
      match fuel2, hf with
      | fuel2 + 1, hf =>
        have hf2 : fuel ≤ fuel2 := by omega
        unfold parseV at h
        simp only [] at h
        unfold parseV
        simp only []
        cases hc : cs[skipWs cs i]? with
        | none => simp only [hc] at h; exact Option.noConfusion h
        | some c =>
          simp only [hc] at h
          simp only [hc]
          by_cases h1 : c = '{'
          · rw [if_pos h1] at h
            rw [if_pos h1]
            by_cases h2 : cs[skipWs cs (skipWs cs i + 1)]? = some '}'
            · rw [if_pos h2] at h
              rw [if_pos h2]
              exact h
            · rw [if_neg h2] at h
              rw [if_neg h2]
              cases hm : parseMems fuel cs (skipWs cs i + 1) with
              | none => simp only [hm] at h; exact Option.noConfusion h
              | some pk =>
                obtain ⟨props, k2⟩ := pk
                simp only [hm] at h
                simp only [ihM fuel2 hf2 cs (skipWs cs i + 1) props k2 hm]
                exact h
          · rw [if_neg h1] at h
            rw [if_neg h1]
            by_cases h3 : c = '['
            · rw [if_pos h3] at h
              rw [if_pos h3]
              by_cases h2 : cs[skipWs cs (skipWs cs i + 1)]? = some ']'
              · rw [if_pos h2] at h
                rw [if_pos h2]
                exact h
              · rw [if_neg h2] at h
                rw [if_neg h2]
                cases hm : parseElemsV fuel cs (skipWs cs i + 1) with
                | none => simp only [hm] at h; exact Option.noConfusion h
                | some pk =>
                  obtain ⟨es, k2⟩ := pk
                  simp only [hm] at h
                  simp only [ihE fuel2 hf2 cs (skipWs cs i + 1) es k2 hm]
                  exact h
            · rw [if_neg h3] at h
              rw [if_neg h3]
              exact h
    · intro fuel2 hf cs i props k h
      match fuel2, hf with
      | fuel2 + 1, hf =>
        have hf2 : fuel ≤ fuel2 := by omega
        unfold parseMems at h
        simp only [] at h
        unfold parseMems
        simp only []
        by_cases h1 : cs[skipWs cs i]? = some '"'
        · rw [if_pos h1] at h
          rw [if_pos h1]
          cases hs : scanStrL (List.drop (skipWs cs i + 1) cs) [] with
          | none => simp only [hs] at h; exact Option.noConfusion h
          | some sk =>
            obtain ⟨keyStr, k1⟩ := sk
            simp only [hs] at h
            simp only []
            by_cases h2 : cs[skipWs cs (skipWs cs i + 1 + k1)]? = some ':'
            · rw [if_pos h2] at h
              rw [if_pos h2]
              cases hv : parseV fuel cs (skipWs cs (skipWs cs i + 1 + k1) + 1) with
              | none => simp only [hv] at h; exact Option.noConfusion h
              | some vk =>
                obtain ⟨vn, k2⟩ := vk
                simp only [hv] at h
                simp only [ihV fuel2 hf2 cs
                  (skipWs cs (skipWs cs i + 1 + k1) + 1) vn k2 hv]
                by_cases h3 : cs[skipWs cs k2]? = some ','
                · rw [if_pos h3] at h
                  rw [if_pos h3]
                  cases hm : parseMems fuel cs (skipWs cs k2 + 1) with
                  | none => simp only [hm] at h; exact Option.noConfusion h
                  | some rk =>
                    obtain ⟨rest, k3⟩ := rk
                    simp only [hm] at h
                    simp only [ihM fuel2 hf2 cs (skipWs cs k2 + 1) rest k3 hm]
                    exact h
                · rw [if_neg h3] at h
                  rw [if_neg h3]
                  exact h
            · rw [if_neg h2] at h
              exact Option.noConfusion h
        · rw [if_neg h1] at h
          exact Option.noConfusion h
    · intro fuel2 hf cs i es k h
      match fuel2, hf with
      | fuel2 + 1, hf =>
        have hf2 : fuel ≤ fuel2 := by omega
        unfold parseElemsV at h
        simp only [] at h
        unfold parseElemsV
        simp only []
        cases hv : parseV fuel cs i with
        | none => simp only [hv] at h; exact Option.noConfusion h
        | some vk =>
          obtain ⟨vn, k1⟩ := vk
          simp only [hv] at h
          simp only [ihV fuel2 hf2 cs i vn k1 hv]
          by_cases h3 : cs[skipWs cs k1]? = some ','
          · rw [if_pos h3] at h
            rw [if_pos h3]
            cases hm : parseElemsV fuel cs (skipWs cs k1 + 1) with
            | none => simp only [hm] at h; exact Option.noConfusion h
            | some rk =>
              obtain ⟨rest, k3⟩ := rk
              simp only [hm] at h
              simp only [ihE fuel2 hf2 cs (skipWs cs k1 + 1) rest k3 hm]
              exact h
          · rw [if_neg h3] at h
            rw [if_neg h3]
            exact h


/-- Any fuel beyond the consumed width suffices: a successful parse is
reproduced at every fuel exceeding `k - i`. -/
theorem parse_fuel_suff : ∀ fuel : Nat,
    (∀ (cs : List Char) (i : Nat) (n : Node) (k : Nat),
      parseV fuel cs i = some (n, k) → ∀ fuel2, k < fuel2 + i →
      parseV fuel2 cs i = some (n, k)) ∧
    (∀ (cs : List Char) (i : Nat) (props : List Node) (k : Nat),
      parseMems fuel cs i = some (props, k) → ∀ fuel2, k < fuel2 + i →
      parseMems fuel2 cs i = some (props, k)) ∧
    (∀ (cs : List Char) (i : Nat) (es : List Node) (k : Nat),
      parseElemsV fuel cs i = some (es, k) → ∀ fuel2, k < fuel2 + i →
      parseElemsV fuel2 cs i = some (es, k)) := by
  intro fuel
  induction fuel with
  | zero =>
    exact ⟨fun _ _ _ _ h => Option.noConfusion h,
      fun _ _ _ _ h => Option.noConfusion h,
      fun _ _ _ _ h => Option.noConfusion h⟩
  | succ fuel ih =>
    obtain ⟨ihV, ihM, ihE⟩ := ih
    refine ⟨?_, ?_, ?_⟩
    · intro cs i n k h fuel2 hb
      have hj := skipWs_ge cs i
      have hlen := parseV_len_pos (fuel + 1) cs i n k h
      obtain ⟨hoff, hend, _⟩ := (parse_spans (fuel + 1)).1 cs i n k h
      have hik : i < k := by omega
      cases fuel2 with
      | zero => omega
      | succ fuel2 =>
        unfold parseV at h
        simp only [] at h
        unfold parseV
        simp only []
        cases hc : cs[skipWs cs i]? with
        | none => simp only [hc] at h; exact Option.noConfusion h
        | some c =>
          simp only [hc] at h
          simp only [hc]
          by_cases h1 : c = '{'
          · rw [if_pos h1] at h
            rw [if_pos h1]
            by_cases h2 : cs[skipWs cs (skipWs cs i + 1)]? = some '}'
            · rw [if_pos h2] at h
              rw [if_pos h2]
              exact h
            · rw [if_neg h2] at h
              rw [if_neg h2]
              cases hm : parseMems fuel cs (skipWs cs i + 1) with
              | none => simp only [hm] at h; exact Option.noConfusion h
              | some pk =>
                obtain ⟨props, k2⟩ := pk
                simp only [hm] at h
                have hk2 : k2 = k := by
                  injection h with h9
                  injection h9 with hn hk
                  try exact hk
                subst hk2
                have := ihM cs (skipWs cs i + 1) props k2 hm fuel2 (by omega)
                simp only [this]
                exact h
          · rw [if_neg h1] at h
            rw [if_neg h1]
            by_cases h3 : c = '['
            · rw [if_pos h3] at h
              rw [if_pos h3]
              by_cases h2 : cs[skipWs cs (skipWs cs i + 1)]? = some ']'
              · rw [if_pos h2] at h
                rw [if_pos h2]
                exact h
              · rw [if_neg h2] at h
                rw [if_neg h2]
                cases hm : parseElemsV fuel cs (skipWs cs i + 1) with
                | none => simp only [hm] at h; exact Option.noConfusion h
                | some pk =>
                  obtain ⟨es, k2⟩ := pk
                  simp only [hm] at h
                  have hk2 : k2 = k := by
                    injection h with h9
                    injection h9 with hn hk
                    try exact hk
                  subst hk2
                  have := ihE cs (skipWs cs i + 1) es k2 hm fuel2 (by omega)
                  simp only [this]
                  exact h
            · rw [if_neg h3] at h
              rw [if_neg h3]
              exact h
    · intro cs i props k h fuel2 hb
      have hj := skipWs_ge cs i
      obtain ⟨_, hik0, _⟩ := (parse_spans (fuel + 1)).2.1 cs i props k h
      have hik : i < k := by omega
      cases fuel2 with
      | zero => omega
      | succ fuel2 =>
        unfold parseMems at h
        simp only [] at h
        by_cases h1 : cs[skipWs cs i]? = some '"'
        · rw [if_pos h1] at h
          cases hs : scanStrL (List.drop (skipWs cs i + 1) cs) [] with
          | none => simp only [hs] at h; exact Option.noConfusion h
          | some sk =>
            obtain ⟨keyStr, k1⟩ := sk
            simp only [hs] at h
            by_cases h2 : cs[skipWs cs (skipWs cs i + 1 + k1)]? = some ':'
            · rw [if_pos h2] at h
              cases hv : parseV fuel cs (skipWs cs (skipWs cs i + 1 + k1) + 1) with
              | none => simp only [hv] at h; exact Option.noConfusion h
              | some vk =>
                obtain ⟨vn, k2⟩ := vk
                simp only [hv] at h
                have hj3 := skipWs_ge cs k2
                have hvlen := parseV_len_pos fuel cs _ vn k2 hv
                obtain ⟨hvoff, hvend, _⟩ := (parse_spans fuel).1 cs _ vn k2 hv
                have hjv := skipWs_ge cs (skipWs cs (skipWs cs i + 1 + k1) + 1)
                have hj2 := skipWs_ge cs (skipWs cs i + 1 + k1)
                by_cases h3 : cs[skipWs cs k2]? = some ','
                · rw [if_pos h3] at h
                  cases hm : parseMems fuel cs (skipWs cs k2 + 1) with
                  | none => simp only [hm] at h; exact Option.noConfusion h
                  | some rk =>
                    obtain ⟨rest, k3⟩ := rk
                    simp only [hm] at h
                    have hk3 : k3 = k := by
                      injection h with h9
                      injection h9 with hn hk
                      try exact hk
                    subst hk3
                    obtain ⟨_, hlt, _⟩ :=
                      (parse_spans fuel).2.1 cs (skipWs cs k2 + 1) rest k3 hm
                    have hsg := skipWs_ge cs (skipWs cs k2 + 1)
                    have hk2k : k2 < k3 := by omega
                    have hV := ihV cs _ vn k2 hv fuel2 (by omega)
                    have hM := ihM cs (skipWs cs k2 + 1) rest k3 hm fuel2 (by omega)
                    unfold parseMems
                    simp only []
                    rw [if_pos h1]
                    simp only [hs]
                    rw [if_pos h2]
                    simp only [hV]
                    rw [if_pos h3]
                    simp only [hM]
                    exact h
                · rw [if_neg h3] at h
                  by_cases h4 : cs[skipWs cs k2]? = some '}'
                  · rw [if_pos h4] at h
                    have hk : k = skipWs cs k2 + 1 := by
                      injection h with h9
                      injection h9 with hn hk
                      try omega
                    have hV := ihV cs _ vn k2 hv fuel2 (by omega)
                    unfold parseMems
                    simp only []
                    rw [if_pos h1]
                    simp only [hs]
                    rw [if_pos h2]
                    simp only [hV]
                    rw [if_neg h3, if_pos h4]
                    exact h
                  · rw [if_neg h4] at h
                    exact Option.noConfusion h
            · rw [if_neg h2] at h
              exact Option.noConfusion h
        · rw [if_neg h1] at h
          exact Option.noConfusion h
    · intro cs i es k h fuel2 hb
      have hji := skipWs_ge cs i
      obtain ⟨_, hik0, _⟩ := (parse_spans (fuel + 1)).2.2 cs i es k h
      have hik : i < k := by omega
      cases fuel2 with
      | zero => omega
      | succ fuel2 =>
        unfold parseElemsV at h
        simp only [] at h
        cases hv : parseV fuel cs i with
        | none => simp only [hv] at h; exact Option.noConfusion h
        | some vk =>
          obtain ⟨vn, k1⟩ := vk
          simp only [hv] at h
          have hj := skipWs_ge cs k1
          have hvlen := parseV_len_pos fuel cs i vn k1 hv
          obtain ⟨hvoff, hvend, _⟩ := (parse_spans fuel).1 cs i vn k1 hv
          by_cases h3 : cs[skipWs cs k1]? = some ','
          · rw [if_pos h3] at h
            cases hm : parseElemsV fuel cs (skipWs cs k1 + 1) with
            | none => simp only [hm] at h; exact Option.noConfusion h
            | some rk =>
              obtain ⟨rest, k3⟩ := rk
              simp only [hm] at h
              have hk3 : k3 = k := by
                injection h with h9
                injection h9 with hn hk
                try exact hk
              subst hk3
              obtain ⟨_, hlt, _⟩ :=
                (parse_spans fuel).2.2 cs (skipWs cs k1 + 1) rest k3 hm
              have hsg := skipWs_ge cs (skipWs cs k1 + 1)
              have hk1k : k1 < k3 := by omega
              have hV := ihV cs i vn k1 hv fuel2 (by omega)
              have hE := ihE cs (skipWs cs k1 + 1) rest k3 hm fuel2 (by omega)
              unfold parseElemsV
              simp only []
              simp only [hV]
              rw [if_pos h3]
              simp only [hE]
              exact h
          · rw [if_neg h3] at h
            by_cases h4 : cs[skipWs cs k1]? = some ']'
            · rw [if_pos h4] at h
              have hk : k = skipWs cs k1 + 1 := by
                injection h with h9
                injection h9 with hn hk
                try omega
              have hV := ihV cs i vn k1 hv fuel2 (by omega)
              unfold parseElemsV
              simp only []
              simp only [hV]
              rw [if_neg h3, if_pos h4]
              exact h
            · rw [if_neg h4] at h
              exact Option.noConfusion h

/-- The replacement window of a splice holds exactly the replacement text. -/
theorem splice_mid (cs : List Char) (off len : Nat) (repl : List Char)
    (p : Nat) (hoff : off ≤ cs.length) (h : p < repl.length) :
    (splice cs off len repl)[off + p]? = repl[p]? := by
  unfold splice
  rw [show cs.take off ++ repl ++ cs.drop (off + len)
      = cs.take off ++ (repl ++ cs.drop (off + len)) from by simp]
  rw [List.getElem?_append_right (by simp only [List.length_take]; omega)]
  rw [List.getElem?_append, if_pos (by simp only [List.length_take]; omega)]
  congr 1
  simp only [List.length_take]
  omega

/-- Two splices at the same offset collapse: re-replacing the replacement
yields the effect of a single splice. -/
theorem splice_splice (cs : List Char) (off len : Nat) (r1 r2 : List Char)
    (hoff : off ≤ cs.length) :
    splice (splice cs off len r1) off r1.length r2 = splice cs off len r2 := by
  unfold splice
  have h1 : (cs.take off ++ r1 ++ cs.drop (off + len)).take off = cs.take off := by
    rw [show cs.take off ++ r1 ++ cs.drop (off + len)
        = cs.take off ++ (r1 ++ cs.drop (off + len)) from by simp]
    rw [List.take_append_eq_append_take]
    rw [show (cs.take off).take off = cs.take off from
      List.take_of_length_le (by simp only [List.length_take]; omega)]
    rw [show off - (cs.take off).length = 0 from by
      simp only [List.length_take]; omega]
    simp
  have h2 : (cs.take off ++ r1 ++ cs.drop (off + len)).drop (off + r1.length)
      = cs.drop (off + len) := by
    rw [show cs.take off ++ r1 ++ cs.drop (off + len)
        = (cs.take off ++ r1) ++ cs.drop (off + len) from by simp]
    rw [List.drop_append_eq_append_drop]
    rw [show (cs.take off ++ r1).drop (off + r1.length) = [] from
      List.drop_of_length_le (by simp only [List.length_append, List.length_take]; omega)]
    rw [show off + r1.length - (cs.take off ++ r1).length = 0 from by
      simp only [List.length_append, List.length_take]; omega]
    simp
  rw [h1, h2]

/-- Characterize `skipWs` by a whitespace window and a non-whitespace stop. -/
theorem skipWs_eq_of (cs : List Char) (i r : Nat) (hge : i ≤ r)
    (hws : ∀ p, i ≤ p → p < r → ∃ c, cs[p]? = some c ∧ isWsJ c = true)
    (hstop : ∀ c, cs[r]? = some c → isWsJ c = false) :
    skipWs cs i = r := by
  unfold skipWs
  have h := wsCount_eq_of (cs.drop i) (r - i)
    (fun p hp => by
      obtain ⟨c, h1, h2⟩ := hws (i + p) (by omega) (by omega)
      exact ⟨c, by rw [List.getElem?_drop]; exact h1, h2⟩)
    (fun c hcg => by
      rw [List.getElem?_drop] at hcg
      exact hstop c (by rw [show r = i + (r - i) from by omega]; exact hcg))
  omega

/-- `skipWs` stops at a non-whitespace character. -/
theorem skipWs_stop (cs : List Char) (i : Nat) (c : Char)
    (h : cs[skipWs cs i]? = some c) : isWsJ c = false := by
  unfold skipWs at h
  rw [show i + wsCount (cs.drop i) = i + wsCount (cs.drop i) from rfl] at h
  have := wsCount_stop (cs.drop i) c
  apply this
  rw [List.getElem?_drop]
  exact h

/-- Positions strictly before `skipWs` hold whitespace. -/
theorem skipWs_ws (cs : List Char) (i p : Nat) (h1 : i ≤ p)
    (h2 : p < skipWs cs i) : ∃ c, cs[p]? = some c ∧ isWsJ c = true := by
  unfold skipWs at h2
  obtain ⟨c, hg, hw⟩ := wsCount_ws (cs.drop i) (p - i) (by omega)
  rw [List.getElem?_drop] at hg
  exact ⟨c, by rw [show p = i + (p - i) from by omega]; exact hg, hw⟩

/-- `parseV` looks at its start position only through `skipWs`. -/
theorem parseV_skipWs_congr (fuel : Nat) (cs : List Char) (i i2 : Nat)
    (h : skipWs cs i = skipWs cs i2) :
    parseV (fuel + 1) cs i = parseV (fuel + 1) cs i2 := by
  unfold parseV
  simp only []
  rw [h]

theorem shiftNode_off (a b : Nat) (n : Node) :
    (shiftNode a b n).off = n.off - a + b := by
  cases n <;> rfl

theorem shiftNode_len (a b : Nat) (n : Node) :
    (shiftNode a b n).len = n.len := by
  cases n <;> rfl

mutual

/-- Shifting offsets does not change the decoded value. -/
theorem decodeNode_shift (a b : Nat) : ∀ n : Node,
    decodeNode (shiftNode a b n) = decodeNode n
  | .nstr o l s => rfl
  | .nnum o l v => rfl
  | .nbool o l v => rfl
  | .nnull o l => rfl
  | .narr o l es => by
    simp only [shiftNode, decodeNode]
    rw [decodeElems_shift a b es]
  | .nobj o l ps => by
    simp only [shiftNode, decodeNode]
    rw [decodeProps_shift a b ps []]
  | .nprop o l kn vn => rfl

theorem decodeElems_shift (a b : Nat) : ∀ es : List Node,
    decodeElems (shiftList a b es) = decodeElems es
  | [] => rfl
  | n :: rest => by
    simp only [shiftList, decodeElems]
    rw [decodeNode_shift a b n, decodeElems_shift a b rest]

theorem decodeProps_shift (a b : Nat) : ∀ (ps : List Node)
    (acc : List (String × JVal)),
    decodeProps (shiftList a b ps) acc = decodeProps ps acc
  | [], acc => rfl
  | p :: rest, acc => by
    match p with
    | .nprop o l (.nstr o2 l2 k) vn =>
      show decodeProps (shiftList a b rest)
          (insertJV acc k (decodeNode (shiftNode a b vn))) = _
      rw [decodeNode_shift a b vn]
      exact decodeProps_shift a b rest _
    | .nstr o l s => exact decodeProps_shift a b rest acc
    | .nnum o l v => exact decodeProps_shift a b rest acc
    | .nbool o l v => exact decodeProps_shift a b rest acc
    | .nnull o l => exact decodeProps_shift a b rest acc
    | .narr o l es => exact decodeProps_shift a b rest acc
    | .nobj o l ps2 => exact decodeProps_shift a b rest acc
    | .nprop o l (.nnum x y z) vn => exact decodeProps_shift a b rest acc
    | .nprop o l (.nbool x y z) vn => exact decodeProps_shift a b rest acc
    | .nprop o l (.nnull x y) vn => exact decodeProps_shift a b rest acc
    | .nprop o l (.narr x y z) vn => exact decodeProps_shift a b rest acc
    | .nprop o l (.nobj x y z) vn => exact decodeProps_shift a b rest acc
    | .nprop o l (.nprop x y z w) vn => exact decodeProps_shift a b rest acc

end

mutual

/-- Shifting by the window start is the identity on nodes. -/
theorem shiftNode_zero : ∀ n : Node, shiftNode 0 0 n = n
  | .nstr o l s => by simp [shiftNode]
  | .nnum o l v => by simp [shiftNode]
  | .nbool o l v => by simp [shiftNode]
  | .nnull o l => by simp [shiftNode]
  | .narr o l es => by simp only [shiftNode]; rw [shiftList_zero es]; simp
  | .nobj o l ps => by simp only [shiftNode]; rw [shiftList_zero ps]; simp
  | .nprop o l kn vn => by
    simp only [shiftNode]
    rw [shiftNode_zero kn, shiftNode_zero vn]
    simp

theorem shiftList_zero : ∀ ns : List Node, shiftList 0 0 ns = ns
  | [] => rfl
  | n :: rest => by
    simp only [shiftList]
    rw [shiftNode_zero n, shiftList_zero rest]

end

/-- Shifting preserves property keys. -/
theorem propKey_shift (a b : Nat) (p : Node) :
    propKey (shiftNode a b p) = propKey p := by
  match p with
  | .nprop o l (.nstr o2 l2 k) vn => rfl
  | .nstr o l s => rfl
  | .nnum o l v => rfl
  | .nbool o l v => rfl
  | .nnull o l => rfl
  | .narr o l es => rfl
  | .nobj o l ps2 => rfl
  | .nprop o l (.nnum x y z) vn => rfl
  | .nprop o l (.nbool x y z) vn => rfl
  | .nprop o l (.nnull x y) vn => rfl
  | .nprop o l (.narr x y z) vn => rfl
  | .nprop o l (.nobj x y z) vn => rfl
  | .nprop o l (.nprop x y z w) vn => rfl

theorem propKeys_shift (a b : Nat) : ∀ ps : List Node,
    propKeys (shiftList a b ps) = propKeys ps := by
  intro ps
  induction ps with
  | nil => rfl
  | cons p rest ih =>
    have ih2 : List.filterMap propKey (shiftList a b rest)
        = List.filterMap propKey rest := ih
    show List.filterMap propKey (shiftNode a b p :: shiftList a b rest)
        = List.filterMap propKey (p :: rest)
    rw [List.filterMap_cons, List.filterMap_cons, propKey_shift, ih2]

mutual

/-- Key discipline needed for first-match lookups to agree with the decoded
object graph: every object's properties are well-formed and pairwise
distinct in key.  (No hygiene condition on the key text.) -/
def nodeDupFree : Node → Bool
  | .nstr _ _ _ => true
  | .nnum _ _ _ => true
  | .nbool _ _ _ => true
  | .nnull _ _ => true
  | .narr _ _ es => elemsDupFree es
  | .nobj _ _ ps => decide (propKeys ps).Nodup && propsDupFree ps
  | .nprop _ _ _ _ => false

def elemsDupFree : List Node → Bool
  | [] => true
  | n :: rest => nodeDupFree n && elemsDupFree rest

def propsDupFree : List Node → Bool
  | [] => true
  | p :: rest =>
    match p with
    | .nprop _ _ (.nstr _ _ _) vn => nodeDupFree vn && propsDupFree rest
    | _ => false

end

mutual

theorem nodeDupFree_shift (a b : Nat) : ∀ n : Node,
    nodeDupFree (shiftNode a b n) = nodeDupFree n
  | .nstr o l s => rfl
  | .nnum o l v => rfl
  | .nbool o l v => rfl
  | .nnull o l => rfl
  | .narr o l es => by
    simp only [shiftNode, nodeDupFree]
    rw [elemsDupFree_shift a b es]
  | .nobj o l ps => by
    simp only [shiftNode, nodeDupFree]
    rw [propKeys_shift a b ps, propsDupFree_shift a b ps]
  | .nprop o l kn vn => rfl

theorem elemsDupFree_shift (a b : Nat) : ∀ es : List Node,
    elemsDupFree (shiftList a b es) = elemsDupFree es
  | [] => rfl
  | n :: rest => by
    show elemsDupFree (shiftNode a b n :: shiftList a b rest) = _
    simp only [elemsDupFree]
    rw [nodeDupFree_shift a b n, elemsDupFree_shift a b rest]

theorem propsDupFree_shift (a b : Nat) : ∀ ps : List Node,
    propsDupFree (shiftList a b ps) = propsDupFree ps
  | [] => rfl
  | p :: rest => by
    match p with
    | .nprop o l (.nstr o2 l2 k) vn =>
      show propsDupFree (Node.nprop (o - a + b) l
          (.nstr (o2 - a + b) l2 k) (shiftNode a b vn) :: shiftList a b rest) = _
      simp only [propsDupFree]
      rw [nodeDupFree_shift a b vn, propsDupFree_shift a b rest]
    | .nstr o l s => rfl
    | .nnum o l v => rfl
    | .nbool o l v => rfl
    | .nnull o l => rfl
    | .narr o l es => rfl
    | .nobj o l ps2 => rfl
    | .nprop o l (.nnum x y z) vn => rfl
    | .nprop o l (.nbool x y z) vn => rfl
    | .nprop o l (.nnull x y) vn => rfl
    | .nprop o l (.narr x y z) vn => rfl
    | .nprop o l (.nobj x y z) vn => rfl
    | .nprop o l (.nprop x y z w) vn => rfl

end

theorem setProp_insert_self (acc : List (String × JVal)) (k : String)
    (v w : JVal) : setProp (insertJV acc k v) k w = insertJV acc k w := by
  induction acc with
  | nil => simp [insertJV, setProp]
  | cons p rest ih =>
    by_cases h : p.1 = k
    · simp [insertJV, setProp, h]
    · simp [insertJV, setProp, h, ih]

theorem insertJV_setProp_comm (acc : List (String × JVal)) (k k0 : String)
    (w v0 : JVal) (h : k0 ≠ k) :
    insertJV (setProp acc k w) k0 v0 = setProp (insertJV acc k0 v0) k w := by
  have hk : k ≠ k0 := fun hc => h hc.symm
  induction acc with
  | nil =>
    show [(k0, v0)] = setProp [(k0, v0)] k w
    rw [show setProp [(k0, v0)] k w
        = (if k0 = k then (k0, w) :: [] else (k0, v0) :: setProp [] k w) from rfl]
    rw [if_neg h]
    rfl
  | cons p rest ih =>
    obtain ⟨pk, pv⟩ := p
    by_cases h1 : pk = k
    · have h2 : pk ≠ k0 := fun hc => hk (h1 ▸ hc)
      show insertJV ((if pk = k then (pk, w) :: rest else (pk, pv) :: setProp rest k w)) k0 v0 = _
      rw [if_pos h1]
      show (if pk = k0 then (pk, v0) :: rest else (pk, w) :: insertJV rest k0 v0)
          = setProp (if pk = k0 then (pk, v0) :: rest
              else (pk, pv) :: insertJV rest k0 v0) k w
      rw [if_neg h2, if_neg h2]
      show _ = (if pk = k then (pk, w) :: insertJV rest k0 v0
          else (pk, pv) :: setProp (insertJV rest k0 v0) k w)
      rw [if_pos h1]
    · show insertJV ((if pk = k then (pk, w) :: rest else (pk, pv) :: setProp rest k w)) k0 v0 = _
      rw [if_neg h1]
      by_cases h2 : pk = k0
      · show (if pk = k0 then (pk, v0) :: setProp rest k w
            else (pk, pv) :: insertJV (setProp rest k w) k0 v0)
            = setProp (if pk = k0 then (pk, v0) :: rest
                else (pk, pv) :: insertJV rest k0 v0) k w
        rw [if_pos h2, if_pos h2]
        show _ = (if pk = k then (pk, w) :: rest else (pk, v0) :: setProp rest k w)
        rw [if_neg h1]
      · show (if pk = k0 then (pk, v0) :: setProp rest k w
            else (pk, pv) :: insertJV (setProp rest k w) k0 v0)
            = setProp (if pk = k0 then (pk, v0) :: rest
                else (pk, pv) :: insertJV rest k0 v0) k w
        rw [if_neg h2, if_neg h2]
        show _ = (if pk = k then (pk, w) :: insertJV rest k0 v0
            else (pk, pv) :: setProp (insertJV rest k0 v0) k w)
        rw [if_neg h1, ih]

theorem decodeProps_setProp : ∀ (ps : List Node) (acc : List (String × JVal))
    (k : String) (w : JVal), k ∉ propKeys ps →
    decodeProps ps (setProp acc k w) = setProp (decodeProps ps acc) k w
  | [], acc, k, w, _ => rfl
  | p :: rest, acc, k, w, hk => by
    match p with
    | .nprop o l (.nstr o2 l2 k0) vn =>
      have hk0 : k0 ∈ propKeys (Node.nprop o l (.nstr o2 l2 k0) vn :: rest) := by
        simp [propKeys, propKey, List.filterMap]
      have hne : k0 ≠ k := fun hc => hk (hc ▸ hk0)
      have hrest : k ∉ propKeys rest := fun hc =>
        hk (by simp [propKeys, propKey, List.filterMap] at hc ⊢; right; exact hc)
      show decodeProps rest (insertJV (setProp acc k w) k0 (decodeNode vn)) = _
      rw [insertJV_setProp_comm acc k k0 w (decodeNode vn) hne]
      exact decodeProps_setProp rest _ k w hrest
    | .nstr o l s =>
      exact decodeProps_setProp rest acc k w (by simpa [propKeys, propKey] using hk)
    | .nnum o l v =>
      exact decodeProps_setProp rest acc k w (by simpa [propKeys, propKey] using hk)
    | .nbool o l b =>
      exact decodeProps_setProp rest acc k w (by simpa [propKeys, propKey] using hk)
    | .nnull o l =>
      exact decodeProps_setProp rest acc k w (by simpa [propKeys, propKey] using hk)
    | .narr o l es =>
      exact decodeProps_setProp rest acc k w (by simpa [propKeys, propKey] using hk)
    | .nobj o l ps2 =>
      exact decodeProps_setProp rest acc k w (by simpa [propKeys, propKey] using hk)
    | .nprop o l (.nnum x y z) vn =>
      exact decodeProps_setProp rest acc k w (by simpa [propKeys, propKey] using hk)
    | .nprop o l (.nbool x y z) vn =>
      exact decodeProps_setProp rest acc k w (by simpa [propKeys, propKey] using hk)
    | .nprop o l (.nnull x y) vn =>
      exact decodeProps_setProp rest acc k w (by simpa [propKeys, propKey] using hk)
    | .nprop o l (.narr x y z) vn =>
      exact decodeProps_setProp rest acc k w (by simpa [propKeys, propKey] using hk)
    | .nprop o l (.nobj x y z) vn =>
      exact decodeProps_setProp rest acc k w (by simpa [propKeys, propKey] using hk)
    | .nprop o l (.nprop x y z u) vn =>
      exact decodeProps_setProp rest acc k w (by simpa [propKeys, propKey] using hk)

/-- Re-inserting a fresh-keyed value equals a `setProp` on the old insert:
the decode-level effect of replacing one property's value. -/
theorem decodeProps_insert_set (rest : List Node) (acc : List (String × JVal))
    (k : String) (v w : JVal) (hk : k ∉ propKeys rest) :
    decodeProps rest (insertJV acc k w)
      = setProp (decodeProps rest (insertJV acc k v)) k w := by
  rw [← setProp_insert_self acc k v w]
  exact decodeProps_setProp rest _ k w hk

theorem findPropByKey_get_eq : ∀ (props : List Node) (k : String) (vn : Node),
    findPropByKey props k = some vn →
    ∃ (i o l o2 l2 : Nat),
      props[i]? = some (Node.nprop o l (.nstr o2 l2 k) vn) := by
  intro props
  induction props with
  | nil => intro k vn h; exact Option.noConfusion h
  | cons p rest ih =>
    intro k vn h
    match p with
    | .nprop o l (.nstr o2 l2 k2) vn2 =>
      rw [show findPropByKey (Node.nprop o l (.nstr o2 l2 k2) vn2 :: rest) k
          = (if k2 = k then some vn2 else findPropByKey rest k) from rfl] at h
      by_cases hk : k2 = k
      · rw [if_pos hk] at h
        injection h with h
        subst h
        subst hk
        exact ⟨0, o, l, o2, l2, by simp⟩
      · rw [if_neg hk] at h
        obtain ⟨i, a, b, c, d, hg⟩ := ih k vn h
        exact ⟨i + 1, a, b, c, d, by simpa using hg⟩
    | .nstr o l s =>
      obtain ⟨i, a, b, c, d, hg⟩ := ih k vn h
      exact ⟨i + 1, a, b, c, d, by simpa using hg⟩
    | .nnum o l v =>
      obtain ⟨i, a, b, c, d, hg⟩ := ih k vn h
      exact ⟨i + 1, a, b, c, d, by simpa using hg⟩
    | .nbool o l b2 =>
      obtain ⟨i, a, b, c, d, hg⟩ := ih k vn h
      exact ⟨i + 1, a, b, c, d, by simpa using hg⟩
    | .nnull o l =>
      obtain ⟨i, a, b, c, d, hg⟩ := ih k vn h
      exact ⟨i + 1, a, b, c, d, by simpa using hg⟩
    | .narr o l es =>
      obtain ⟨i, a, b, c, d, hg⟩ := ih k vn h
      exact ⟨i + 1, a, b, c, d, by simpa using hg⟩
    | .nobj o l ps =>
      obtain ⟨i, a, b, c, d, hg⟩ := ih k vn h
      exact ⟨i + 1, a, b, c, d, by simpa using hg⟩
    | .nprop o l (.nnum x y z) vn2 =>
      obtain ⟨i, a, b, c, d, hg⟩ := ih k vn h
      exact ⟨i + 1, a, b, c, d, by simpa using hg⟩
    | .nprop o l (.nbool x y z) vn2 =>
      obtain ⟨i, a, b, c, d, hg⟩ := ih k vn h
      exact ⟨i + 1, a, b, c, d, by simpa using hg⟩
    | .nprop o l (.nnull x y) vn2 =>
      obtain ⟨i, a, b, c, d, hg⟩ := ih k vn h
      exact ⟨i + 1, a, b, c, d, by simpa using hg⟩
    | .nprop o l (.narr x y z) vn2 =>
      obtain ⟨i, a, b, c, d, hg⟩ := ih k vn h
      exact ⟨i + 1, a, b, c, d, by simpa using hg⟩
    | .nprop o l (.nobj x y z) vn2 =>
      obtain ⟨i, a, b, c, d, hg⟩ := ih k vn h
      exact ⟨i + 1, a, b, c, d, by simpa using hg⟩
    | .nprop o l (.nprop x y z w) vn2 =>
      obtain ⟨i, a, b, c, d, hg⟩ := ih k vn h
      exact ⟨i + 1, a, b, c, d, by simpa using hg⟩

/-- Under distinct keys, the tree-side first-match lookup agrees with the
decoded object's property lookup. -/
theorem findProp_lookup (props : List Node) (k : String) (vn : Node)
    (hnd : (propKeys props).Nodup) (h : findPropByKey props k = some vn) :
    lookupProp (decodeProps props []) k = some (decodeNode vn) := by
  obtain ⟨i, o, l, o2, l2, hg⟩ := findPropByKey_get_eq props k vn h
  exact decodeProps_lookup props [] i o l o2 l2 k vn hnd hg (by simp)

theorem lookup_setProp_self (props : List (String × JVal)) (k : String)
    (v w : JVal) (h : lookupProp props k = some v) :
    lookupProp (setProp props k w) k = some w := by
  induction props with
  | nil => exact Option.noConfusion h
  | cons p rest ih =>
    by_cases h1 : p.1 = k
    · simp [setProp, lookupProp, h1]
    · rw [show lookupProp (p :: rest) k
          = (if p.1 = k then some p.2 else lookupProp rest k) from by
        cases p; rfl] at h
      rw [if_neg h1] at h
      simp [setProp, lookupProp, h1, ih h]

theorem setProp_setProp (props : List (String × JVal)) (k : String)
    (a b : JVal) : setProp (setProp props k a) k b = setProp props k b := by
  induction props with
  | nil => rfl
  | cons p rest ih =>
    by_cases h1 : p.1 = k
    · simp [setProp, h1]
    · simp [setProp, h1, ih]

theorem setProp_self (props : List (String × JVal)) (k : String) (v : JVal)
    (h : lookupProp props k = some v) : setProp props k v = props := by
  induction props with
  | nil => rfl
  | cons p rest ih =>
    rw [show lookupProp (p :: rest) k
        = (if p.1 = k then some p.2 else lookupProp rest k) from by
      cases p; rfl] at h
    by_cases h1 : p.1 = k
    · rw [if_pos h1] at h
      injection h with h
      cases p
      simp at h1 h ⊢
      simp [setProp, h1, h]
    · rw [if_neg h1] at h
      simp [setProp, h1, ih h]

theorem decodeElems_append (a b2 : List Node) :
    decodeElems (a ++ b2) = decodeElems a ++ decodeElems b2 := by
  induction a with
  | nil => rfl
  | cons n rest ih => simp [decodeElems, ih]

theorem ws_not_digit (c : Char) (h : isWsJ c = true) : isDigitC c = false := by
  have h2 : c = ' ' ∨ c = '\t' ∨ c = '\n' ∨ c = '\r' := by
    simpa [isWsJ, or_assoc] using h
  rcases h2 with h1 | h1 | h1 | h1 <;> subst h1 <;> decide

/-- If the next non-whitespace character after `k` is a non-digit, then the
character at `k` itself (whitespace or that stop) is a non-digit. -/
theorem sep_end_nondigit (cs : List Char) (k : Nat) (c : Char)
    (hsep : cs[skipWs cs k]? = some c) (hc : isDigitC c = false) :
    nonDigitOpt cs[k]? = true := by
  by_cases h : skipWs cs k = k
  · rw [h] at hsep
    rw [hsep]
    simp [nonDigitOpt, hc]
  · have hk := skipWs_ge cs k
    obtain ⟨c2, hg, hw⟩ := skipWs_ws cs k k (le_refl k) (by omega)
    rw [hg]
    simp [nonDigitOpt, ws_not_digit c2 hw]

/-- End safety: inside a successful parse whose end is followed by a
non-digit, every node reached by a `findNodeAtLocation` walk is itself
followed (at its span's end) by a non-digit or the end of input. -/
theorem parse_endsafe : ∀ fuel : Nat,
    (∀ (cs : List Char) (i : Nat) (n : Node) (k : Nat),
      parseV fuel cs i = some (n, k) → nonDigitOpt cs[k]? = true →
      ∀ (segs : List Seg) (nd : Node), findNodeAtLocation n segs = some nd →
      nonDigitOpt cs[nd.off + nd.len]? = true) ∧
    (∀ (cs : List Char) (i : Nat) (props : List Node) (k : Nat),
      parseMems fuel cs i = some (props, k) →
      ∀ (kk : String) (vn : Node) (rest : List Seg) (nd : Node),
      findPropByKey props kk = some vn →
      findNodeAtLocation vn rest = some nd →
      nonDigitOpt cs[nd.off + nd.len]? = true) ∧
    (∀ (cs : List Char) (i : Nat) (es : List Node) (k : Nat),
      parseElemsV fuel cs i = some (es, k) →
      ∀ (m : Nat) (vn : Node) (rest : List Seg) (nd : Node),
      es[m]? = some vn →
      findNodeAtLocation vn rest = some nd →
      nonDigitOpt cs[nd.off + nd.len]? = true) := by
  intro fuel
  induction fuel with
  | zero =>
    exact ⟨fun _ _ _ _ h => Option.noConfusion h,
      fun _ _ _ _ h => Option.noConfusion h,
      fun _ _ _ _ h => Option.noConfusion h⟩
  | succ fuel ih =>
    obtain ⟨ihV, ihM, ihE⟩ := ih
    refine ⟨?_, ?_, ?_⟩
    · intro cs i n k h hend segs nd hloc
      obtain ⟨hoff, hkend, _⟩ := (parse_spans (fuel + 1)).1 cs i n k h
      unfold parseV at h
      simp only [] at h
      cases hc : cs[skipWs cs i]? with
      | none => simp only [hc] at h; exact Option.noConfusion h
      | some c =>
        simp only [hc] at h
        by_cases h1 : c = '{'
        · rw [if_pos h1] at h
          by_cases h2 : cs[skipWs cs (skipWs cs i + 1)]? = some '}'
          · rw [if_pos h2] at h
            injection h with h9
            injection h9 with hn hk
            subst hn
            cases segs with
            | nil =>
              injection hloc with hnd
              subst hnd
              rw [hkend]
              exact hend
            | cons s rest =>
              cases s with
              | key kk => exact Option.noConfusion hloc
              | idx m =>
                rw [show findNodeAtLocation
                    (Node.nobj (skipWs cs i)
                      (skipWs cs (skipWs cs i + 1) + 1 - skipWs cs i) [])
                    (Seg.idx m :: rest) = none from rfl] at hloc
                exact Option.noConfusion hloc
          · rw [if_neg h2] at h
            cases hm : parseMems fuel cs (skipWs cs i + 1) with
            | none => simp only [hm] at h; exact Option.noConfusion h
            | some pk =>
              obtain ⟨props, k2⟩ := pk
              simp only [hm] at h
              injection h with h9
              injection h9 with hn hk
              subst hn
              cases segs with
              | nil =>
                injection hloc with hnd
                subst hnd
                rw [hkend]
                exact hend
              | cons s rest =>
                cases s with
                | idx m => exact Option.noConfusion hloc
                | key kk =>
                  revert hloc
                  rw [show findNodeAtLocation
                      (Node.nobj (skipWs cs i) (k2 - skipWs cs i) props)
                      (Seg.key kk :: rest)
                      = (match findPropByKey props kk with
                         | some vn => findNodeAtLocation vn rest
                         | none => none) from rfl]
                  cases hfp : findPropByKey props kk with
                  | none => intro hloc; exact Option.noConfusion hloc
                  | some vn =>
                    intro hloc
                    exact ihM cs (skipWs cs i + 1) props k2 hm kk vn rest nd
                      hfp hloc
        · rw [if_neg h1] at h
          by_cases h3 : c = '['
          · rw [if_pos h3] at h
            by_cases h2 : cs[skipWs cs (skipWs cs i + 1)]? = some ']'
            · rw [if_pos h2] at h
              injection h with h9
              injection h9 with hn hk
              subst hn
              cases segs with
              | nil =>
                injection hloc with hnd
                subst hnd
                rw [hkend]
                exact hend
              | cons s rest =>
                cases s with
                | key kk => exact Option.noConfusion hloc
                | idx m =>
                  rw [show findNodeAtLocation
                      (Node.narr (skipWs cs i)
                        (skipWs cs (skipWs cs i + 1) + 1 - skipWs cs i) [])
                      (Seg.idx m :: rest) = none from by
                    simp [findNodeAtLocation]] at hloc
                  exact Option.noConfusion hloc
            · rw [if_neg h2] at h
              cases hm : parseElemsV fuel cs (skipWs cs i + 1) with
              | none => simp only [hm] at h; exact Option.noConfusion h
              | some pk =>
                obtain ⟨es, k2⟩ := pk
                simp only [hm] at h
                injection h with h9
                injection h9 with hn hk
                subst hn
                cases segs with
                | nil =>
                  injection hloc with hnd
                  subst hnd
                  rw [hkend]
                  exact hend
                | cons s rest =>
                  cases s with
                  | key kk => exact Option.noConfusion hloc
                  | idx m =>
                    revert hloc
                    rw [show findNodeAtLocation
                        (Node.narr (skipWs cs i) (k2 - skipWs cs i) es)
                        (Seg.idx m :: rest)
                        = (if h : 0 ≤ m ∧ m.toNat < es.length
                           then findNodeAtLocation es[m.toNat] rest
                           else none) from rfl]
                    by_cases hb : 0 ≤ m ∧ m.toNat < es.length
                    · rw [dif_pos hb]
                      intro hloc
                      exact ihE cs (skipWs cs i + 1) es k2 hm m.toNat
                        es[m.toNat] rest nd
                        (List.getElem?_eq_getElem hb.2) hloc
                    · rw [dif_neg hb]
                      intro hloc
                      exact Option.noConfusion hloc
          · rw [if_neg h3] at h
            -- scalar branches: no walk beyond the node itself
            have hscal : ∀ (segs2 : List Seg) (nd2 : Node),
                (∀ (o2 l2 : Nat) (es2 : List Node), n ≠ Node.narr o2 l2 es2) →
                (∀ (o2 l2 : Nat) (ps2 : List Node), n ≠ Node.nobj o2 l2 ps2) →
                findNodeAtLocation n segs2 = some nd2 →
                segs2 = [] ∧ nd2 = n := by
              intro segs2 nd2 hna hno hl
              cases segs2 with
              | nil =>
                injection hl with hl
                exact ⟨rfl, hl.symm⟩
              | cons s r2 =>
                exfalso
                cases s with
                | key kk =>
                  cases n with
                  | nobj o2 l2 ps2 => exact hno o2 l2 ps2 rfl
                  | nstr o2 l2 s2 => exact Option.noConfusion hl
                  | nnum o2 l2 v2 => exact Option.noConfusion hl
                  | nbool o2 l2 b2 => exact Option.noConfusion hl
                  | nnull o2 l2 => exact Option.noConfusion hl
                  | narr o2 l2 es2 => exact Option.noConfusion hl
                  | nprop o2 l2 kn2 vn2 => exact Option.noConfusion hl
                | idx m =>
                  cases n with
                  | narr o2 l2 es2 => exact hna o2 l2 es2 rfl
                  | nstr o2 l2 s2 => exact Option.noConfusion hl
                  | nnum o2 l2 v2 => exact Option.noConfusion hl
                  | nbool o2 l2 b2 => exact Option.noConfusion hl
                  | nnull o2 l2 => exact Option.noConfusion hl
                  | nobj o2 l2 ps2 => exact Option.noConfusion hl
                  | nprop o2 l2 kn2 vn2 => exact Option.noConfusion hl
            by_cases h4 : c = '"'
            · rw [if_pos h4] at h
              cases hs : scanStrL (cs.drop (skipWs cs i + 1)) [] with
              | none => simp only [hs] at h; exact Option.noConfusion h
              | some sk =>
                obtain ⟨s, k1⟩ := sk
                simp only [hs] at h
                injection h with h9
                injection h9 with hn hk
                obtain ⟨he1, he2⟩ := hscal segs nd
                  (by intro o2 l2 es2 hc2; rw [← hn] at hc2; exact Node.noConfusion hc2)
                  (by intro o2 l2 ps2 hc2; rw [← hn] at hc2; exact Node.noConfusion hc2)
                  hloc
                subst he2
                rw [hkend]
                exact hend
            · rw [if_neg h4] at h
              by_cases h5 : c = 't'
              · rw [if_pos h5] at h
                by_cases h6 : litAt cs (skipWs cs i) ['t', 'r', 'u', 'e']
                · rw [if_pos h6] at h
                  injection h with h9
                  injection h9 with hn hk
                  obtain ⟨he1, he2⟩ := hscal segs nd
                    (by intro o2 l2 es2 hc2; rw [← hn] at hc2; exact Node.noConfusion hc2)
                    (by intro o2 l2 ps2 hc2; rw [← hn] at hc2; exact Node.noConfusion hc2)
                    hloc
                  subst he2
                  rw [hkend]
                  exact hend
                · rw [if_neg h6] at h
                  exact Option.noConfusion h
              · rw [if_neg h5] at h
                by_cases h7 : c = 'f'
                · rw [if_pos h7] at h
                  by_cases h6 : litAt cs (skipWs cs i) ['f', 'a', 'l', 's', 'e']
                  · rw [if_pos h6] at h
                    injection h with h9
                    injection h9 with hn hk
                    obtain ⟨he1, he2⟩ := hscal segs nd
                      (by intro o2 l2 es2 hc2; rw [← hn] at hc2; exact Node.noConfusion hc2)
                      (by intro o2 l2 ps2 hc2; rw [← hn] at hc2; exact Node.noConfusion hc2)
                      hloc
                    subst he2
                    rw [hkend]
                    exact hend
                  · rw [if_neg h6] at h
                    exact Option.noConfusion h
                · rw [if_neg h7] at h
                  by_cases h8 : c = 'n'
                  · rw [if_pos h8] at h
                    by_cases h6 : litAt cs (skipWs cs i) ['n', 'u', 'l', 'l']
                    · rw [if_pos h6] at h
                      injection h with h9
                      injection h9 with hn hk
                      obtain ⟨he1, he2⟩ := hscal segs nd
                        (by intro o2 l2 es2 hc2; rw [← hn] at hc2; exact Node.noConfusion hc2)
                        (by intro o2 l2 ps2 hc2; rw [← hn] at hc2; exact Node.noConfusion hc2)
                        hloc
                      subst he2
                      rw [hkend]
                      exact hend
                    · rw [if_neg h6] at h
                      exact Option.noConfusion h
                  · rw [if_neg h8] at h
                    by_cases h9c : c = '-' ∨ isDigitC c = true
                    · rw [if_pos (by simpa using h9c)] at h
                      cases hsn : scanNumL (cs.drop (skipWs cs i)) with
                      | none => simp only [hsn] at h; exact Option.noConfusion h
                      | some vk2 =>
                        obtain ⟨v, k1⟩ := vk2
                        simp only [hsn] at h
                        injection h with h9
                        injection h9 with hn hk
                        obtain ⟨he1, he2⟩ := hscal segs nd
                          (by intro o2 l2 es2 hc2; rw [← hn] at hc2
                              exact Node.noConfusion hc2)
                          (by intro o2 l2 ps2 hc2; rw [← hn] at hc2
                              exact Node.noConfusion hc2)
                          hloc
                        subst he2
                        rw [hkend]
                        exact hend
                    · rw [if_neg (by simpa using h9c)] at h
                      exact Option.noConfusion h
    · intro cs i props k h kk vn rest nd hfp hloc
      unfold parseMems at h
      simp only [] at h
      by_cases h1 : cs[skipWs cs i]? = some '"'
      · rw [if_pos h1] at h
        cases hs : scanStrL (List.drop (skipWs cs i + 1) cs) [] with
        | none => simp only [hs] at h; exact Option.noConfusion h
        | some sk =>
          obtain ⟨keyStr, k1⟩ := sk
          simp only [hs] at h
          by_cases h2 : cs[skipWs cs (skipWs cs i + 1 + k1)]? = some ':'
          · rw [if_pos h2] at h
            cases hv : parseV fuel cs (skipWs cs (skipWs cs i + 1 + k1) + 1) with
            | none => simp only [hv] at h; exact Option.noConfusion h
            | some vk =>
              obtain ⟨vn0, k2⟩ := vk
              simp only [hv] at h
              by_cases h3 : cs[skipWs cs k2]? = some ','
              · rw [if_pos h3] at h
                cases hm : parseMems fuel cs (skipWs cs k2 + 1) with
                | none => simp only [hm] at h; exact Option.noConfusion h
                | some rk =>
                  obtain ⟨restP, k3⟩ := rk
                  simp only [hm] at h
                  injection h with h9
                  injection h9 with hn hk
                  rw [← hn] at hfp
                  rw [show findPropByKey
                      (Node.nprop (skipWs cs i) (skipWs cs k2 - skipWs cs i)
                        (Node.nstr (skipWs cs i) (k1 + 1) keyStr) vn0 :: restP) kk
                      = (if keyStr = kk then some vn0 else findPropByKey restP kk)
                      from rfl] at hfp
                  by_cases hkm : keyStr = kk
                  · rw [if_pos hkm] at hfp
                    injection hfp with hfp
                    rw [hfp] at hv
                    have hEnd : nonDigitOpt cs[k2]? = true :=
                      sep_end_nondigit cs k2 ',' h3 (by decide)
                    exact ihV cs _ vn k2 hv hEnd rest nd hloc
                  · rw [if_neg hkm] at hfp
                    exact ihM cs (skipWs cs k2 + 1) restP k3 hm kk vn rest nd
                      hfp hloc
              · rw [if_neg h3] at h
                by_cases h4 : cs[skipWs cs k2]? = some '}'
                · rw [if_pos h4] at h
                  injection h with h9
                  injection h9 with hn hk
                  rw [← hn] at hfp
                  rw [show findPropByKey
                      [Node.nprop (skipWs cs i) (skipWs cs k2 - skipWs cs i)
                        (Node.nstr (skipWs cs i) (k1 + 1) keyStr) vn0] kk
                      = (if keyStr = kk then some vn0 else findPropByKey [] kk)
                      from rfl] at hfp
                  by_cases hkm : keyStr = kk
                  · rw [if_pos hkm] at hfp
                    injection hfp with hfp
                    rw [hfp] at hv
                    have hEnd : nonDigitOpt cs[k2]? = true :=
                      sep_end_nondigit cs k2 '}' h4 (by decide)
                    exact ihV cs _ vn k2 hv hEnd rest nd hloc
                  · rw [if_neg hkm] at hfp
                    exact Option.noConfusion hfp
                · rw [if_neg h4] at h
                  exact Option.noConfusion h
          · rw [if_neg h2] at h
            exact Option.noConfusion h
      · rw [if_neg h1] at h
        exact Option.noConfusion h
    · intro cs i es k h m vn rest nd hg hloc
      unfold parseElemsV at h
      simp only [] at h
      cases hv : parseV fuel cs i with
      | none => simp only [hv] at h; exact Option.noConfusion h
      | some vk =>
        obtain ⟨vn0, k1⟩ := vk
        simp only [hv] at h
        by_cases h3 : cs[skipWs cs k1]? = some ','
        · rw [if_pos h3] at h
          cases hm : parseElemsV fuel cs (skipWs cs k1 + 1) with
          | none => simp only [hm] at h; exact Option.noConfusion h
          | some rk =>
            obtain ⟨restE, k3⟩ := rk
            simp only [hm] at h
            injection h with h9
            injection h9 with hn hk
            rw [← hn] at hg
            cases m with
            | zero =>
              rw [show (vn0 :: restE)[0]? = some vn0 from by simp] at hg
              injection hg with hg
              rw [hg] at hv
              have hEnd : nonDigitOpt cs[k1]? = true :=
                sep_end_nondigit cs k1 ',' h3 (by decide)
              exact ihV cs i vn k1 hv hEnd rest nd hloc
            | succ m2 =>
              rw [show (vn0 :: restE)[m2 + 1]? = restE[m2]? from by simp] at hg
              exact ihE cs (skipWs cs k1 + 1) restE k3 hm m2 vn rest nd hg hloc
        · rw [if_neg h3] at h
          by_cases h4 : cs[skipWs cs k1]? = some ']'
          · rw [if_pos h4] at h
            injection h with h9
            injection h9 with hn hk
            rw [← hn] at hg
            cases m with
            | zero =>
              rw [show [vn0][0]? = some vn0 from by simp] at hg
              injection hg with hg
              rw [hg] at hv
              have hEnd : nonDigitOpt cs[k1]? = true :=
                sep_end_nondigit cs k1 ']' h4 (by decide)
              exact ihV cs i vn k1 hv hEnd rest nd hloc
            | succ m2 =>
              rw [show [vn0][m2 + 1]? = (none : Option Node) from by simp] at hg
              exact Option.noConfusion hg
          · rw [if_neg h4] at h
            exact Option.noConfusion h

theorem digit_not_wsJ (c : Char) (h : isDigitC c = true) : isWsJ c = false := by
  cases hw : isWsJ c
  · rfl
  · rw [ws_not_digit c hw] at h
    exact Bool.noConfusion h

theorem digit_ne (c c2 : Char) (h : isDigitC c = true)
    (h2 : isDigitC c2 = false) : c ≠ c2 := fun e => by
  rw [e, h2] at h
  exact Bool.noConfusion h

theorem propsDupFree_cons (o l o2 l2 : Nat) (k : String) (vn : Node)
    (rest : List Node) :
    propsDupFree (Node.nprop o l (Node.nstr o2 l2 k) vn :: rest)
      = (nodeDupFree vn && propsDupFree rest) := rfl

theorem propKeys_cons (o l o2 l2 : Nat) (k : String) (vn : Node)
    (rest : List Node) :
    propKeys (Node.nprop o l (Node.nstr o2 l2 k) vn :: rest)
      = k :: propKeys rest := by
  simp [propKeys, propKey, List.filterMap]

theorem nodeDupFree_nobj (o l : Nat) (ps : List Node) :
    nodeDupFree (Node.nobj o l ps)
      = (decide (propKeys ps).Nodup && propsDupFree ps) := rfl

theorem nodeDupFree_narr (o l : Nat) (es : List Node) :
    nodeDupFree (Node.narr o l es) = elemsDupFree es := rfl

theorem elemsDupFree_cons (n : Node) (rest : List Node) :
    elemsDupFree (n :: rest) = (nodeDupFree n && elemsDupFree rest) := rfl

theorem decodeProps_cons (o l o2 l2 : Nat) (k : String) (vn : Node)
    (rest : List Node) (acc : List (String × JVal)) :
    decodeProps (Node.nprop o l (Node.nstr o2 l2 k) vn :: rest) acc
      = decodeProps rest (insertJV acc k (decodeNode vn)) := rfl

theorem decodeElems_cons (n : Node) (rest : List Node) :
    decodeElems (n :: rest) = decodeNode n :: decodeElems rest := rfl

theorem setPathJV_obj_key (P : List (String × JVal)) (k : String)
    (rest : List Seg) (nv : JVal) :
    setPathJV (JVal.jobj P) (Seg.key k :: rest) nv
      = (match lookupProp P k with
         | some old => JVal.jobj (setProp P k (setPathJV old rest nv))
         | none => JVal.jobj P) := rfl

theorem setPathJV_arr_idx (es : List JVal) (m : Int) (rest : List Seg)
    (nv : JVal) :
    setPathJV (JVal.jarr es) (Seg.idx m :: rest) nv
      = (if h : 0 ≤ m ∧ m.toNat < es.length
         then JVal.jarr (es.set m.toNat (setPathJV es[m.toNat] rest nv))
         else JVal.jarr es) := rfl

theorem findLoc_obj_key (o l : Nat) (props : List Node) (k : String)
    (rest : List Seg) :
    findNodeAtLocation (Node.nobj o l props) (Seg.key k :: rest)
      = (match findPropByKey props k with
         | some vn => findNodeAtLocation vn rest
         | none => none) := rfl

theorem findLoc_arr_idx (o l : Nat) (es : List Node) (m : Int)
    (rest : List Seg) :
    findNodeAtLocation (Node.narr o l es) (Seg.idx m :: rest)
      = (if h : 0 ≤ m ∧ m.toNat < es.length
         then findNodeAtLocation es[m.toNat] rest
         else none) := rfl

theorem findPropByKey_cons (o l o2 l2 : Nat) (ks : String) (vn : Node)
    (rest : List Node) (k : String) :
    findPropByKey (Node.nprop o l (Node.nstr o2 l2 ks) vn :: rest) k
      = (if ks = k then some vn else findPropByKey rest k) := rfl
